import Mathlib

/-!
# Compaction manager: admission, task counters, error classification

A shallow embedding of `compaction/compaction_manager.cc`.  Shared task objects
are records carrying an `id` (the identity of the shared pointer); the members
of `compaction_manager` keep their names (`_tasks`, `_weight_tracker`,
`_stats`, `_state`).  The header `compaction_manager.hh` is not part of the
sources at hand; what is taken from it is marked at the definition.
-/

namespace sstables

/-- The kinds of compaction (`sstables::compaction_type`). -/
inductive compaction_type where
  | Compaction
  | Cleanup
  | Validation
  | Scrub
  | Index_build
  | Reshard
  | Upgrade
  | Reshape
  deriving DecidableEq, Repr

/-- The errors a compaction round can raise, as the handlers of `perform_task`
and `maybe_retry` tell them apart; `other` is what reaches `catch (...)`. -/
inductive error where
  | compaction_stopped_exception
  | compaction_aborted_exception
  | storage_io_error
  | other
  deriving DecidableEq, Repr

/-- An sstable handle (`sstables::shared_sstable`): identity, data size, the run
it belongs to, and what the engine's `is_eligible_for_compaction` answers for
it. -/
structure sstable where
  id : Nat
  data_size : Nat := 0
  run_identifier : Nat := 0
  is_eligible_for_compaction : Bool := true
  deriving DecidableEq, Repr

/-- A compaction job (`sstables::compaction_descriptor`). -/
structure compaction_descriptor where
  sstables : List sstable := []
  has_only_fully_expired : Bool := false
  run_identifier : Nat := 0
  deriving DecidableEq, Repr

/-- Modelled from the spec: `compaction_descriptor::sstables_size()`, declared in a
header outside the sources; the total size of the sstables of the job. -/
def compaction_descriptor.sstables_size (d : compaction_descriptor) : Nat :=
  (d.sstables.map sstable.data_size).sum

/-- The per-round data of a task (`sstables::compaction_data`): the fan-in of the
running job and whether its abort source was triggered by `stop`. -/
structure compaction_data where
  compaction_fan_in : Nat := 0
  abort_requested : Bool := false
  deriving DecidableEq, Repr

/-- Modelled from the spec: `compaction_data::stop(reason)`, declared in a header
outside the sources; it moves the abort token to "stop requested". -/
def compaction_data.stop (d : compaction_data) : compaction_data :=
  { d with abort_requested := true }

end sstables

namespace compaction

/-- A table as the manager sees it (`compaction::table_state`): the identity of
the handle, whether its strategy allows parallel compaction, the user flag, and
the sstables of its main set in the order `all()` enumerates them. -/
structure table_state where
  addr : Nat
  parallel_compaction : Bool := true
  is_auto_compaction_disabled_by_user : Bool := false
  main_sstable_set : List sstables.sstable := []
  deriving DecidableEq, Repr

end compaction

open sstables compaction

namespace compaction_manager

/-- The manager life-cycle (`compaction_manager::state`). -/
inductive state where
  | none
  | disabled
  | enabled
  | stopped
  deriving DecidableEq, Repr

/-- The counters exported as metrics (`compaction_manager::stats`).  The struct
is declared in the header; the counters are taken as integers. -/
structure stats where
  pending_tasks : Int := 0
  completed_tasks : Int := 0
  active_tasks : Int := 0
  errors : Int := 0
  deriving DecidableEq, Repr

/-- The state of one task (`compaction_manager::task::state`). -/
inductive task.state where
  | none
  | pending
  | active
  | done
  | postponed
  | failed
  deriving DecidableEq, Repr

/-- The concrete class of a task object. -/
inductive task_class where
  | regular_compaction_task
  | major_compaction_task
  | custom_compaction_task
  | offstrategy_compaction_task
  | rewrite_sstables_compaction_task
  | validate_sstables_compaction_task
  | cleanup_sstables_compaction_task
  deriving DecidableEq, Repr

/-- Whether the class derives from `sstables_task`. -/
def task_class.is_sstables_task : task_class → Bool
  | .rewrite_sstables_compaction_task => true
  | .validate_sstables_compaction_task => true
  | _ => false

/-- A task object (`compaction_manager::task` and the members its subclasses
add).  `_sstables` is the queue of an `sstables_task`, `_pending_cleanup_jobs`
the queue of a cleanup task, and `weight_r` the weight registration that the
body of a regular compaction holds while it is alive and not deregistered. -/
structure task where
  id : Nat
  cls : task_class := .regular_compaction_task
  _compacting_table : Nat := 0
  _type : compaction_type := .Compaction
  _state : task.state := .none
  _compaction_data : compaction_data := {}
  _output_run_identifier : Option Nat := Option.none
  _sstables : List sstable := []
  _pending_cleanup_jobs : List compaction_descriptor := []
  weight_r : Option Int := Option.none
  deriving DecidableEq, Repr

/-- Modelled from the spec: the header's `task::compaction_running()`; a job is
running exactly while its task is in state `active`. -/
def task.compaction_running (t : task) : Bool :=
  t._state == task.state.active

/-- Modelled from the spec: the header's `task::stopping()`; `stop(reason)` marks
the abort token of the compaction data and the checkpoints observe it. -/
def task.stopping (t : task) : Bool :=
  t._compaction_data.abort_requested

/-- The per-table state kept by the manager (`compaction_state`): the disabled
counter and whether the gate was closed. -/
structure compaction_state where
  compaction_disabled_counter : Int := 0
  gate_closed : Bool := false
  deriving DecidableEq, Repr

/-- Modelled from the spec: the header's `compaction_state::compaction_disabled()`;
a table is disabled exactly when its counter is positive. -/
def compaction_state.compaction_disabled (c : compaction_state) : Bool :=
  decide (0 < c.compaction_disabled_counter)

end compaction_manager

open compaction_manager in
/-- The manager (`compaction_manager`), reduced to the members the operations
below read or write.  `_weight_tracker` is a set of weights, `_compaction_state`
the map from table handles to their state, `_stop_future` whether the shutdown
sequence `really_do_stop` was started, `_compacting_sstables` the set of the
identities of the sstables that are being compacted. -/
structure compaction_manager where
  _state : compaction_manager.state := .none
  _tasks : List task := []
  _stats : stats := {}
  _weight_tracker : List Int := []
  _postponed : List Nat := []
  _compaction_state : List (Nat × compaction_state) := []
  _stop_future : Bool := false
  _compacting_sstables : List Nat := []
  deriving DecidableEq, Repr

namespace compaction_manager

/-- The fan-in a new job has to reach (`current_compaction_fan_in_threshold`):
the largest fan-in over the task list, a task that is not running counting for
0, capped at 32; 0 for an empty list. -/
def current_compaction_fan_in_threshold (cm : compaction_manager) : Nat :=
  match cm._tasks.map
      (fun task => if task.compaction_running then task._compaction_data.compaction_fan_in else 0) with
  | [] => 0
  | x :: xs =>
    let largest_fan_in := xs.foldl max x
    min 32 largest_fan_in

/-- Whether some task of the list works on table `t` and is running
(`has_table_ongoing_compaction`). -/
def has_table_ongoing_compaction (cm : compaction_manager) (t : table_state) : Bool :=
  cm._tasks.any (fun task => task._compacting_table == t.addr && task.compaction_running)

/-- The admission test (`can_register_compaction`). -/
def can_register_compaction (cm : compaction_manager) (t : table_state) (weight : Int)
    (fan_in : Nat) : Bool :=
  if !t.parallel_compaction && cm.has_table_ongoing_compaction t then
    false
  else if weight == 0 then
    true
  else if cm._weight_tracker.contains weight then
    false
  else if fan_in < cm.current_compaction_fan_in_threshold then
    false
  else
    true

/-- Insertion into the weight tracker (`register_weight`).  The tracker is kept as
a list without repetition; `contains` sees the same members whether the
container of the header is a set or a multiset, since `erase` by key removes
every copy. -/
def register_weight (cm : compaction_manager) (weight : Int) : compaction_manager :=
  { cm with _weight_tracker := cm._weight_tracker.insert weight }

/-- Removal from the weight tracker (`deregister_weight`); the signal sent to the
re-evaluation fiber changes no member. -/
def deregister_weight (cm : compaction_manager) (weight : Int) : compaction_manager :=
  { cm with _weight_tracker := cm._weight_tracker.filter (fun w => w != weight) }

/-- The words of the admission rule: the largest fan-in among the running tasks
of the list, 0 when none runs. -/
def largest_running_fan_in (cm : compaction_manager) : Nat :=
  ((cm._tasks.filter task.compaction_running).map
    (fun task => task._compaction_data.compaction_fan_in)).foldr max 0

/-! ## Task state and counters -/

/-- The state switch of a task (`task::switch_state`): returns the old state,
stores the new one and moves the manager-wide counters. -/
def task.switch_state (t : task) (cm : compaction_manager) (new_state : task.state) :
    task.state × task × compaction_manager :=
  let old_state := t._state
  let t := { t with _state := new_state }
  let cm :=
    match old_state with
    | .none => cm
    | .done => cm
    | .postponed => cm
    | .failed => cm
    | .pending => { cm with _stats := { cm._stats with pending_tasks := cm._stats.pending_tasks - 1 } }
    | .active => { cm with _stats := { cm._stats with active_tasks := cm._stats.active_tasks - 1 } }
  let cm :=
    match new_state with
    | .none => cm
    | .postponed => cm
    | .failed => cm
    | .pending => { cm with _stats := { cm._stats with pending_tasks := cm._stats.pending_tasks + 1 } }
    | .active => { cm with _stats := { cm._stats with active_tasks := cm._stats.active_tasks + 1 } }
    | .done => { cm with _stats := { cm._stats with completed_tasks := cm._stats.completed_tasks + 1 } }
  (old_state, t, cm)

/-- The value of the comparison `_state == state::pending` inside an arithmetic
expression: 1 or 0. -/
def task.is_pending (t : task) : Int :=
  if t._state = task.state.pending then 1 else 0

/-- The contribution of a task to the active counter: 1 when active, else 0. -/
def task.is_active (t : task) : Int :=
  if t._state = task.state.active then 1 else 0

/-- The base constructor (`task::task`): a fresh object for table `t`.  Its state
is the initial state `none` of the state machine. -/
def task.ctor (id : Nat) (cls : task_class) (t : Nat) (type : compaction_type) : task :=
  { id := id, cls := cls, _compacting_table := t, _type := type }

/-- Installing the queue of an `sstables_task` (`sstables_task::set_sstables`):
an internal error when a queue is already set; otherwise the pending counter
grows by `size() - (_state == pending)`.  The difference is formed in `size_t`
and added to the counter; both are taken in the integers, which agrees with
the machine result as long as the counter stays within its type. -/
def sstables_task.set_sstables (t : task) (cm : compaction_manager)
    (new_sstables : List sstable) : Option (task × compaction_manager) :=
  if !t._sstables.isEmpty then
    Option.none
  else
    let t := { t with _sstables := new_sstables }
    some (t, { cm with _stats := { cm._stats with
      pending_tasks := cm._stats.pending_tasks + ((t._sstables.length : Int) - t.is_pending) } })

/-- Taking the next sstable off the back of the queue
(`sstables_task::consume_sstable`): an internal error on an empty queue. -/
def sstables_task.consume_sstable (t : task) (cm : compaction_manager) :
    Option (sstable × task × compaction_manager) :=
  match t._sstables.getLast? with
  | Option.none => Option.none
  | some sst =>
    some (sst, { t with _sstables := t._sstables.dropLast },
      { cm with _stats := { cm._stats with pending_tasks := cm._stats.pending_tasks - 1 } })

/-- Modelled from the spec: the constructor of `sstables_task`, declared in the
header outside the sources.  The only writer of `_sstables` in the sources is
`set_sstables`, which is applied here, on the fresh object, to the list handed
over by the constructors of the rewrite and validate tasks. -/
def sstables_task.ctor (cm : compaction_manager) (id : Nat) (cls : task_class) (t : Nat)
    (type : compaction_type) (sstables : List sstable) : Option (task × compaction_manager) :=
  sstables_task.set_sstables (task.ctor id cls t type) cm sstables

/-- The destructor body of an `sstables_task` (`sstables_task::~sstables_task`),
which runs before the base destructor. -/
def sstables_task.dtor (t : task) (cm : compaction_manager) : compaction_manager :=
  { cm with _stats := { cm._stats with
    pending_tasks := cm._stats.pending_tasks - ((t._sstables.length : Int) - t.is_pending) } }

/-- The constructor of a cleanup task (`cleanup_sstables_compaction_task`): the
jobs computed by the strategy, here given, are sorted by decreasing total size
and queued, and the pending counter grows by their number. -/
def cleanup_sstables_compaction_task.ctor (cm : compaction_manager) (id : Nat) (t : Nat)
    (type : compaction_type) (jobs : List compaction_descriptor) : task × compaction_manager :=
  let task := { task.ctor id .cleanup_sstables_compaction_task t type with
    _pending_cleanup_jobs :=
      jobs.insertionSort (fun a b => b.sstables_size ≤ a.sstables_size) }
  (task, { cm with _stats := { cm._stats with
    pending_tasks := cm._stats.pending_tasks + (task._pending_cleanup_jobs.length : Int) } })

/-- The destructor body of a cleanup task. -/
def cleanup_sstables_compaction_task.dtor (t : task) (cm : compaction_manager) :
    compaction_manager :=
  { cm with _stats := { cm._stats with
    pending_tasks := cm._stats.pending_tasks - (t._pending_cleanup_jobs.length : Int) } }

/-- The end of one iteration of the cleanup loop, after `run_cleanup_job`
returned: `_pending_cleanup_jobs.pop_back(); _cm._stats.pending_tasks--`. -/
def cleanup_sstables_compaction_task.job_done (t : task) (cm : compaction_manager) :
    task × compaction_manager :=
  ({ t with _pending_cleanup_jobs := t._pending_cleanup_jobs.dropLast },
   { cm with _stats := { cm._stats with pending_tasks := cm._stats.pending_tasks - 1 } })

/-- The base destructor (`task::~task`): the task leaves its state. -/
def task.dtor (t : task) (cm : compaction_manager) : task × compaction_manager :=
  (t.switch_state cm task.state.none).2

/-- Destruction of a task object: the destructor body of its class, then the
base destructor. -/
def task.destroy (t : task) (cm : compaction_manager) : task × compaction_manager :=
  if t.cls.is_sstables_task then
    t.dtor (sstables_task.dtor t cm)
  else if t.cls = .cleanup_sstables_compaction_task then
    t.dtor (cleanup_sstables_compaction_task.dtor t cm)
  else
    t.dtor cm

/-- The start of a compaction round (`task::setup_new_compaction`): fresh
compaction data, the output run identifier, and the switch to `active`. -/
def task.setup_new_compaction (t : task) (cm : compaction_manager) (output_run_id : Option Nat) :
    task × compaction_manager :=
  let t := { t with _compaction_data := {}, _output_run_identifier := output_run_id }
  (t.switch_state cm task.state.active).2

/-- The end of a compaction round (`task::finish_compaction`); the reset of the
retry backoff and the signal on the condition variable change no member kept
here. -/
def task.finish_compaction (t : task) (cm : compaction_manager) (finish_state : task.state) :
    task × compaction_manager :=
  let r := (t.switch_state cm finish_state).2
  ({ r.1 with _output_run_identifier := Option.none }, r.2)

/-! ## Stop, retry and the task runner -/

/-- The stop request (`do_stop`): nothing for a manager that never started or
is already stopped; otherwise the state becomes `stopped` and the shutdown
sequence `really_do_stop` is started. -/
def do_stop (cm : compaction_manager) : compaction_manager :=
  if cm._state = state.none ∨ cm._state = state.stopped then
    cm
  else
    { cm with _state := state.stopped, _stop_future := true }

/-- Whether compaction of table `t` may go on (`compaction_manager::can_proceed`). -/
def can_proceed (cm : compaction_manager) (t : Nat) : Bool :=
  cm._state == state.enabled &&
    match cm._compaction_state.lookup t with
    | Option.none => false
    | some c => !c.compaction_disabled

/-- Whether the task may go on (`task::can_proceed`); with `do_throw_if_stopping`
a stop request is raised as `Stopped` instead of being answered with false. -/
def task.can_proceed (t : task) (cm : compaction_manager) (do_throw_if_stopping : Bool) :
    Except error Bool :=
  if t.stopping then
    if do_throw_if_stopping then
      Except.error error.compaction_stopped_exception
    else
      Except.ok false
  else
    Except.ok (cm.can_proceed t._compacting_table)

/-- Whether a loop goes on (`seastar::stop_iteration`). -/
inductive stop_iteration where
  | no
  | yes
  deriving DecidableEq, Repr

/-- The classification of a failed round (`task::maybe_retry`).  `sleep_aborted`
tells whether the backoff sleep of the last branch was aborted; the manager
returned in that branch is the one at the start of the sleep. -/
def task.maybe_retry (t : task) (cm : compaction_manager) (err : error) (sleep_aborted : Bool) :
    Except error stop_iteration × task × compaction_manager :=
  match err with
  | .compaction_stopped_exception =>
    (Except.ok stop_iteration.yes, t, cm)
  | .compaction_aborted_exception =>
    (Except.ok stop_iteration.yes, t,
      { cm with _stats := { cm._stats with errors := cm._stats.errors + 1 } })
  | .storage_io_error =>
    (Except.error error.storage_io_error, t,
      do_stop { cm with _stats := { cm._stats with errors := cm._stats.errors + 1 } })
  | .other =>
    match t.can_proceed cm false with
    | Except.error e => (Except.error e, t, cm)
    | Except.ok false => (Except.error error.other, t, cm)
    | Except.ok true =>
      let cm := { cm with _stats := { cm._stats with errors := cm._stats.errors + 1 } }
      let r := (t.switch_state cm task.state.pending).2
      if sleep_aborted then
        (Except.error error.compaction_stopped_exception, r.1, r.2)
      else
        (Except.ok stop_iteration.no, r.1, r.2)

/-- The deferred action of `perform_task` (`_tasks.remove(task)`): every entry
for this task object leaves the list. -/
def unregister_task (cm : compaction_manager) (task : task) : compaction_manager :=
  { cm with _tasks := cm._tasks.filter (fun x => x.id != task.id) }

/-- The handlers of `perform_task` and its deferred action, applied to the way
the run ended: `Stopped` is logged and swallowed, every other error is counted
and raised again, a storage I/O error also stops the manager; the task leaves
the list in every case. -/
def perform_task_finish (cm : compaction_manager) (task : task) (r : Except error Unit) :
    Except error Unit × compaction_manager :=
  match r with
  | Except.ok _ => (Except.ok (), unregister_task cm task)
  | Except.error error.compaction_stopped_exception => (Except.ok (), unregister_task cm task)
  | Except.error error.compaction_aborted_exception =>
    (Except.error error.compaction_aborted_exception,
      unregister_task { cm with _stats := { cm._stats with errors := cm._stats.errors + 1 } } task)
  | Except.error error.storage_io_error =>
    (Except.error error.storage_io_error,
      unregister_task
        (do_stop { cm with _stats := { cm._stats with errors := cm._stats.errors + 1 } }) task)
  | Except.error error.other =>
    (Except.error error.other,
      unregister_task { cm with _stats := { cm._stats with errors := cm._stats.errors + 1 } } task)

/-- The first statement of `perform_task` (`_tasks.push_back(task)`). -/
def register_task (cm : compaction_manager) (task : task) : compaction_manager :=
  { cm with _tasks := cm._tasks ++ [task] }

/-- The task runner (`perform_task`).  `run` stands for `task->run()`: from the
manager as it is once the task is listed, it gives how the run ended and the
manager at that moment. -/
def perform_task (cm : compaction_manager) (task : task)
    (run : compaction_manager → Except error Unit × compaction_manager) :
    Except error Unit × compaction_manager :=
  let r := run (register_task cm task)
  perform_task_finish r.2 task r.1

/-! ## The regular compaction body and the weight registrations -/

/-- The constructor of `compaction_weight_registration`: the weight enters the
tracker and the body of the task holds the registration. -/
def compaction_weight_registration.ctor (t : task) (cm : compaction_manager) (weight : Int) :
    task × compaction_manager :=
  ({ t with weight_r := some weight }, cm.register_weight weight)

/-- The refused branch of the regular compaction loop
(`switch_state(state::postponed); _cm.postpone_compaction_for_table(&t)`): the
task is postponed and its table enters the postponed set. -/
def regular_compaction_task.postpone (t : task) (cm : compaction_manager) :
    task × compaction_manager :=
  let r := (t.switch_state cm task.state.postponed).2
  (r.1, { r.2 with _postponed := r.2._postponed.insert t._compacting_table })

/-- The release of a weight registration (`compaction_weight_registration::deregister`,
or its destructor while the registration is still attached to the manager). -/
def compaction_weight_registration.deregister (t : task) (cm : compaction_manager) (weight : Int) :
    task × compaction_manager :=
  ({ t with weight_r := Option.none }, cm.deregister_weight weight)

/-! ## The manager and its task objects as a transition system -/

/-- What the body of a listed task (`do_run` and what it calls) does to its own
object and to the manager in one uninterrupted stretch. -/
inductive task_op : task → compaction_manager → task → compaction_manager → Prop
  /-- A call of `switch_state`. -/
  | switch_state (t : task) (cm : compaction_manager) (new_state : task.state) :
      task_op t cm (t.switch_state cm new_state).2.1 (t.switch_state cm new_state).2.2
  /-- A call of `setup_new_compaction`. -/
  | setup_new_compaction (t : task) (cm : compaction_manager) (rid : Option Nat) :
      task_op t cm (t.setup_new_compaction cm rid).1 (t.setup_new_compaction cm rid).2
  /-- A call of `finish_compaction`. -/
  | finish_compaction (t : task) (cm : compaction_manager) (st : task.state) :
      task_op t cm (t.finish_compaction cm st).1 (t.finish_compaction cm st).2
  /-- A write to the compaction data of the task: the compaction itself filling in
  the fan-in, or `task::stop` triggering the abort source. -/
  | compaction_data (t : task) (cm : compaction_manager) (d : compaction_data) :
      task_op t cm { t with _compaction_data := d } cm
  /-- A call of `consume_sstable` by an `sstables_task`. -/
  | consume_sstable (t : task) (cm : compaction_manager) (sst : sstable) (t' : task)
      (cm' : compaction_manager) :
      t.cls.is_sstables_task = true →
      sstables_task.consume_sstable t cm = some (sst, t', cm') →
      task_op t cm t' cm'
  /-- The end of an iteration of the cleanup loop, entered on a non-empty queue. -/
  | job_done (t : task) (cm : compaction_manager) :
      t.cls = task_class.cleanup_sstables_compaction_task →
      t._pending_cleanup_jobs ≠ [] →
      task_op t cm (cleanup_sstables_compaction_task.job_done t cm).1
        (cleanup_sstables_compaction_task.job_done t cm).2
  /-- A call of `maybe_retry`. -/
  | maybe_retry (t : task) (cm : compaction_manager) (err : error) (sleep_aborted : Bool) :
      task_op t cm (t.maybe_retry cm err sleep_aborted).2.1 (t.maybe_retry cm err sleep_aborted).2.2
  /-- The weight registration of the regular compaction loop: it is constructed
  right after `can_register_compaction` returned true for the weight and the
  fan-in of the job, with no suspension in between, by a body that holds none. -/
  | register (t : task) (cm : compaction_manager) (tbl : table_state) (weight : Int)
      (fan_in : Nat) :
      t.cls = task_class.regular_compaction_task →
      tbl.addr = t._compacting_table →
      t.weight_r = Option.none →
      cm.can_register_compaction tbl weight fan_in = true →
      task_op t cm (compaction_weight_registration.ctor t cm weight).1
        (compaction_weight_registration.ctor t cm weight).2
  /-- The refused branch of the regular compaction loop. -/
  | postpone (t : task) (cm : compaction_manager) (tbl : table_state) (weight : Int) (fan_in : Nat) :
      t.cls = task_class.regular_compaction_task →
      tbl.addr = t._compacting_table →
      t.weight_r = Option.none →
      cm.can_register_compaction tbl weight fan_in = false →
      task_op t cm (regular_compaction_task.postpone t cm).1
        (regular_compaction_task.postpone t cm).2
  /-- The release of the registration the body holds: `deregister()` after a
  successful round, or the destructor at the end of the iteration. -/
  | deregister (t : task) (cm : compaction_manager) (weight : Int) :
      t.weight_r = some weight →
      task_op t cm (compaction_weight_registration.deregister t cm weight).1
        (compaction_weight_registration.deregister t cm weight).2

/-- The manager together with the task objects that are alive but not in its
list (created and not yet handed to `perform_task`, or removed from the list
and still referenced), and the next fresh object identity. -/
structure system where
  cm : compaction_manager := {}
  unlisted : List task := []
  next_id : Nat := 0

/-- The task objects that are alive. -/
def system.live (s : system) : List task :=
  s.cm._tasks ++ s.unlisted

/-- One step of the manager.  Every step except the destruction of an
`sstables_task` that is still pending, which is `destroy_pending` below. -/
inductive step : system → system → Prop
  /-- Creation of a task without a queue (regular, major, custom, off-strategy). -/
  | make_task (s : system) (cls : task_class) (t : Nat) (type : compaction_type) :
      cls.is_sstables_task = false →
      cls ≠ task_class.cleanup_sstables_compaction_task →
      step s { s with unlisted := task.ctor s.next_id cls t type :: s.unlisted,
                      next_id := s.next_id + 1 }
  /-- Creation of a rewrite or validate task with its list of sstables. -/
  | make_sstables_task (s : system) (cls : task_class) (t : Nat) (type : compaction_type)
      (sstables : List sstable) (task : task) (cm' : compaction_manager) :
      cls.is_sstables_task = true →
      sstables_task.ctor s.cm s.next_id cls t type sstables = some (task, cm') →
      step s { cm := cm', unlisted := task :: s.unlisted, next_id := s.next_id + 1 }
  /-- Creation of a cleanup task with its jobs. -/
  | make_cleanup_task (s : system) (t : Nat) (type : compaction_type)
      (jobs : List compaction_descriptor) :
      step s { cm := (cleanup_sstables_compaction_task.ctor s.cm s.next_id t type jobs).2,
               unlisted := (cleanup_sstables_compaction_task.ctor s.cm s.next_id t type jobs).1
                 :: s.unlisted,
               next_id := s.next_id + 1 }
  /-- The start of `perform_task`: the task enters the list. -/
  | perform_task_begin (s : system) (u1 u2 : List task) (t : task) :
      s.unlisted = u1 ++ t :: u2 →
      step s { s with cm := register_task s.cm t, unlisted := u1 ++ u2 }
  /-- An operation of the body of a listed task. -/
  | on_task (s : system) (l1 l2 : List task) (t t' : task) (cm' : compaction_manager) :
      s.cm._tasks = l1 ++ t :: l2 →
      task_op t s.cm t' cm' →
      step s { s with cm := { cm' with _tasks := l1 ++ t' :: l2 } }
  /-- The end of `perform_task` once the run ended with `r`: the handlers and the
  deferred removal.  The body has returned by then, so the registration it may
  have held was released. -/
  | perform_task_end (s : system) (l1 l2 : List task) (t : task) (r : Except error Unit) :
      s.cm._tasks = l1 ++ t :: l2 →
      t.weight_r = Option.none →
      step s { s with cm := (perform_task_finish s.cm t r).2, unlisted := t :: s.unlisted }
  /-- The last reference to a task outside the list goes away. -/
  | destroy (s : system) (u1 u2 : List task) (t : task) :
      s.unlisted = u1 ++ t :: u2 →
      ¬ (t.cls.is_sstables_task = true ∧ t._state = task.state.pending) →
      step s { s with cm := (t.destroy s.cm).2, unlisted := u1 ++ u2 }
  /-- A call of `enable()`, which asserts the state it starts from. -/
  | enable (s : system) :
      s.cm._state = state.none ∨ s.cm._state = state.disabled →
      step s { s with cm := { s.cm with _state := state.enabled } }
  /-- A call of `drain()`: the state becomes `disabled`. -/
  | drain (s : system) :
      step s { s with cm := { s.cm with _state := state.disabled } }
  /-- A call of `do_stop()`. -/
  | do_stop (s : system) :
      step s { s with cm := do_stop s.cm }
  /-- The statement `_weight_tracker.clear()` of `really_do_stop`.  It is reached
  after `stop_ongoing_compactions` awaited every task of the list, and `submit`
  creates no regular compaction once the state is `stopped`; so no body of a
  regular compaction, the only holder of weight registrations, is alive. -/
  | really_do_stop_clear (s : system) :
      s.cm._state = state.stopped →
      (∀ t ∈ s.cm._tasks, t.weight_r = Option.none) →
      step s { s with cm := { s.cm with _weight_tracker := [] } }

/-- The destruction of an `sstables_task` whose state is still `pending`. -/
inductive destroy_pending : system → system → Prop
  | mk (s : system) (u1 u2 : List task) (t : task) :
      s.unlisted = u1 ++ t :: u2 →
      t.cls.is_sstables_task = true →
      t._state = task.state.pending →
      destroy_pending s { s with cm := (t.destroy s.cm).2, unlisted := u1 ++ u2 }

/-- The states reached from a freshly constructed manager by steps of `r`. -/
inductive reachable_by (r : system → system → Prop) : system → Prop
  | init : reachable_by r {}
  | next (s s' : system) : reachable_by r s → r s s' → reachable_by r s'

/-- Any step of the manager. -/
def any_step (s s' : system) : Prop :=
  step s s' ∨ destroy_pending s s'

/-- The reachable states. -/
def reachable (s : system) : Prop :=
  reachable_by any_step s

/-- Object identities are unique among the live tasks and were all handed out
before `next_id`. -/
def system.ids_fresh (s : system) : Prop :=
  (∀ t ∈ s.live, t.id < s.next_id) ∧ (s.live.map task.id).Nodup

/-- What a live task contributes to the pending counter besides being pending
itself: the sstables still queued in an `sstables_task`, the jobs still queued
in a cleanup task. -/
def task.queued (t : task) : Int :=
  if t.cls.is_sstables_task then
    (t._sstables.length : Int)
  else if t.cls = task_class.cleanup_sstables_compaction_task then
    (t._pending_cleanup_jobs.length : Int)
  else
    0

/-- What a live task contributes to the pending counter in all: 1 when it is
pending, plus what it has queued. -/
def task.pending_share (t : task) : Int :=
  t.is_pending + t.queued

/-- A manager with one running job of fan-in 10 on table 1. -/
def busy_manager : compaction_manager :=
  { _state := state.enabled,
    _tasks := [{ id := 0, _compacting_table := 1, _state := task.state.active,
                 _compaction_data := { compaction_fan_in := 10 }, weight_r := some 12 }],
    _weight_tracker := [12] }

/-- The same manager once that job has completed. -/
def idle_manager : compaction_manager :=
  { _state := state.enabled,
    _tasks := [{ id := 0, _compacting_table := 1, _state := task.state.done,
                 _compaction_data := { compaction_fan_in := 10 } }] }

/-- A regular compaction task for table 1. -/
def first_task : task :=
  task.ctor 0 task_class.regular_compaction_task 1 compaction_type.Compaction

/-- A regular compaction task for table 2. -/
def second_task : task :=
  task.ctor 1 task_class.regular_compaction_task 2 compaction_type.Compaction

/-- The first task was created. -/
def one_made : system :=
  { unlisted := [first_task], next_id := 1 }

/-- The first task was handed to `perform_task`. -/
def one_listed : system :=
  { cm := register_task {} first_task, unlisted := [], next_id := 1 }

/-- The job of weight 12 of the first task was admitted: the task holds the
registration of weight 12. -/
def one_registered : system :=
  { cm := { (compaction_weight_registration.ctor first_task one_listed.cm 12).2 with
      _tasks := [(compaction_weight_registration.ctor first_task one_listed.cm 12).1] },
    unlisted := [], next_id := 1 }

/-- The first task started its compaction round: it is active. -/
def one_running : system :=
  { cm := { _tasks := [{ first_task with
                          weight_r := some 12, _state := task.state.active,
                          _output_run_identifier := some 5 }],
            _stats := { active_tasks := 1 },
            _weight_tracker := [12] },
    unlisted := [], next_id := 1 }

/-- The second task was created next to the running first one. -/
def two_made : system :=
  { cm := one_running.cm, unlisted := [second_task], next_id := 2 }

/-- The second task was handed to `perform_task`. -/
def two_listed : system :=
  { cm := register_task one_running.cm second_task, unlisted := [], next_id := 2 }

/-- The job of weight 7 of the second task was admitted while the first job is
running. -/
def two_registered : system :=
  { cm := { _tasks := [{ first_task with
                          weight_r := some 12, _state := task.state.active,
                          _output_run_identifier := some 5 },
                       { second_task with weight_r := some 7 }],
            _stats := { active_tasks := 1 },
            _weight_tracker := [7, 12] },
    unlisted := [], next_id := 2 }

/-- Both jobs are running. -/
def two_running : system :=
  { cm := { _tasks := [{ first_task with
                          weight_r := some 12, _state := task.state.active,
                          _output_run_identifier := some 5 },
                       { second_task with
                          weight_r := some 7, _state := task.state.active,
                          _output_run_identifier := some 6 }],
            _stats := { active_tasks := 2 },
            _weight_tracker := [7, 12] },
    unlisted := [], next_id := 2 }

/-- A cleanup task with one job, just constructed. -/
def cleanup_made : system :=
  { cm := { _stats := { pending_tasks := 1 } },
    unlisted := [{ task.ctor 0 task_class.cleanup_sstables_compaction_task 1 compaction_type.Cleanup
      with _pending_cleanup_jobs := [{ sstables := [{ id := 3, data_size := 100 }] }] }],
    next_id := 1 }

/-! ## Submission of regular compaction -/

/-- The lookup of the per-table state (`get_compaction_state`): an
`out_of_range` error, here `other`, for a table the manager does not know. -/
def get_compaction_state (cm : compaction_manager) (t : Nat) : Except error compaction_state :=
  match cm._compaction_state.lookup t with
  | Option.none => Except.error error.other
  | some c => Except.ok c

/-- The creation of a task object for a table of the manager (`task::task` with
its member initialisers): the state of the table is looked up and its gate is
entered, either of which may raise; the object is the one of `task.ctor`. -/
def task.make (cm : compaction_manager) (id : Nat) (cls : task_class) (t : Nat)
    (type : compaction_type) : Except error task :=
  match cm.get_compaction_state t with
  | Except.error e => Except.error e
  | Except.ok c =>
    if c.gate_closed then
      Except.error error.other
    else
      Except.ok (task.ctor id cls t type)

/-- The request for regular compaction of a table (`submit`).  Nothing happens
unless the manager is enabled and the user left auto-compaction on; otherwise a
regular compaction task is created and handed to `perform_task`, whose future
is dropped.  The result tells which task was created, if any; the manager
returned is the one right after the task entered the list, the body of the
task going on from there.  `id` is the identity of the new object. -/
def submit (cm : compaction_manager) (t : table_state) (id : Nat) :
    Except error (Option task) × compaction_manager :=
  if cm._state ≠ state.enabled ∨ t.is_auto_compaction_disabled_by_user = true then
    (Except.ok Option.none, cm)
  else
    match task.make cm id task_class.regular_compaction_task t.addr compaction_type.Compaction with
    | Except.error e => (Except.error e, cm)
    | Except.ok task => (Except.ok (some task), cm.register_task task)

/-- An enabled manager that knows table 1. -/
def enabled_manager : compaction_manager :=
  { _state := state.enabled, _compaction_state := [(1, {})] }

/-! ## Stopping tasks -/

/-- The stop request on a task (`task::stop`). -/
def task.stop (t : task) : task :=
  { t with _compaction_data := t._compaction_data.stop }

/-- What a stop operation hands back: how the wait for the tasks ended, the
tasks on which `stop` was called, and the manager right after those calls. -/
structure stop_outcome where
  result : Except error Unit
  stopped : List task
  cm : compaction_manager

/-- Stopping a vector of tasks (`stop_tasks`): `stop` is called on every one of
them before the first suspension, then the completion of each is awaited; a
`Stopped` completion is swallowed, any other failure is raised.  `done` gives
the way the completion future of each task object resolves. -/
def stop_tasks (cm : compaction_manager) (tasks : List task)
    (done : Nat → Except error Unit) : stop_outcome :=
  let marked := cm._tasks.map
    (fun x => if (tasks.map task.id).contains x.id then x.stop else x)
  let cm := { cm with _tasks := marked }
  let failures := tasks.filterMap (fun t =>
    match done t.id with
    | Except.ok _ => Option.none
    | Except.error error.compaction_stopped_exception => Option.none
    | Except.error e => some e)
  let result : Except error Unit :=
    match failures with
    | [] => Except.ok ()
    | e :: _ => Except.error e
  { result := result, stopped := tasks, cm := cm }

/-- Stopping the tasks of a table and of a type (`stop_ongoing_compactions`):
the tasks of the list that match are snapshotted and handed to `stop_tasks`;
an absent table or type matches every task. -/
def stop_ongoing_compactions (cm : compaction_manager) (t : Option Nat)
    (type_opt : Option compaction_type) (done : Nat → Except error Unit) : stop_outcome :=
  let tasks := cm._tasks.filter (fun task =>
    (t.isNone || some task._compacting_table == t) &&
    (type_opt.isNone || some task._type == type_opt))
  cm.stop_tasks tasks done

/-- The user request to stop compactions of a type (`stop_compaction`).
`to_compaction_type` is the parser of type names, defined outside the sources:
it answers `none` where the original raises.  An unknown name, `Validation`,
`Index_build` and `Reshard` are refused with a runtime error, here `other`. -/
def stop_compaction (to_compaction_type : String → Option compaction_type)
    (cm : compaction_manager) (type : String) (table : Option Nat)
    (done : Nat → Except error Unit) : stop_outcome :=
  match to_compaction_type type with
  | Option.none => { result := Except.error error.other, stopped := [], cm := cm }
  | some target_type =>
    match target_type with
    | compaction_type.Validation =>
      { result := Except.error error.other, stopped := [], cm := cm }
    | compaction_type.Index_build =>
      { result := Except.error error.other, stopped := [], cm := cm }
    | compaction_type.Reshard =>
      { result := Except.error error.other, stopped := [], cm := cm }
    | _ => cm.stop_ongoing_compactions table (some target_type) done

/-- The tasks of the list of type `target` and, unless absent, of table `table`:
the words of the description of `stop_compaction`. -/
def matching_tasks (cm : compaction_manager) (target : compaction_type) (table : Option Nat) :
    List task :=
  cm._tasks.filter (fun task =>
    decide (task._type = target ∧ (table = Option.none ∨ table = some task._compacting_table)))

/-- A parser of type names for the instances: upper-case names as in the
engine's table. -/
def sample_to_compaction_type (name : String) : Option compaction_type :=
  if name = "COMPACTION" then some compaction_type.Compaction
  else if name = "CLEANUP" then some compaction_type.Cleanup
  else if name = "VALIDATION" then some compaction_type.Validation
  else if name = "SCRUB" then some compaction_type.Scrub
  else if name = "INDEX_BUILD" then some compaction_type.Index_build
  else if name = "RESHARD" then some compaction_type.Reshard
  else if name = "UPGRADE" then some compaction_type.Upgrade
  else if name = "RESHAPE" then some compaction_type.Reshape
  else Option.none

/-! ## Stop -/

/-- The shutdown request (`stop`): nothing for a manager that never started,
otherwise `do_stop`.  The future the call hands back (a ready one, or the one
of the shutdown sequence moved out of `_stop_future`) is not part of the state
kept here. -/
def stop (cm : compaction_manager) : compaction_manager :=
  if cm._state = state.none then
    cm
  else
    do_stop cm

/-- A manager that was stopped. -/
def stopped_manager : compaction_manager :=
  { _state := state.stopped, _stop_future := true }

/-! ## The order of rewrite and cleanup -/

/-- The sort of `perform_task_on_all_files`: the chosen sstables by decreasing
data size.  `std::sort` leaves the order of equal sizes open; insertion sort
is one of the orders it may produce. -/
def perform_task_on_all_files.sort (sstables : List sstable) : List sstable :=
  sstables.insertionSort (fun a b => b.data_size ≤ a.data_size)

/-- The loop of a rewrite or validate body while the task can proceed
(`while (!_sstables.empty() && can_proceed()) consume_sstable()`): the
sstables in the order they are consumed, over at most `fuel` iterations. -/
def sstables_task.consume_order (fuel : Nat) (t : task) (cm : compaction_manager) :
    List sstable :=
  match fuel with
  | 0 => []
  | n + 1 =>
    match sstables_task.consume_sstable t cm with
    | Option.none => []
    | some r => r.1 :: sstables_task.consume_order n r.2.1 r.2.2

/-- The sstables of a rewrite task in the order they are consumed, from the list
chosen by `perform_task_on_all_files`: the list is sorted, handed to the
constructor of the task, and consumed by its body. -/
def rewrite_order (cm : compaction_manager) (id : Nat) (t : Nat) (type : compaction_type)
    (chosen : List sstable) : List sstable :=
  match sstables_task.ctor cm id task_class.rewrite_sstables_compaction_task t type
      (perform_task_on_all_files.sort chosen) with
  | Option.none => []
  | some r => sstables_task.consume_order chosen.length r.1 r.2

/-- The loop of a cleanup body while the task can proceed: the job at the back
of the queue is run, then taken off; the jobs in the order they are run, over
at most `fuel` iterations. -/
def cleanup_sstables_compaction_task.run_order (fuel : Nat) (t : task)
    (cm : compaction_manager) : List compaction_descriptor :=
  match fuel with
  | 0 => []
  | n + 1 =>
    match t._pending_cleanup_jobs.getLast? with
    | Option.none => []
    | some job =>
      job :: cleanup_sstables_compaction_task.run_order n
        (cleanup_sstables_compaction_task.job_done t cm).1
        (cleanup_sstables_compaction_task.job_done t cm).2

/-- The jobs of a cleanup task in the order they are run, from the jobs the
strategy computed. -/
def cleanup_order (cm : compaction_manager) (id : Nat) (t : Nat) (type : compaction_type)
    (jobs : List compaction_descriptor) : List compaction_descriptor :=
  cleanup_sstables_compaction_task.run_order jobs.length
    (cleanup_sstables_compaction_task.ctor cm id t type jobs).1
    (cleanup_sstables_compaction_task.ctor cm id t type jobs).2

/-- Four files of 100, 50, 200 and 10 MiB. -/
def four_files : List sstable :=
  [{ id := 1, data_size := 100 * 2 ^ 20 }, { id := 2, data_size := 50 * 2 ^ 20 },
   { id := 3, data_size := 200 * 2 ^ 20 }, { id := 4, data_size := 10 * 2 ^ 20 }]

/-! ## Candidates for compaction -/

/-- Modelled from the spec: the header's `task::generating_output_run()`; the task
is running and its output run identifier is not null. -/
def task.generating_output_run (t : task) : Bool :=
  t.compaction_running && t._output_run_identifier.isSome

/-- The sstables of the main set that the engine lets compact
(`in_strategy_sstables`). -/
def in_strategy_sstables (table_s : table_state) : List sstable :=
  table_s.main_sstable_set.filter (fun sst => sst.is_eligible_for_compaction)

/-- The sstables a strategy may pick from (`get_candidates`): those of
`in_strategy_sstables`, in order, skipping the ones that are being compacted
and the ones of a run that a task of the list is generating. -/
def get_candidates (cm : compaction_manager) (t : table_state) : List sstable :=
  let partial_run_identifiers :=
    (cm._tasks.filter task.generating_output_run).map task._output_run_identifier
  (in_strategy_sstables t).filter (fun sst =>
    if cm._compacting_sstables.contains sst.id then
      false
    else if partial_run_identifiers.contains (some sst.run_identifier) then
      false
    else
      true)

/-- A table with five sstables: 1 is free, 2 is being compacted, 3 belongs to the
run 5 that the running task generates, 4 is not eligible, 5 is free. -/
def five_sstables : table_state :=
  { addr := 1,
    main_sstable_set :=
      [{ id := 1, run_identifier := 11 }, { id := 2, run_identifier := 12 },
       { id := 3, run_identifier := 5 },
       { id := 4, run_identifier := 14, is_eligible_for_compaction := false },
       { id := 5, run_identifier := 15 }] }

/-- The manager of `one_running` with sstable 2 in the compacting registry. -/
def compacting_manager : compaction_manager :=
  { one_running.cm with _compacting_sstables := [2] }

/-! ## The compacting registry and its registrations -/

/-- Entering sstables into the compacting registry
(`register_compacting_sstables`): a set insertion of each identity, in the
order of the range.  The insertion stands inside `try` with a `catch (...)`
that only logs ("Ignored..."), so the call returns normally also when the
insertion raises: `raises` is the position of the element whose insertion
raises, if any; the elements before it are in the registry by then, that
element and the ones after it are not entered. -/
def register_compacting_sstables (cm : compaction_manager) (sstables : List Nat)
    (raises : Option Nat) : compaction_manager :=
  let inserted :=
    match raises with
    | Option.none => sstables
    | some n => sstables.take n
  { cm with _compacting_sstables :=
      inserted.foldl (fun acc sst => acc.insert sst) cm._compacting_sstables }

/-- Taking sstables out of the compacting registry
(`deregister_compacting_sstables`): each identity of the range is erased. -/
def deregister_compacting_sstables (cm : compaction_manager) (sstables : List Nat) :
    compaction_manager :=
  { cm with _compacting_sstables :=
      sstables.foldl (fun acc sst => acc.filter (fun x => x != sst)) cm._compacting_sstables }

/-- A registration of compacting sstables (`compacting_sstable_registration`):
the set `_compacting` of the identities it holds; the manager it refers to is
the one passed to its operations. -/
structure compacting_sstable_registration where
  _compacting : List Nat := []
  deriving DecidableEq, Repr

/-- The member `register_compacting`: the sstables enter the held set, then the
registry; `raises` tells where the insertion into the registry raises, if it
does, which the manager swallows. -/
def compacting_sstable_registration.register_compacting (r : compacting_sstable_registration)
    (cm : compaction_manager) (sstables : List sstable) (raises : Option Nat) :
    compacting_sstable_registration × compaction_manager :=
  ({ _compacting := (sstables.map sstable.id).foldl (fun acc sst => acc.insert sst) r._compacting },
   cm.register_compacting_sstables (sstables.map sstable.id) raises)

/-- The member `release_compacting`: the sstables leave the registry, then the
held set. -/
def compacting_sstable_registration.release_compacting (r : compacting_sstable_registration)
    (cm : compaction_manager) (sstables : List sstable) :
    compacting_sstable_registration × compaction_manager :=
  let cm := cm.deregister_compacting_sstables (sstables.map sstable.id)
  ({ _compacting :=
      (sstables.map sstable.id).foldl (fun acc sst => acc.filter (fun x => x != sst))
        r._compacting },
   cm)

/-- The destructor: everything still held leaves the registry. -/
def compacting_sstable_registration.dtor (r : compacting_sstable_registration)
    (cm : compaction_manager) : compaction_manager :=
  cm.deregister_compacting_sstables r._compacting

/-- The move constructor: the new registration takes the held set over and the
source is left holding nothing. -/
def compacting_sstable_registration.move (other : compacting_sstable_registration) :
    compacting_sstable_registration × compacting_sstable_registration :=
  ({ _compacting := other._compacting }, { _compacting := [] })

/-- The manager together with the registrations that are alive. -/
structure registry_system where
  cm : compaction_manager := {}
  registrations : List compacting_sstable_registration := []

/-- One operation on a registration.  With `disciplined` the callers keep to
what the tasks of the manager do: they register sstables that are not in the
registry (candidates of `get_candidates`), and release sstables that no other
registration holds (inputs of their own job).  With `reliable` no insertion
into the registry raises. -/
inductive registry_step (disciplined reliable : Prop) : registry_system → registry_system → Prop
  /-- The constructor without sstables. -/
  | create (s : registry_system) :
      registry_step disciplined reliable s { s with registrations := s.registrations ++ [{}] }
  /-- A call of `register_compacting`, also the one of the constructor with
  sstables. -/
  | register (s : registry_system) (r1 r2 : List compacting_sstable_registration)
      (r : compacting_sstable_registration) (sstables : List sstable) (raises : Option Nat) :
      s.registrations = r1 ++ r :: r2 →
      (disciplined → ∀ sst ∈ sstables, sst.id ∉ s.cm._compacting_sstables) →
      (reliable → raises = Option.none) →
      registry_step disciplined reliable s
        { cm := (r.register_compacting s.cm sstables raises).2,
          registrations := r1 ++ (r.register_compacting s.cm sstables raises).1 :: r2 }
  /-- A call of `release_compacting`. -/
  | release (s : registry_system) (r1 r2 : List compacting_sstable_registration)
      (r : compacting_sstable_registration) (sstables : List sstable) :
      s.registrations = r1 ++ r :: r2 →
      (disciplined → ∀ sst ∈ sstables, ∀ o ∈ r1 ++ r2, sst.id ∉ o._compacting) →
      registry_step disciplined reliable s
        { cm := (r.release_compacting s.cm sstables).2,
          registrations := r1 ++ (r.release_compacting s.cm sstables).1 :: r2 }
  /-- The destruction of a registration. -/
  | destroy (s : registry_system) (r1 r2 : List compacting_sstable_registration)
      (r : compacting_sstable_registration) :
      s.registrations = r1 ++ r :: r2 →
      registry_step disciplined reliable s { cm := r.dtor s.cm, registrations := r1 ++ r2 }
  /-- A move construction from a live registration: one more registration is
  alive, and of the two one holds what the source held, the other nothing. -/
  | move (s : registry_system) (r1 r2 : List compacting_sstable_registration)
      (r : compacting_sstable_registration) :
      s.registrations = r1 ++ r :: r2 →
      registry_step disciplined reliable s
        { s with registrations := r1 ++ r.move.1 :: r2 ++ [r.move.2] }

/-- The states reached from an empty registry by operations on registrations. -/
inductive registry_reachable (disciplined reliable : Prop) : registry_system → Prop
  | init : registry_reachable disciplined reliable {}
  | next (s s' : registry_system) :
      registry_reachable disciplined reliable s → registry_step disciplined reliable s s' →
      registry_reachable disciplined reliable s'

/-- Registry and registrations agree: what a live registration holds is in the
registry, what is in the registry is held by a live registration, and no two
live registrations hold the same sstable. -/
def registry_system.consistent (s : registry_system) : Prop :=
  (∀ r ∈ s.registrations, ∀ x ∈ r._compacting, x ∈ s.cm._compacting_sstables) ∧
  (∀ x ∈ s.cm._compacting_sstables, ∃ r ∈ s.registrations, x ∈ r._compacting) ∧
  s.registrations.Pairwise (fun a b => ∀ x, x ∈ a._compacting → x ∉ b._compacting)

/-- A registration holds sstable 1 and the registry is empty: two registrations
were made to hold sstable 1 and the first was destroyed; or one registration
registered sstable 1 and the insertion into the registry raised. -/
def orphaned_registration : registry_system :=
  { cm := {}, registrations := [{ _compacting := [1] }] }

/-- Two registrations holding sstables 1 and 2. -/
def two_registrations : registry_system :=
  { cm := { _compacting_sstables := [2, 1] },
    registrations := [{ _compacting := [1] }, { _compacting := [2] }] }

/-! ## The states of the tables -/

/-- The registration of a table (`add`): a fresh state for the table enters the
map; an internal error when the table is already known. -/
def add (cm : compaction_manager) (t : Nat) : Option compaction_manager :=
  if (cm._compaction_state.lookup t).isSome then
    Option.none
  else
    some { cm with _compaction_state := cm._compaction_state ++ [(t, {})] }

/-- A change of the state object of table `t` inside the map. -/
def update_compaction_state (cm : compaction_manager) (t : Nat)
    (f : compaction_state → compaction_state) : compaction_manager :=
  { cm with _compaction_state :=
      cm._compaction_state.map (fun p => if p.1 = t then (p.1, f p.2) else p) }

/-! ## Throughput -/

/-- The value of `(value_mbs != 0 ? value_mbs : numeric_limits<uint32_t>::max()) << 20`
in `update_throughput` as a number, before it is stored in the 64-bit `bps`.
The parameter is a `uint32_t`, so the argument is taken modulo `2 ^ 32`. -/
def update_throughput.shifted (value_mbs : Nat) : Nat :=
  let v := value_mbs % 2 ^ 32
  (if v != 0 then v else 2 ^ 32 - 1) <<< 20

/-- The bandwidth `update_throughput` passes to
`_compaction_sg.io.update_bandwidth`: the `uint64_t bps`, the shift on 64 bits.
What the continuation does is logging only. -/
def update_throughput (value_mbs : Nat) : Nat :=
  update_throughput.shifted value_mbs % 2 ^ 64

/-! ## The backlog tracker -/

/-- Modelled from the spec: a backlog as `backlog()` reports it (a `double`), an
amount or the sentinel `compaction_controller::disable_backlog`, which is
declared in a header outside the sources. -/
inductive backlog_value where
  | amount (x : Rat)
  | disable_backlog
  deriving DecidableEq

/-- The interface of a backlog computation (`compaction_backlog_tracker::impl`)
over the states `σ` of the object behind `_impl`: what `replace_sstables` makes
of a state, or the exception it raises, and the backlog it computes from the
two maps of the tracker. -/
structure compaction_backlog_tracker.impl (σ : Type) where
  replace_sstables : σ → List sstable → List sstable → Except error σ
  backlog : σ → List (sstable × Nat) → List (sstable × Nat) → backlog_value

/-- A backlog tracker (`compaction_backlog_tracker`): the state of its impl, the
disabled flag, and the maps from sstables to the progress managers of ongoing
writes and of ongoing compactions, kept as association lists with one entry
per key. -/
structure compaction_backlog_tracker (σ : Type) where
  _impl : σ
  _disabled : Bool := false
  _ongoing_writes : List (sstable × Nat) := []
  _ongoing_compactions : List (sstable × Nat) := []

namespace compaction_backlog_tracker

variable {σ : Type}

/-- Modelled from the spec: the header's `disabled()`, the disabled flag. -/
def disabled (t : compaction_backlog_tracker σ) : Bool :=
  t._disabled

/-- Modelled from the spec: the header's `disable()`, after which the tracker is
disabled for good.  What it does to the maps and to the impl is not said;
they are left as they are and nothing below looks at them in a disabled
tracker. -/
def disable (t : compaction_backlog_tracker σ) : compaction_backlog_tracker σ :=
  { t with _disabled := true }

/-- The backlog of the tracker (`backlog`). -/
def backlog (t : compaction_backlog_tracker σ) (i : impl σ) : backlog_value :=
  if t.disabled then
    backlog_value.disable_backlog
  else
    i.backlog t._impl t._ongoing_writes t._ongoing_compactions

/-- Whether the tracker accounts for an sstable (`sstable_belongs_to_tracker`). -/
def sstable_belongs_to_tracker (sst : sstable) : Bool :=
  sst.is_eligible_for_compaction

/-- Dropping the charges of an sstable (`revert_charges`): its key is erased from
both maps. -/
def revert_charges (t : compaction_backlog_tracker σ) (sst : sstable) :
    compaction_backlog_tracker σ :=
  { t with
    _ongoing_writes := t._ongoing_writes.filter (fun w => w.1 != sst),
    _ongoing_compactions := t._ongoing_compactions.filter (fun w => w.1 != sst) }

/-- The lambda `filter_and_revert_charges` of `replace_sstables`: the sstables of
the list that belong to the tracker, in order, their charges being reverted on
the way. -/
def filter_and_revert_charges (t : compaction_backlog_tracker σ) (ssts : List sstable) :
    List sstable × compaction_backlog_tracker σ :=
  ssts.foldl
    (fun acc sst =>
      if sstable_belongs_to_tracker sst then (acc.1 ++ [sst], acc.2.revert_charges sst) else acc)
    ([], t)

/-- What the call `_impl->replace_sstables(...)` inside `replace_sstables`
returns or raises, on a tracker that is not disabled. -/
def replace_sstables.impl_call (t : compaction_backlog_tracker σ) (i : impl σ)
    (old_ssts new_ssts : List sstable) : Except error σ :=
  let o := t.filter_and_revert_charges old_ssts
  let n := o.2.filter_and_revert_charges new_ssts
  i.replace_sstables n.2._impl o.1 n.1

/-- The replacement of sstables (`replace_sstables`): nothing on a disabled
tracker; otherwise both lists are filtered, the charges of the kept sstables
reverted, and the impl is told; whatever is raised inside the `try` block is
caught and disables the tracker.  The first component is how the call itself
ends.  The two filters only erase keys, so the order in which the arguments of
the impl call are evaluated makes no difference. -/
def replace_sstables (t : compaction_backlog_tracker σ) (i : impl σ)
    (old_ssts new_ssts : List sstable) : Except error Unit × compaction_backlog_tracker σ :=
  if t.disabled then
    (Except.ok (), t)
  else
    let o := t.filter_and_revert_charges old_ssts
    let n := o.2.filter_and_revert_charges new_ssts
    match i.replace_sstables n.2._impl o.1 n.1 with
    | Except.ok s => (Except.ok (), { n.2 with _impl := s })
    | Except.error _ => (Except.ok (), n.2.disable)

/-- The insertion `std::unordered_map::emplace(key, value)`: a present key keeps
its value. -/
def emplace (m : List (sstable × Nat)) (key : sstable) (value : Nat) : List (sstable × Nat) :=
  if (m.lookup key).isSome then m else m ++ [(key, value)]

/-- The registration of an sstable that is being written
(`register_partially_written_sstable`): nothing on a disabled tracker;
otherwise the sstable is entered into the ongoing writes, and an exception of
the insertion (`raises`) is caught and logged, the map staying as it is. -/
def register_partially_written_sstable (t : compaction_backlog_tracker σ) (sst : sstable)
    (wp : Nat) (raises : Bool) : compaction_backlog_tracker σ :=
  if t.disabled then
    t
  else if raises then
    t
  else
    { t with _ongoing_writes := emplace t._ongoing_writes sst wp }

/-- The registration of an sstable that is being compacted
(`register_compacting_sstable`), like the one for writes on the other map. -/
def register_compacting_sstable (t : compaction_backlog_tracker σ) (sst : sstable)
    (rp : Nat) (raises : Bool) : compaction_backlog_tracker σ :=
  if t.disabled then
    t
  else if raises then
    t
  else
    { t with _ongoing_compactions := emplace t._ongoing_compactions sst rp }

/-- The migration of the ongoing charges to another tracker
(`transfer_ongoing_charges`), the two trackers being different objects: every
ongoing write is registered with `new_bt`, with `move_read_charges` every
ongoing compaction as well, and both maps of the source are emptied.
`raises_w` and `raises_c` tell for which sstables the insertion into the map
of `new_bt` raises.  The result is the source and `new_bt` afterwards. -/
def transfer_ongoing_charges (t new_bt : compaction_backlog_tracker σ)
    (move_read_charges : Bool) (raises_w raises_c : sstable → Bool) :
    compaction_backlog_tracker σ × compaction_backlog_tracker σ :=
  let new_bt := t._ongoing_writes.foldl
    (fun bt w => bt.register_partially_written_sstable w.1 w.2 (raises_w w.1)) new_bt
  let new_bt :=
    if move_read_charges then
      t._ongoing_compactions.foldl
        (fun bt w => bt.register_compacting_sstable w.1 w.2 (raises_c w.1)) new_bt
    else
      new_bt
  ({ t with _ongoing_writes := [], _ongoing_compactions := [] }, new_bt)

/-- An operation on a tracker that writes to it. -/
inductive op where
  | replace_sstables (old_ssts new_ssts : List sstable)
  | register_partially_written_sstable (sst : sstable) (wp : Nat) (raises : Bool)
  | register_compacting_sstable (sst : sstable) (rp : Nat) (raises : Bool)

/-- The tracker after an operation. -/
def apply (i : impl σ) (t : compaction_backlog_tracker σ) : op → compaction_backlog_tracker σ
  | op.replace_sstables old_ssts new_ssts => (t.replace_sstables i old_ssts new_ssts).2
  | op.register_partially_written_sstable sst wp raises =>
    t.register_partially_written_sstable sst wp raises
  | op.register_compacting_sstable sst rp raises => t.register_compacting_sstable sst rp raises

end compaction_backlog_tracker

/-- An impl that counts the sstables it was told about and raises when told to
drop more than it has; its backlog is that count. -/
def counting_impl : compaction_backlog_tracker.impl Nat :=
  { replace_sstables := fun s old_ssts new_ssts =>
      if s + new_ssts.length < old_ssts.length then Except.error error.other
      else Except.ok (s + new_ssts.length - old_ssts.length),
    backlog := fun s _ _ => backlog_value.amount s }

/-- A tracker of one sstable with an ongoing write of sstable 7 and an ongoing
compaction of sstable 8. -/
def busy_tracker : compaction_backlog_tracker Nat :=
  { _impl := 1, _ongoing_writes := [({ id := 7 }, 70)], _ongoing_compactions := [({ id := 8 }, 80)] }

/-- A tracker without charges. -/
def fresh_tracker : compaction_backlog_tracker Nat :=
  { _impl := 0 }

/-! ## A failed round of regular compaction -/

/-- The end of an iteration of the loop of `regular_compaction_task::do_run` whose
`compact_sstables` raised `ex`: the `catch (...)` block keeps the exception,
`finish_compaction(state::failed)` runs, then `maybe_retry`.  An error in the
result is what `do_run` raises to `perform_task`, `yes` makes `do_run` return,
`no` starts the next iteration. -/
def regular_compaction_task.round_failed (t : task) (cm : compaction_manager) (ex : error)
    (sleep_aborted : Bool) : Except error stop_iteration × task × compaction_manager :=
  let r := t.finish_compaction cm task.state.failed
  r.1.maybe_retry r.2 ex sleep_aborted

/-- Leaving an iteration of that loop: the destructor of the weight registration
the body holds, if it still holds one.  The registration of the compacting
sstables, released at the same moment, is not carried by the task record. -/
def regular_compaction_task.leave_iteration (t : task) (cm : compaction_manager) :
    task × compaction_manager :=
  match t.weight_r with
  | Option.none => (t, cm)
  | some w => compaction_weight_registration.deregister t cm w

/-- The rest of `perform_task` from the moment the round of its regular
compaction task raised `ex`, `cm` being the manager at that moment: the failed
round, the exit from the loop, and the handlers of `perform_task` with its
deferred action.  No result when the loop goes on instead. -/
def perform_task.round_failed (cm : compaction_manager) (t : task) (ex : error)
    (sleep_aborted : Bool) : Option (Except error Unit × compaction_manager) :=
  let r := regular_compaction_task.round_failed t cm ex sleep_aborted
  let l := regular_compaction_task.leave_iteration r.2.1 r.2.2
  match r.1 with
  | Except.ok stop_iteration.no => Option.none
  | Except.ok stop_iteration.yes => some (perform_task_finish l.2 l.1 (Except.ok ()))
  | Except.error e => some (perform_task_finish l.2 l.1 (Except.error e))

/-! ## Drain and the end of the manager -/

/-- The drain request (`drain`).  `early_abort_subscription` is the test
`*_early_abort_subscription`: whether the subscription to the abort source made
by the constructor is still linked, which it is until the abort source fires.
While it is, the state becomes `disabled` and every task is stopped and
awaited; otherwise nothing happens. -/
def drain (cm : compaction_manager) (early_abort_subscription : Bool)
    (done : Nat → Except error Unit) : stop_outcome :=
  if early_abort_subscription then
    let cm := { cm with _state := state.disabled }
    cm.stop_ongoing_compactions Option.none Option.none done
  else
    { result := Except.ok (), stopped := [], cm := cm }

/-- The assertion of the destructor (`~compaction_manager`): the manager was
stopped, if it was started. -/
def dtor_assertion (cm : compaction_manager) : Bool :=
  cm._state == state.none || cm._state == state.stopped

/-- The call `enable()`: the assertion on the state it starts from, then the
state becomes `enabled`. -/
def enable (cm : compaction_manager) : Option compaction_manager :=
  if cm._state = state.none ∨ cm._state = state.disabled then
    some { cm with _state := state.enabled }
  else
    Option.none

/-! ## The weight of a job -/

/-- The weight of a job of a given size (`calculate_weight(uint64_t)`):
`int(std::log(total_size + fixed_size_tax) / std::log(WEIGHT_LOG_BASE))` with
a tax of 1 MiB and base 4, the sum being formed in `uint64_t`.  The source
computes the quotient of the two logarithms in double precision; this is its
exact integer part, which the doubles give whenever the exact quotient is not
within rounding distance of an integer (at the sizes used below it is 10.5
and 16.66). -/
def calculate_weight.of_size (total_size : Nat) : Int :=
  (Nat.log 4 ((total_size + 1024 * 1024) % 2 ^ 64) : Int)

/-- The weight of a job (`calculate_weight(const compaction_descriptor&)`): 0 for
a job without sstables or of fully expired sstables only, otherwise the weight
of the total size. -/
def calculate_weight (descriptor : compaction_descriptor) : Int :=
  if descriptor.sstables.isEmpty || descriptor.has_only_fully_expired then
    0
  else
    calculate_weight.of_size descriptor.sstables_size

/-- A job whose only input sstable has 1 MiB. -/
def one_mib_job : compaction_descriptor :=
  { sstables := [{ id := 1, data_size := 2 ^ 20 }] }

/-- A job whose only input sstable has 10 GiB. -/
def ten_gib_job : compaction_descriptor :=
  { sstables := [{ id := 2, data_size := 10 * 2 ^ 30 }] }

/-- The job of 10 GiB is running on table 1 with fan-in 4, holding weight 16; the
task for table 2 is pending. -/
def ten_gib_running : compaction_manager :=
  { _state := state.enabled,
    _tasks := [{ id := 0, _compacting_table := 1, _state := task.state.active,
                 _compaction_data := { compaction_fan_in := 4 }, weight_r := some 16 },
               { id := 1, _compacting_table := 2, _state := task.state.pending }],
    _stats := { active_tasks := 1, pending_tasks := 1 },
    _weight_tracker := [16],
    _compaction_state := [(1, {}), (2, {})] }

/-- The job of 1 MiB is running on table 2 with fan-in 4, holding weight 10; the
task for table 1 is pending. -/
def one_mib_running : compaction_manager :=
  { _state := state.enabled,
    _tasks := [{ id := 0, _compacting_table := 1, _state := task.state.pending },
               { id := 1, _compacting_table := 2, _state := task.state.active,
                 _compaction_data := { compaction_fan_in := 4 }, weight_r := some 10 }],
    _stats := { active_tasks := 1, pending_tasks := 1 },
    _weight_tracker := [10],
    _compaction_state := [(1, {}), (2, {})] }

/-! ## Adding and removing tables -/

/-- The removal of a table (`remove`): the state of the table is extracted from
the map; when there was one, the table leaves the postponed set, its tasks are
stopped and awaited, and the gate of the extracted state is closed before that
state goes away with the handle.  The check that follows under `DEBUG` only
logs.  `done` gives the way the completion of each task resolves. -/
def remove (cm : compaction_manager) (t : Nat) (done : Nat → Except error Unit) :
    stop_outcome :=
  match cm._compaction_state.lookup t with
  | Option.none => { result := Except.ok (), stopped := [], cm := cm }
  | some _ =>
    let cm := { cm with _compaction_state := cm._compaction_state.filter (fun p => p.1 != t) }
    let cm := { cm with _postponed := cm._postponed.filter (fun x => x != t) }
    cm.stop_ongoing_compactions (some t) Option.none done

/-- One step of the manager as far as the map of the table states and the
postponed set are concerned. -/
inductive table_step : compaction_manager → compaction_manager → Prop
  /-- A table is registered. -/
  | add (cm : compaction_manager) (t : Nat) (cm' : compaction_manager) :
      cm.add t = some cm' →
      table_step cm cm'
  /-- A table is removed. -/
  | remove (cm : compaction_manager) (t : Nat) (done : Nat → Except error Unit) :
      table_step cm (cm.remove t done).cm
  /-- The refused branch of the regular compaction loop, entered right after
  `can_proceed()` answered true, with no suspension in between: the listed task
  is postponed and its table enters the postponed set. -/
  | postpone (cm : compaction_manager) (l1 l2 : List task) (tk : task) :
      cm._tasks = l1 ++ tk :: l2 →
      tk.can_proceed cm false = Except.ok true →
      table_step cm
        { (regular_compaction_task.postpone tk cm).2 with
          _tasks := l1 ++ (regular_compaction_task.postpone tk cm).1 :: l2 }
  /-- Anything else: no table enters or leaves the map, and the postponed set
  gains nothing (the re-evaluation fiber clears it, or takes it and puts it
  back). -/
  | other (cm cm' : compaction_manager) :
      cm'._compaction_state.map Prod.fst = cm._compaction_state.map Prod.fst →
      (∀ x ∈ cm'._postponed, x ∈ cm._postponed) →
      table_step cm cm'

/-- The states of the manager reached from a freshly constructed one. -/
inductive table_reachable : compaction_manager → Prop
  | init : table_reachable {}
  | next (cm cm' : compaction_manager) :
      table_reachable cm → table_step cm cm' → table_reachable cm'

/-- Every table of the postponed set is known to the manager. -/
def postponed_known (cm : compaction_manager) : Prop :=
  ∀ x ∈ cm._postponed, (cm._compaction_state.lookup x).isSome = true

/-- Table 1 is known, its regular compaction was postponed, and sstable 9 of it
is being compacted by another task. -/
def postponed_manager : compaction_manager :=
  { _state := state.enabled,
    _tasks := [{ id := 0, _compacting_table := 1, _state := task.state.postponed },
               { id := 1, _compacting_table := 1, _state := task.state.active }],
    _stats := { active_tasks := 1 },
    _postponed := [1],
    _compaction_state := [(1, {})],
    _compacting_sstables := [9] }

/-! ## Scoped disabling of compaction -/

/-- Whether compaction of a table is disabled
(`compaction_manager::compaction_disabled`): the manager knows the table and
the state it keeps for it is disabled. -/
def compaction_disabled (cm : compaction_manager) (t : Nat) : Bool :=
  (cm._compaction_state.lookup t).isSome &&
    match cm._compaction_state.lookup t with
    | Option.none => false
    | some c => c.compaction_disabled

/-- Where the state object of a table is: in the map `_compaction_state` of the
manager, under its table, or in the node handle of a `remove` that took it out
of the map and has not returned yet.  Extraction does not move the object, so
the reference a scope took while the object was in the map goes on designating
it, now in the handle. -/
inductive state_ref where
  | in_map (t : Nat)
  | extracted (h : Nat)
  deriving DecidableEq, Repr

/-- The node handle that `remove` holds after `_compaction_state.extract(&t)`:
the key and the state object that were taken out of the map. -/
structure node_handle where
  key : Nat
  mapped : compaction_state
  deriving DecidableEq, Repr

/-- The state object a reference designates, if it still exists.  `handles` are
the node handles of the calls of `remove` that have not returned, each under a
number of its own. -/
def state_ref.get (ref : state_ref) (cm : compaction_manager)
    (handles : List (Nat × node_handle)) : Option compaction_state :=
  match ref with
  | state_ref.in_map t => cm._compaction_state.lookup t
  | state_ref.extracted h => (handles.lookup h).map node_handle.mapped

/-- A write to the state object a reference designates. -/
def state_ref.update (ref : state_ref) (f : compaction_state → compaction_state)
    (cm : compaction_manager) (handles : List (Nat × node_handle)) :
    compaction_manager × List (Nat × node_handle) :=
  match ref with
  | state_ref.in_map t => (cm.update_compaction_state t f, handles)
  | state_ref.extracted h =>
    (cm, handles.map (fun p => if p.1 = h then (p.1, { p.2 with mapped := f p.2.mapped }) else p))

/-- A scope that keeps compaction of a table disabled (`compaction_reenabler`):
the table it stands for, null once it was moved from, and its reference to the
state object of that table. -/
structure compaction_reenabler where
  _table : Option Nat
  _compaction_state : state_ref
  deriving DecidableEq, Repr

/-- The constructor of a scope: the state of the table is looked up in the map
and its gate is entered, either of which may raise; then the disabled counter
of the table is incremented. -/
def compaction_reenabler.ctor (cm : compaction_manager) (t : Nat) :
    Except error (compaction_reenabler × compaction_manager) :=
  match cm.get_compaction_state t with
  | Except.error e => Except.error e
  | Except.ok c =>
    if c.gate_closed then
      Except.error error.other
    else
      Except.ok ({ _table := some t, _compaction_state := state_ref.in_map t },
        cm.update_compaction_state t (fun c =>
          { c with compaction_disabled_counter := c.compaction_disabled_counter + 1 }))

/-- The move constructor of a scope: the new scope takes the table over and
copies the reference; the source is left with a null table. -/
def compaction_reenabler.move (o : compaction_reenabler) :
    compaction_reenabler × compaction_reenabler :=
  ({ _table := o._table, _compaction_state := o._compaction_state },
   { o with _table := Option.none })

/-- The destructor of a scope
(`if (_table && --counter == 0 && !gate.is_closed()) submit(*_table)`): a scope
that was moved from does nothing; otherwise the counter of the state object
the scope refers to is decremented, and when it thereby reaches 0 while the
gate of that object is not closed, `submit` is called, its errors being
swallowed.  `tbl` is the table `_table` points to, `id` the identity of the
task `submit` may create.  The first component tells whether `submit` was
called.  A reference whose object is gone is not met in the states the
manager reaches; nothing is done for it. -/
def compaction_reenabler.dtor (r : compaction_reenabler) (cm : compaction_manager)
    (handles : List (Nat × node_handle)) (tbl : table_state) (id : Nat) :
    Bool × compaction_manager × List (Nat × node_handle) :=
  match r._table with
  | Option.none => (false, cm, handles)
  | some _ =>
    let w := r._compaction_state.update (fun c =>
      { c with compaction_disabled_counter := c.compaction_disabled_counter - 1 }) cm handles
    match r._compaction_state.get w.1 w.2 with
    | Option.none => (false, w.1, w.2)
    | some c =>
      if c.compaction_disabled_counter = 0 ∧ c.gate_closed = false then
        (true, (w.1.submit tbl id).2, w.2)
      else
        (false, w.1, w.2)

/-- The manager together with the node handles of the calls of `remove` that
have not returned and the scopes that are alive. -/
structure reenabler_system where
  cm : compaction_manager := {}
  handles : List (Nat × node_handle) := []
  scopes : List compaction_reenabler := []

/-- The number of live scopes, not moved from, that refer to a state object. -/
def reenabler_system.live_scopes (s : reenabler_system) (ref : state_ref) : Nat :=
  s.scopes.countP (fun r => r._table.isSome && decide (r._compaction_state = ref))

/-- Modelled from the spec: a bound of a range (`range_bound<dht::token>`, declared
in a header outside the sources): its token, taken as an integer, and whether
the token itself belongs to the range. -/
structure range_bound where
  value : Int
  is_inclusive : Bool := true
  deriving DecidableEq, Repr

/-- Modelled from the spec: a range of tokens (`dht::token_range`, a non-wrapping
range declared in headers outside the sources): a start and an end bound, an
absent bound leaving that side open. -/
structure token_range where
  _start : Option range_bound := Option.none
  _end : Option range_bound := Option.none
  deriving DecidableEq, Repr

/-- Modelled from the spec: `token_range::make(first, last)`, the range from
`first` to `last`, both included. -/
def token_range.make (first last : Int) : token_range :=
  { _start := some { value := first }, _end := some { value := last } }

/-- Modelled from the spec: `range::after(point, cmp)`, which the source uses to
"check that range a is before token b": the range ends before the point. -/
def token_range.after (a : token_range) (point : Int) : Bool :=
  match a._end with
  | Option.none => false
  | some e => decide (e.value < point) || (!e.is_inclusive && decide (e.value = point))

/-- Modelled from the spec: `range::contains(other, cmp)`, by which the source
tells that a range is "fully contained" in another: the start bound of `r` is
not after the start bound of `other`, and the end bound of `r` is not before
the end bound of `other`. -/
def token_range.contains (r other : token_range) : Bool :=
  (match r._start, other._start with
    | Option.none, _ => true
    | some _, Option.none => false
    | some a, some b =>
      decide (a.value < b.value) || (decide (a.value = b.value) && (a.is_inclusive || !b.is_inclusive)))
  &&
  (match r._end, other._end with
    | Option.none, _ => true
    | some _, Option.none => false
    | some a, some b =>
      decide (b.value < a.value) || (decide (a.value = b.value) && (a.is_inclusive || !b.is_inclusive)))

/-- Modelled from the spec: what the type of non-wrapping ranges excludes
(`is_wrap_around`): an end before the start, or a start and an end at the same
token that is not included on both sides. -/
def token_range.is_wrap_around (r : token_range) : Bool :=
  match r._start, r._end with
  | some s, some e =>
    decide (e.value < s.value) || (decide (e.value = s.value) && !(s.is_inclusive && e.is_inclusive))
  | _, _ => false

/-- The loop of `std::lower_bound` over positions `first` to `first + len` of `a`:
the middle position is tested and the search goes on in the half behind it or
in the half before it.  `fuel` bounds the number of iterations. -/
def lower_bound.go {α : Type} (comp : α → Bool) (a : List α) : Nat → Nat → Nat → Nat
  | 0, first, _ => first
  | fuel + 1, first, len =>
    if len = 0 then
      first
    else
      let half := len / 2
      let mid := first + half
      match a[mid]? with
      | Option.none => first
      | some x =>
        if comp x then
          lower_bound.go comp a fuel (mid + 1) (len - half - 1)
        else
          lower_bound.go comp a fuel first half

/-- The binary search `std::lower_bound(begin, end, value, comp)`, `comp` being
the comparison with the value searched: the position found, `a.length` for
`end`. -/
def lower_bound {α : Type} (a : List α) (comp : α → Bool) : Nat :=
  lower_bound.go comp a a.length 0 a.length

/-- Whether an sstable has data outside the owned ranges (`needs_cleanup`).
`first_token` and `last_token` are the tokens of the first and of the last
partition key of the sstable. -/
def needs_cleanup (first_token last_token : Int) (sorted_owned_ranges : List token_range) :
    Bool :=
  let sst_token_range := token_range.make first_token last_token
  let r := lower_bound sorted_owned_ranges (fun a => a.after first_token)
  match sorted_owned_ranges[r]? with
  | some x => if x.contains sst_token_range then false else true
  | Option.none => true

/-- The words "token t is in the range". -/
def token_range.mem (r : token_range) (t : Int) : Prop :=
  (match r._start with
    | Option.none => True
    | some s => s.value < t ∨ (s.value = t ∧ s.is_inclusive = true)) ∧
  (match r._end with
    | Option.none => True
    | some e => t < e.value ∨ (e.value = t ∧ e.is_inclusive = true))

/-- The words "range a lies before range b, and they are disjoint": the end of
`a` is before the start of `b`, or they meet in a token that one of them
excludes. -/
def token_range.before (a b : token_range) : Prop :=
  ∃ e s, a._end = some e ∧ b._start = some s ∧
    (e.value < s.value ∨ (e.value = s.value ∧ ¬ (e.is_inclusive = true ∧ s.is_inclusive = true)))

/-- Three owned ranges: up to -100 included, from -50 excluded to 50 included,
and from 70 on. -/
def owned_ranges : List token_range :=
  [{ _end := some { value := -100 } },
   { _start := some { value := -50, is_inclusive := false }, _end := some { value := 50 } },
   { _start := some { value := 70 } }]

/-! ## The life of a rewrite task -/

/-- The rewrite of one sstable (`rewrite_sstable`).  `failures` lists the rounds
that fail before one succeeds: what `compact_sstables_and_update_history`
raises and whether the backoff sleep of `maybe_retry` is aborted.  Each round
switches to `active` and sets up a new compaction; a round that succeeds
finishes as `done` and returns; a round that fails finishes as `failed` and
asks `maybe_retry`, which raises, makes the function return, or lets the loop
go round again.  The backlog tracker registered for the round is not part of
the manager kept here. -/
def rewrite_sstables_compaction_task.rewrite_sstable (t : task) (cm : compaction_manager)
    (run_identifier : Nat) :
    List (error × Bool) → Except error Unit × task × compaction_manager
  | [] =>
    let r := (t.switch_state cm task.state.active).2
    let r := r.1.setup_new_compaction r.2 (some run_identifier)
    let r := r.1.finish_compaction r.2 task.state.done
    (Except.ok (), r.1, r.2)
  | f :: rest =>
    let r := (t.switch_state cm task.state.active).2
    let r := r.1.setup_new_compaction r.2 (some run_identifier)
    let r := r.1.finish_compaction r.2 task.state.failed
    let m := r.1.maybe_retry r.2 f.1 f.2
    match m.1 with
    | Except.error e => (Except.error e, m.2.1, m.2.2)
    | Except.ok stop_iteration.yes => (Except.ok (), m.2.1, m.2.2)
    | Except.ok stop_iteration.no =>
      rewrite_sstables_compaction_task.rewrite_sstable m.2.1 m.2.2 run_identifier rest

/-- The loop of the body
(`while (!_sstables.empty() && can_proceed()) rewrite_sstable(consume_sstable())`),
over at most `fuel` iterations.  `script` gives, by the number of sstables
still queued when an sstable is taken, the failures of its rewrite. -/
def rewrite_sstables_compaction_task.loop (script : Nat → List (error × Bool)) :
    Nat → task → compaction_manager → Except error Unit × task × compaction_manager
  | 0, t, cm => (Except.ok (), t, cm)
  | fuel + 1, t, cm =>
    if t._sstables.isEmpty then
      (Except.ok (), t, cm)
    else
      match t.can_proceed cm false with
      | Except.error e => (Except.error e, t, cm)
      | Except.ok false => (Except.ok (), t, cm)
      | Except.ok true =>
        match sstables_task.consume_sstable t cm with
        | Option.none => (Except.error error.other, t, cm)
        | some c =>
          let r := rewrite_sstables_compaction_task.rewrite_sstable c.2.1 c.2.2
            c.1.run_identifier (script t._sstables.length)
          match r.1 with
          | Except.error e => (Except.error e, r.2.1, r.2.2)
          | Except.ok _ => rewrite_sstables_compaction_task.loop script fuel r.2.1 r.2.2

/-- The body of a rewrite task (`rewrite_sstables_compaction_task::do_run`): the
task becomes pending, waits for the maintenance semaphore, `acquire` telling
how that wait ends, and then rewrites its sstables one by one. -/
def rewrite_sstables_compaction_task.do_run (t : task) (cm : compaction_manager)
    (acquire : Except error Unit) (script : Nat → List (error × Bool)) :
    Except error Unit × task × compaction_manager :=
  let r := (t.switch_state cm task.state.pending).2
  match acquire with
  | Except.error e => (Except.error e, r.1, r.2)
  | Except.ok _ => rewrite_sstables_compaction_task.loop script r.1._sstables.length r.1 r.2

/-- The life of a rewrite task from its construction with the sstables chosen to
its destruction: the constructor, `perform_task` around the body, and the
destructor once `perform_task` gave up the last reference.  The result is how
`perform_task` ended, the task as it was when destroyed, and the manager
afterwards; nothing when the constructor fails. -/
def rewrite_sstables_compaction_task.life (cm : compaction_manager) (id : Nat) (tbl : Nat)
    (type : compaction_type) (sstables : List sstable) (acquire : Except error Unit)
    (script : Nat → List (error × Bool)) :
    Option (Except error Unit × task × compaction_manager) :=
  match sstables_task.ctor cm id task_class.rewrite_sstables_compaction_task tbl type sstables with
  | Option.none => Option.none
  | some c =>
    let r := rewrite_sstables_compaction_task.do_run c.1 (register_task c.2 c.1) acquire script
    let f := perform_task_finish r.2.2 r.2.1 r.1
    some (f.1, r.2.1, (r.2.1.destroy f.2).2)

/-- The difference `_sstables.size() - (_state == state::pending)` of the
destructor as the machine forms it, in `size_t`. -/
def sstables_task.dtor_difference (t : task) : Nat :=
  (t._sstables.length % 2 ^ 64 + 2 ^ 64 - (if t._state = task.state.pending then 1 else 0))
    % 2 ^ 64

/-- The value of a 64-bit pattern read as a signed number. -/
def to_int64 (x : Int) : Int :=
  (x + 2 ^ 63) % 2 ^ 64 - 2 ^ 63

/-- The pending counter after the statement of the destructor in machine
arithmetic: the difference is subtracted from the 64-bit counter modulo
`2 ^ 64`, and the result is read as a signed number. -/
def sstables_task.dtor_pending_tasks (t : task) (cm : compaction_manager) : Int :=
  to_int64 ((cm._stats.pending_tasks - (sstables_task.dtor_difference t : Int)) % 2 ^ 64)

/-- The pending counter moved by what the task contributes to it before and
after, the class of the task being the same. -/
def task.balanced (t : task) (cm : compaction_manager) (t' : task) (cm' : compaction_manager) :
    Prop :=
  t'.cls = t.cls ∧
  cm'._stats.pending_tasks - t'.pending_share = cm._stats.pending_tasks - t.pending_share

/-- Two sstables to rewrite. -/
def two_sstables : List sstable :=
  [{ id := 1, data_size := 20 }, { id := 2, data_size := 10 }]

/-! ## Off-strategy compaction -/

/-- Modelled from the spec: how one call of `sstables::compact_sstables`, which
is defined outside the sources, goes for a reshape job: it makes `created` new
sstables through the creator of the job and then returns them as
`new_sstables`, or raises `raised` after having made them. -/
structure compact_result where
  created : Nat := 1
  raised : Option error := Option.none
  deriving DecidableEq, Repr

/-- What a run of `run_offstrategy_compaction` meets: the maintenance set of the
table when the run starts, the reshape job the strategy picks from a list of
candidates (its sstables; none for no job), how the compaction of each round
goes, by the number of rounds started before, which sstables fail to unlink,
how `on_compaction_completion` ends, and the generation of the next sstable
that `make_sstable` hands out. -/
structure offstrategy_env where
  maintenance_sstables : List sstable
  get_reshaping_job : List sstable → List sstable
  compact : Nat → compact_result := fun _ => {}
  unlink_raises : sstable → Option error := fun _ => Option.none
  on_compaction_completion : Except error Unit := Except.ok ()
  generation : Nat

/-- The locals of `run_offstrategy_compaction` (`reshape_candidates`,
`sstables_to_remove`, `new_unused_sstables`), the member `_performed`, and a
record of what the run did: the rounds started and the rounds whose compaction
returned, the sstables made by the creator and the input sstables of the jobs
and the sstables unlinked, each with the number of its round, the sstables
marked for deletion, and the completion installed (old and new sstables). -/
structure offstrategy_run where
  reshape_candidates : List sstable
  sstables_to_remove : List sstable := []
  new_unused_sstables : List sstable := []
  _performed : Bool := false
  generation : Nat
  started : Nat := 0
  returned : Nat := 0
  created : List (Nat × sstable) := []
  inputs : List (Nat × sstable) := []
  unlinked : List (Nat × sstable) := []
  marked_for_deletion : List sstable := []
  completion : Option (List sstable × List sstable) := Option.none
  deriving DecidableEq, Repr

/-- The creator the loop installs in the job (`desc->creator`): a new sstable of
the table enters `new_unused_sstables`.  Modelled from the spec:
`table_state::make_sstable()`, which hands out an sstable of the next
generation. -/
def offstrategy_run.creator (s : offstrategy_run) : sstable × offstrategy_run :=
  let sst : sstable := { id := s.generation }
  (sst, { s with
    generation := s.generation + 1,
    new_unused_sstables := s.new_unused_sstables.insert sst,
    created := s.created ++ [(s.started, sst)] })

/-- The calls of the creator during one compaction: the sstables made, in order. -/
def offstrategy_run.create : Nat → offstrategy_run → List sstable × offstrategy_run
  | 0, s => ([], s)
  | n + 1, s =>
    let c := s.creator
    let r := offstrategy_run.create n c.2
    (c.1 :: r.1, r.2)

/-- The loop over the input of a round (`for (auto&& sst : input)`): an input
that this run made is unlinked and leaves `new_unused_sstables`, any other is
kept for removal at the end; an exception of `unlink` ends the loop. -/
def offstrategy_run.release_input (unlink_raises : sstable → Option error) :
    List sstable → offstrategy_run → Except error Unit × offstrategy_run
  | [], s => (Except.ok (), s)
  | sst :: rest, s =>
    if s.new_unused_sstables.contains sst then
      match unlink_raises sst with
      | some e => (Except.error e, s)
      | Option.none =>
        offstrategy_run.release_input unlink_raises rest
          { s with
            unlinked := s.unlinked ++ [(s.started, sst)],
            new_unused_sstables := s.new_unused_sstables.filter (fun x => x != sst) }
    else
      offstrategy_run.release_input unlink_raises rest
        { s with sstables_to_remove := s.sstables_to_remove ++ [sst] }

/-- One round of the loop `while (auto desc = get_next_job())`, for the job with
the sstables `job`: the compaction makes its sstables through the creator and
returns them or raises; after it returned, `_performed` is set, the inputs
leave the candidates and the new sstables join them, and the inputs are
released.  `input` is the set of the sstables of the job; it is gone through
in the order of the job. -/
def offstrategy_run.round (env : offstrategy_env) (job : List sstable) (s : offstrategy_run) :
    Except error Unit × offstrategy_run :=
  let input := job.dedup
  let c := env.compact s.started
  let s := { s with
    started := s.started + 1,
    inputs := s.inputs ++ input.map (fun x => (s.started + 1, x)) }
  let made := s.create c.created
  match c.raised with
  | some e => (Except.error e, made.2)
  | Option.none =>
    let s := { made.2 with
      _performed := true,
      returned := made.2.returned + 1,
      reshape_candidates :=
        made.2.reshape_candidates.filter (fun x => !input.contains x) ++ made.1 }
    s.release_input env.unlink_raises input

/-- The loop `while (auto desc = get_next_job())` over at most `fuel` rounds.
Each round takes the job of the strategy, a job without sstables being no job.
The first component is how the loop ended, nothing when the rounds allowed
were used up. -/
def offstrategy_run.rounds (env : offstrategy_env) :
    Nat → offstrategy_run → Option (Except error Unit) × offstrategy_run
  | 0, s =>
    if (env.get_reshaping_job s.reshape_candidates).isEmpty then (some (Except.ok ()), s)
    else (Option.none, s)
  | fuel + 1, s =>
    let job := env.get_reshaping_job s.reshape_candidates
    if job.isEmpty then
      (some (Except.ok ()), s)
    else
      match s.round env job with
      | (Except.error e, s) => (some (Except.error e), s)
      | (Except.ok _, s) => offstrategy_run.rounds env fuel s

/-- One run of the reshape procedure (`run_offstrategy_compaction`) over at most
`fuel` rounds, `performed` being the member `_performed` at its start.  When
the rounds and `on_compaction_completion` went through, the completion is
installed and the sstables kept for removal are marked for deletion; when an
exception ends the run, the deferred action marks the sstables still in
`new_unused_sstables` for deletion. -/
def run_offstrategy_compaction (env : offstrategy_env) (fuel : Nat) (performed : Bool) :
    Option (Except error Unit) × offstrategy_run :=
  let old_sstables := env.maintenance_sstables
  let s : offstrategy_run :=
    { reshape_candidates := old_sstables, _performed := performed, generation := env.generation }
  let r := s.rounds env fuel
  match r.1 with
  | Option.none => (Option.none, r.2)
  | some (Except.error e) =>
    (some (Except.error e), { r.2 with marked_for_deletion := r.2.new_unused_sstables })
  | some (Except.ok _) =>
    match env.on_compaction_completion with
    | Except.error e =>
      (some (Except.error e), { r.2 with marked_for_deletion := r.2.new_unused_sstables })
    | Except.ok _ =>
      (some (Except.ok ()),
        { r.2 with
          completion := some (old_sstables, r.2.reshape_candidates),
          marked_for_deletion := r.2.sstables_to_remove })

/-- What holds of a run whenever it stops: what waits in `new_unused_sstables`
was made by this run, what was unlinked was made in an earlier round than the
one that unlinked it, and is not in `new_unused_sstables`. -/
def offstrategy_run.tidy (s : offstrategy_run) : Prop :=
  (∀ x ∈ s.new_unused_sstables, ∃ j, (j, x) ∈ s.created) ∧
  (∀ p ∈ s.unlinked, ∃ j, j < p.1 ∧ (j, p.2) ∈ s.created) ∧
  (∀ p ∈ s.unlinked, p.2 ∉ s.new_unused_sstables)

/-- What holds of a run between two rounds, `old` being the maintenance set it
started from: the generations handed out are above every sstable seen so far;
the candidates are the sstables of `old` and the sstables made that no round
took as input, the latter all waiting in `new_unused_sstables`; what is kept
for removal is of `old`; and an sstable is made before it is taken as input. -/
def offstrategy_run.sound (old : List sstable) (s : offstrategy_run) : Prop :=
  s.tidy ∧
  (∀ x ∈ old, x.id < s.generation) ∧
  (∀ p ∈ s.created, p.2.id < s.generation ∧ p.1 ≤ s.started) ∧
  (∀ p ∈ s.inputs, p.2.id < s.generation) ∧
  (∀ x, x ∈ s.reshape_candidates ↔
    (x ∈ old ∨ ∃ j, (j, x) ∈ s.created) ∧ ∀ k, (k, x) ∉ s.inputs) ∧
  (∀ x ∈ s.reshape_candidates, (∃ j, (j, x) ∈ s.created) → x ∈ s.new_unused_sstables) ∧
  (∀ x ∈ s.sstables_to_remove, x ∈ old) ∧
  (∀ j k x, (j, x) ∈ s.created → (k, x) ∈ s.inputs → j < k)

/-- A table with three sstables in its maintenance set whose strategy reshapes
the first two candidates as long as there are two. -/
def pairs_env : offstrategy_env :=
  { maintenance_sstables := [{ id := 1 }, { id := 2 }, { id := 3 }],
    get_reshaping_job := fun c => if 2 ≤ c.length then c.take 2 else [],
    generation := 10 }

/-- What one pass of the loop of `offstrategy_compaction_task::do_run` meets: how
the wait for the off-strategy semaphore ends, the environment of the run and
the number of rounds allowed to it, and whether the backoff sleep of
`maybe_retry` is aborted. -/
structure offstrategy_attempt where
  acquire : Except error Unit := Except.ok ()
  env : offstrategy_env
  fuel : Nat
  sleep_aborted : Bool := false

/-- How the body of an off-strategy task ended: the way `do_run` returned or
raised, nothing when the passes or rounds allowed were used up; the task and
the manager at that moment; the member `_performed`; and the number of calls
of `compact_sstables` that returned. -/
structure offstrategy_outcome where
  result : Option (Except error Unit)
  task : task
  cm : compaction_manager
  _performed : Bool
  returned : Nat

/-- The body of an off-strategy task (`offstrategy_compaction_task::do_run`), one
element of the list for each pass of its loop: the task gives up when it
cannot proceed, becomes pending, waits for the semaphore, gives up when it
cannot proceed any more, sets up a new compaction and runs the reshape
procedure; after a run without exception it finishes as done and returns,
after an exception it finishes as failed and asks `maybe_retry`. -/
def offstrategy_compaction_task.do_run (t : task) (cm : compaction_manager) (performed : Bool)
    (returned : Nat) : List offstrategy_attempt → offstrategy_outcome
  | [] =>
    { result := Option.none, task := t, cm := cm, _performed := performed, returned := returned }
  | a :: rest =>
    match t.can_proceed cm false with
    | Except.error e =>
      { result := some (Except.error e), task := t, cm := cm, _performed := performed,
        returned := returned }
    | Except.ok false =>
      { result := some (Except.ok ()), task := t, cm := cm, _performed := performed,
        returned := returned }
    | Except.ok true =>
      let r := (t.switch_state cm task.state.pending).2
      match a.acquire with
      | Except.error e =>
        { result := some (Except.error e), task := r.1, cm := r.2, _performed := performed,
          returned := returned }
      | Except.ok _ =>
        match r.1.can_proceed r.2 false with
        | Except.error e =>
          { result := some (Except.error e), task := r.1, cm := r.2, _performed := performed,
            returned := returned }
        | Except.ok false =>
          { result := some (Except.ok ()), task := r.1, cm := r.2, _performed := performed,
            returned := returned }
        | Except.ok true =>
          let r := r.1.setup_new_compaction r.2 Option.none
          let run := run_offstrategy_compaction a.env a.fuel performed
          match run.1 with
          | Option.none =>
            { result := Option.none, task := r.1, cm := r.2, _performed := run.2._performed,
              returned := returned + run.2.returned }
          | some (Except.ok _) =>
            let f := r.1.finish_compaction r.2 task.state.done
            { result := some (Except.ok ()), task := f.1, cm := f.2,
              _performed := run.2._performed, returned := returned + run.2.returned }
          | some (Except.error ex) =>
            let f := r.1.finish_compaction r.2 task.state.failed
            let m := f.1.maybe_retry f.2 ex a.sleep_aborted
            match m.1 with
            | Except.error e =>
              { result := some (Except.error e), task := m.2.1, cm := m.2.2,
                _performed := run.2._performed, returned := returned + run.2.returned }
            | Except.ok stop_iteration.yes =>
              { result := some (Except.ok ()), task := m.2.1, cm := m.2.2,
                _performed := run.2._performed, returned := returned + run.2.returned }
            | Except.ok stop_iteration.no =>
              offstrategy_compaction_task.do_run m.2.1 m.2.2 run.2._performed
                (returned + run.2.returned) rest

/-- What `perform_offstrategy` hands back: the value it returns or the exception
it raises, nothing when the passes or rounds allowed were used up; the manager
afterwards; and the number of calls of `compact_sstables` that returned. -/
structure perform_offstrategy_outcome where
  result : Option (Except error Bool)
  cm : compaction_manager
  returned : Nat

/-- The off-strategy compaction of a table (`perform_offstrategy`): false when
the manager is not enabled; otherwise a task is created and run by
`perform_task`, and the call returns whether the task performed.  `id` is
the identity of the new task object. -/
def perform_offstrategy (cm : compaction_manager) (t : table_state) (id : Nat)
    (attempts : List offstrategy_attempt) : perform_offstrategy_outcome :=
  if cm._state ≠ state.enabled then
    { result := some (Except.ok false), cm := cm, returned := 0 }
  else
    match task.make cm id task_class.offstrategy_compaction_task t.addr
        compaction_type.Reshape with
    | Except.error e => { result := some (Except.error e), cm := cm, returned := 0 }
    | Except.ok task =>
      let o := offstrategy_compaction_task.do_run task (register_task cm task) false 0 attempts
      match o.result with
      | Option.none => { result := Option.none, cm := o.cm, returned := o.returned }
      | some r =>
        let f := perform_task_finish o.cm o.task r
        match f.1 with
        | Except.error e => { result := some (Except.error e), cm := f.2, returned := o.returned }
        | Except.ok _ =>
          { result := some (Except.ok o._performed), cm := f.2, returned := o.returned }

/-- The environment of `pairs_env` in which the compaction of the second round
raises a storage I/O error after having made one sstable. -/
def failing_pairs_env : offstrategy_env :=
  { pairs_env with
    compact := fun k => if k = 1 then { raised := some error.storage_io_error } else {} }

end compaction_manager

/-! # Properties -/

namespace compaction_manager

theorem foldl_max_eq_foldr (l : List Nat) (a : Nat) :
    l.foldl max a = max a (l.foldr max 0) := by
  induction l generalizing a with
  | nil => simp
  | cons x xs ih => simp [ih, max_assoc]

theorem foldr_max_running (l : List task) :
    (l.map (fun task =>
        if task.compaction_running then task._compaction_data.compaction_fan_in else 0)).foldr max 0
      = ((l.filter task.compaction_running).map
          (fun task => task._compaction_data.compaction_fan_in)).foldr max 0 := by
  induction l with
  | nil => simp
  | cons x xs ih =>
    by_cases h : x.compaction_running = true
    · simp [List.filter_cons, h, ih]
    · simp [List.filter_cons, h, ih]

theorem threshold_eq (cm : compaction_manager) :
    cm.current_compaction_fan_in_threshold = min 32 cm.largest_running_fan_in := by
  unfold current_compaction_fan_in_threshold largest_running_fan_in
  rw [← foldr_max_running]
  cases h : cm._tasks.map
      (fun task => if task.compaction_running then task._compaction_data.compaction_fan_in else 0) with
  | nil => simp
  | cons x xs => simp [foldl_max_eq_foldr]

/-- C1: `can_register_compaction(T, w, f)` is true exactly when (T's strategy
allows parallel compaction or T has no running compaction) and (w = 0, or w is
not in the weight tracker and f is at least min(32, largest fan-in among the
running tasks)); the parallel-compaction rule comes first, so it also rejects
a weightless job. -/
theorem can_register_compaction_iff (cm : compaction_manager) (t : table_state) (w : Int)
    (f : Nat) :
    cm.can_register_compaction t w f = true ↔
      (t.parallel_compaction = true ∨
        ¬ ∃ task ∈ cm._tasks, task._compacting_table = t.addr ∧ task.compaction_running = true) ∧
      (w = 0 ∨ (w ∉ cm._weight_tracker ∧ min 32 cm.largest_running_fan_in ≤ f)) := by
  unfold can_register_compaction
  rw [threshold_eq]
  unfold has_table_ongoing_compaction
  by_cases hp : t.parallel_compaction = true
  · by_cases hw : w = 0
    · simp [hp, hw]
    · by_cases hm : w ∈ cm._weight_tracker
      · simp [hp, hw, hm]
      · simp [hp, hw, hm]
  · by_cases ho : ∃ task ∈ cm._tasks, task._compacting_table = t.addr ∧ task.compaction_running = true
    · have : (cm._tasks.any fun task => task._compacting_table == t.addr && task.compaction_running) = true := by
        obtain ⟨x, hx, h1, h2⟩ := ho
        simp only [List.any_eq_true]
        exact ⟨x, hx, by simp [h1, h2]⟩
      simp [hp, this]
      intro hh
      exact absurd ho (by simpa using hh)
    · have : (cm._tasks.any fun task => task._compacting_table == t.addr && task.compaction_running) = false := by
        rw [Bool.eq_false_iff]
        intro hany
        simp only [List.any_eq_true] at hany
        obtain ⟨x, hx, h⟩ := hany
        exact ho ⟨x, hx, by simpa using h⟩
      by_cases hw : w = 0
      · simp [hp, this, hw, ho]
      · by_cases hm : w ∈ cm._weight_tracker
        · simp [hp, this, hw, hm]
        · simp [hp, this, hw, hm, ho]

/-- C4: admission monotonicity.  When a job of weight w and fan-in f for table T
is refused only by the fan-in rule (the parallel-compaction rule and the weight
rule pass), it is admitted in every later state in which no running job has a
fan-in of f or more, the other two rules still passing. -/
theorem admission_monotone (cm cm' : compaction_manager) (t : table_state) (w : Int) (f : Nat)
    (hpar : t.parallel_compaction = true ∨ cm.has_table_ongoing_compaction t = false)
    (hw : w ≠ 0 ∧ w ∉ cm._weight_tracker)
    (hfan : f < cm.current_compaction_fan_in_threshold)
    (hdone : ∀ x ∈ cm'._tasks, x.compaction_running = true → x._compaction_data.compaction_fan_in < f)
    (hpar' : t.parallel_compaction = true ∨ cm'.has_table_ongoing_compaction t = false)
    (hw' : w ∉ cm'._weight_tracker) :
    cm.can_register_compaction t w f = false ∧ cm'.can_register_compaction t w f = true := by
  have hthr : cm'.current_compaction_fan_in_threshold ≤ f := by
    rw [threshold_eq]
    refine le_trans (min_le_right _ _) ?_
    unfold largest_running_fan_in
    have : ∀ l : List task,
        (∀ x ∈ l, x.compaction_running = true → x._compaction_data.compaction_fan_in < f) →
        ((l.filter task.compaction_running).map
          (fun task => task._compaction_data.compaction_fan_in)).foldr max 0 ≤ f := by
      intro l
      induction l with
      | nil => intro _; simp
      | cons x xs ih =>
        intro h
        have hxs := ih (fun y hy => h y (List.mem_cons_of_mem _ hy))
        by_cases hx : x.compaction_running = true
        · have := h x (List.mem_cons_self _ _) hx
          simp only [List.filter_cons, hx, if_true, List.map_cons, List.foldr_cons]
          exact max_le (le_of_lt this) hxs
        · simp only [List.filter_cons, hx]
          simpa using hxs
    exact this _ hdone
  constructor
  · unfold can_register_compaction
    rcases hpar with hp | hp
    · simp [hp, hw.1, hw.2, hfan]
    · simp [hp, hw.1, hw.2, hfan]
  · unfold can_register_compaction
    rcases hpar' with hp | hp
    · simp [hp, hw.1, hw', hthr]
    · simp [hp, hw.1, hw', hthr]

theorem admission_monotone_witness :
    busy_manager.can_register_compaction { addr := 2 } 11 4 = false ∧
    idle_manager.can_register_compaction { addr := 2 } 11 4 = true :=
  admission_monotone busy_manager idle_manager { addr := 2 } 11 4
    (Or.inl rfl) ⟨by decide, by decide⟩ (by decide) (by decide) (Or.inl rfl) (by decide)

/-- C5: `switch_state(new)` on a task in state old returns old, stores new and
leaves the rest of the task alone; pending moves by [new = pending] − [old =
pending], active by [new = active] − [old = active], completed by [new = done],
and errors stays. -/
theorem switch_state_counters (t : task) (cm : compaction_manager) (new : task.state) :
    (t.switch_state cm new).1 = t._state ∧
    (t.switch_state cm new).2.1 = { t with _state := new } ∧
    (t.switch_state cm new).2.2._stats.pending_tasks =
      cm._stats.pending_tasks + (if new = task.state.pending then 1 else 0)
        - (if t._state = task.state.pending then 1 else 0) ∧
    (t.switch_state cm new).2.2._stats.active_tasks =
      cm._stats.active_tasks + (if new = task.state.active then 1 else 0)
        - (if t._state = task.state.active then 1 else 0) ∧
    (t.switch_state cm new).2.2._stats.completed_tasks =
      cm._stats.completed_tasks + (if new = task.state.done then 1 else 0) ∧
    (t.switch_state cm new).2.2._stats.errors = cm._stats.errors := by
  cases h : t._state <;> cases new <;> simp [task.switch_state, h]

theorem mem_unregister_task (cm : compaction_manager) (t x : task)
    (hx : x ∈ (unregister_task cm t)._tasks) : x.id ≠ t.id := by
  unfold unregister_task at hx
  simp only [List.mem_filter] at hx
  simpa using hx.2

theorem perform_task_eq (cm : compaction_manager) (t : task)
    (run : compaction_manager → Except error Unit × compaction_manager) :
    perform_task cm t run
      = perform_task_finish (run (register_task cm t)).2 t (run (register_task cm t)).1 :=
  rfl

/-- C8: a task that ends with `Stopped` is not an error.  `maybe_retry` called
with `Stopped` returns "stop" without raising and leaves the task and the
manager as they were; a run that ends with `Stopped`, or normally after
`maybe_retry` swallowed it, makes `perform_task` complete without raising and
without counting an error, and no entry of the task list is the task. -/
theorem stopped_is_swallowed (cm : compaction_manager) (t : task) (sleep_aborted : Bool)
    (run : compaction_manager → Except error Unit × compaction_manager)
    (hrun : (run (register_task cm t)).1 = Except.error error.compaction_stopped_exception ∨
      (run (register_task cm t)).1 = Except.ok ()) :
    t.maybe_retry cm error.compaction_stopped_exception sleep_aborted
      = (Except.ok stop_iteration.yes, t, cm) ∧
    (perform_task cm t run).1 = Except.ok () ∧
    (perform_task cm t run).2._stats.errors = (run (register_task cm t)).2._stats.errors ∧
    ∀ x ∈ (perform_task cm t run).2._tasks, x.id ≠ t.id := by
  refine ⟨rfl, ?_⟩
  rw [perform_task_eq]
  rcases hrun with h | h
  · rw [h]
    exact ⟨rfl, rfl, fun x hx => mem_unregister_task _ _ _ hx⟩
  · rw [h]
    exact ⟨rfl, rfl, fun x hx => mem_unregister_task _ _ _ hx⟩

theorem stopped_is_swallowed_witness :
    ((fun m => (Except.error error.compaction_stopped_exception, m) :
        compaction_manager → Except error Unit × compaction_manager)
      (register_task busy_manager { id := 7 })).1
        = Except.error error.compaction_stopped_exception ∧
    (perform_task busy_manager { id := 7 }
      (fun m => (Except.error error.compaction_stopped_exception, m))).1 = Except.ok () ∧
    (perform_task busy_manager { id := 7 }
      (fun m => (Except.error error.compaction_stopped_exception, m))).2._stats.errors = 0 :=
  ⟨rfl,
   (stopped_is_swallowed busy_manager { id := 7 } false
      (fun m => (Except.error error.compaction_stopped_exception, m)) (Or.inl rfl)).2.1,
   (stopped_is_swallowed busy_manager { id := 7 } false
      (fun m => (Except.error error.compaction_stopped_exception, m)) (Or.inl rfl)).2.2.1⟩

/-- C9: when the run of a task raises a storage I/O error and the manager has
been started (its state is enabled or disabled, or already stopped),
`perform_task` leaves the manager stopped, counts one error, raises the error
again to its caller, and no entry of the task list is the task. -/
theorem storage_io_error_stops (cm : compaction_manager) (t : task)
    (run : compaction_manager → Except error Unit × compaction_manager)
    (hrun : (run (register_task cm t)).1 = Except.error error.storage_io_error)
    (hst : (run (register_task cm t)).2._state ≠ state.none) :
    (perform_task cm t run).1 = Except.error error.storage_io_error ∧
    (perform_task cm t run).2._state = state.stopped ∧
    (perform_task cm t run).2._stats.errors = (run (register_task cm t)).2._stats.errors + 1 ∧
    ∀ x ∈ (perform_task cm t run).2._tasks, x.id ≠ t.id := by
  rw [perform_task_eq, hrun]
  refine ⟨rfl, ?_, ?_, fun x hx => mem_unregister_task _ _ _ hx⟩
  · by_cases h : (run (register_task cm t)).2._state = state.stopped
    · simp [perform_task_finish, unregister_task, do_stop, h]
    · simp [perform_task_finish, unregister_task, do_stop, h, hst]
  · by_cases h : (run (register_task cm t)).2._state = state.stopped
    · simp [perform_task_finish, unregister_task, do_stop, h]
    · simp [perform_task_finish, unregister_task, do_stop, h, hst]

theorem storage_io_error_stops_witness :
    ((fun m => (Except.error error.storage_io_error, m) :
        compaction_manager → Except error Unit × compaction_manager)
      (register_task busy_manager { id := 7 })).2._state ≠ state.none ∧
    (perform_task busy_manager { id := 7 }
      (fun m => (Except.error error.storage_io_error, m))).1
        = Except.error error.storage_io_error ∧
    (perform_task busy_manager { id := 7 }
      (fun m => (Except.error error.storage_io_error, m))).2._state = state.stopped ∧
    (perform_task busy_manager { id := 7 }
      (fun m => (Except.error error.storage_io_error, m))).2._stats.errors = 1 :=
  ⟨by decide,
   (storage_io_error_stops busy_manager { id := 7 }
      (fun m => (Except.error error.storage_io_error, m)) rfl (by decide)).1,
   (storage_io_error_stops busy_manager { id := 7 }
      (fun m => (Except.error error.storage_io_error, m)) rfl (by decide)).2.1,
   (storage_io_error_stops busy_manager { id := 7 }
      (fun m => (Except.error error.storage_io_error, m)) rfl (by decide)).2.2.1⟩

/-- C10: `maybe_retry` called with an `Aborted` error counts one error and then
returns "stop" to its caller as a normal result: the error is not raised again. -/
theorem maybe_retry_aborted_returns (t : task) (cm : compaction_manager) (sleep_aborted : Bool) :
    t.maybe_retry cm error.compaction_aborted_exception sleep_aborted
      = (Except.ok stop_iteration.yes, t,
          { cm with _stats := { cm._stats with errors := cm._stats.errors + 1 } }) ∧
    (t.maybe_retry cm error.compaction_aborted_exception sleep_aborted).1
      ≠ Except.error error.compaction_aborted_exception := by
  refine ⟨rfl, ?_⟩
  simp [task.maybe_retry]

/-! ## Effect of the operations on one task and on the counters -/

theorem switch_state_frame (t : task) (cm : compaction_manager) (new : task.state) :
    (t.switch_state cm new).2.1 = { t with _state := new } ∧
    (t.switch_state cm new).2.2._tasks = cm._tasks ∧
    (t.switch_state cm new).2.2._weight_tracker = cm._weight_tracker ∧
    (t.switch_state cm new).2.2._state = cm._state ∧
    (t.switch_state cm new).2.2._stats.active_tasks
        - (if new = task.state.active then 1 else 0)
      = cm._stats.active_tasks - t.is_active ∧
    (t.switch_state cm new).2.2._stats.pending_tasks
        - (if new = task.state.pending then 1 else 0)
      = cm._stats.pending_tasks - t.is_pending := by
  cases h : t._state <;> cases new <;>
    simp [task.switch_state, task.is_active, task.is_pending, h]

theorem do_stop_frame (cm : compaction_manager) :
    (do_stop cm)._tasks = cm._tasks ∧ (do_stop cm)._weight_tracker = cm._weight_tracker ∧
    (do_stop cm)._stats = cm._stats := by
  unfold do_stop
  split <;> simp

theorem switch_state_effect (t : task) (cm : compaction_manager) (new : task.state) :
    (t.switch_state cm new).2.1.id = t.id ∧
    (t.switch_state cm new).2.1.cls = t.cls ∧
    (t.switch_state cm new).2.1.weight_r = t.weight_r ∧
    (t.switch_state cm new).2.1.queued = t.queued ∧
    (t.switch_state cm new).2.2._stats.active_tasks - (t.switch_state cm new).2.1.is_active
      = cm._stats.active_tasks - t.is_active ∧
    (t.switch_state cm new).2.2._stats.pending_tasks - (t.switch_state cm new).2.1.is_pending
      = cm._stats.pending_tasks - t.is_pending := by
  obtain ⟨h1, _, _, _, h5, h6⟩ := switch_state_frame t cm new
  rw [h1]
  refine ⟨rfl, rfl, rfl, rfl, ?_, ?_⟩
  · simpa [task.is_active] using h5
  · simpa [task.is_pending] using h6

theorem maybe_retry_effect (t : task) (cm : compaction_manager) (err : error) (sa : Bool) :
    (t.maybe_retry cm err sa).2.1.id = t.id ∧
    (t.maybe_retry cm err sa).2.1.cls = t.cls ∧
    (t.maybe_retry cm err sa).2.1.weight_r = t.weight_r ∧
    (t.maybe_retry cm err sa).2.1.queued = t.queued ∧
    (t.maybe_retry cm err sa).2.2._weight_tracker = cm._weight_tracker ∧
    (t.maybe_retry cm err sa).2.2._stats.active_tasks - (t.maybe_retry cm err sa).2.1.is_active
      = cm._stats.active_tasks - t.is_active ∧
    (t.maybe_retry cm err sa).2.2._stats.pending_tasks - (t.maybe_retry cm err sa).2.1.is_pending
      = cm._stats.pending_tasks - t.is_pending := by
  cases err with
  | compaction_stopped_exception => simp [task.maybe_retry]
  | compaction_aborted_exception => simp [task.maybe_retry]
  | storage_io_error =>
    simp only [task.maybe_retry]
    obtain ⟨_, h2, h3⟩ := do_stop_frame
      { cm with _stats := { cm._stats with errors := cm._stats.errors + 1 } }
    simp [h2, h3]
  | other =>
    simp only [task.maybe_retry]
    cases hc : t.can_proceed cm false with
    | error e => simp
    | ok b =>
      cases b with
      | false => simp
      | true =>
        obtain ⟨h1, h2, h3, h4, h5, h6⟩ := switch_state_effect t
          { cm with _stats := { cm._stats with errors := cm._stats.errors + 1 } } task.state.pending
        obtain ⟨_, _, h7, _⟩ := switch_state_frame t
          { cm with _stats := { cm._stats with errors := cm._stats.errors + 1 } } task.state.pending
        cases sa <;> simp [h1, h2, h3, h4, h5, h6, h7]

theorem consume_sstable_effect (t t' : task) (cm cm' : compaction_manager) (sst : sstable)
    (h : sstables_task.consume_sstable t cm = some (sst, t', cm')) :
    t' = { t with _sstables := t._sstables.dropLast } ∧
    t._sstables ≠ [] ∧
    cm' = { cm with _stats := { cm._stats with pending_tasks := cm._stats.pending_tasks - 1 } } := by
  unfold sstables_task.consume_sstable at h
  cases hl : t._sstables.getLast? with
  | none => simp [hl] at h
  | some x =>
    simp only [hl, Option.some.injEq, Prod.mk.injEq] at h
    refine ⟨h.2.1.symm, ?_, h.2.2.symm⟩
    intro he
    simp [he] at hl

theorem length_dropLast_int {α : Type} (l : List α) (h : l ≠ []) :
    ((l.dropLast.length : Nat) : Int) = (l.length : Int) - 1 := by
  have : 0 < l.length := List.length_pos.mpr h
  rw [List.length_dropLast]
  omega

theorem effect_of_switch (t0 t : task) (cm0 cm : compaction_manager) (new : task.state)
    (hid : t0.id = t.id) (hcls : t0.cls = t.cls) (hq : t0.queued = t.queued)
    (ha : t0.is_active = t.is_active) (hp : t0.is_pending = t.is_pending)
    (hs : cm0._stats = cm._stats) :
    (t0.switch_state cm0 new).2.1.id = t.id ∧ (t0.switch_state cm0 new).2.1.cls = t.cls ∧
    (t0.switch_state cm0 new).2.2._stats.active_tasks - (t0.switch_state cm0 new).2.1.is_active
      = cm._stats.active_tasks - t.is_active ∧
    (t0.switch_state cm0 new).2.2._stats.pending_tasks
        - ((t0.switch_state cm0 new).2.1.is_pending + (t0.switch_state cm0 new).2.1.queued)
      = cm._stats.pending_tasks - (t.is_pending + t.queued) := by
  obtain ⟨h1, h2, _, h4, h5, h6⟩ := switch_state_effect t0 cm0 new
  rw [hs, ha] at h5
  rw [hs, hp] at h6
  refine ⟨h1.trans hid, h2.trans hcls, h5, ?_⟩
  rw [h4, hq]
  linarith

/-- Every operation of a task body keeps the identity and the class of the
task, and moves the active and the pending counter by exactly what the task
contributes to them before and after. -/
theorem task_op_effect {t t' : task} {cm cm' : compaction_manager} (h : task_op t cm t' cm') :
    t'.id = t.id ∧ t'.cls = t.cls ∧
    cm'._stats.active_tasks - t'.is_active = cm._stats.active_tasks - t.is_active ∧
    cm'._stats.pending_tasks - (t'.is_pending + t'.queued)
      = cm._stats.pending_tasks - (t.is_pending + t.queued) := by
  cases h with
  | switch_state new_state =>
    exact effect_of_switch t t cm cm new_state rfl rfl rfl rfl rfl rfl
  | setup_new_compaction rid =>
    exact effect_of_switch _ t cm cm task.state.active rfl rfl rfl rfl rfl rfl
  | finish_compaction st =>
    exact effect_of_switch t t cm cm st rfl rfl rfl rfl rfl rfl
  | compaction_data d => exact ⟨rfl, rfl, rfl, rfl⟩
  | consume_sstable sst _ _ hcls hc =>
    obtain ⟨ht, hne, hcm⟩ := consume_sstable_effect t t' cm cm' sst hc
    subst ht hcm
    refine ⟨rfl, rfl, rfl, ?_⟩
    have := length_dropLast_int t._sstables hne
    simp only [task.queued, task.is_pending, hcls, if_true]
    rw [this]
    ring
  | job_done hcls hne =>
    refine ⟨rfl, rfl, rfl, ?_⟩
    have := length_dropLast_int t._pending_cleanup_jobs hne
    simp only [cleanup_sstables_compaction_task.job_done, task.queued, task.is_pending, hcls]
    simp only [task_class.is_sstables_task, if_true]
    simp only [Bool.false_eq_true, if_false]
    rw [this]
    ring
  | maybe_retry err sa =>
    obtain ⟨h1, h2, _, h4, _, h6, h7⟩ := maybe_retry_effect t cm err sa
    exact ⟨h1, h2, h6, by rw [h4]; linarith⟩
  | register tbl weight fan_in hcls htbl hw hcan => exact ⟨rfl, rfl, rfl, rfl⟩
  | postpone tbl weight fan_in hcls htbl hw hcan =>
    exact effect_of_switch t t cm cm task.state.postponed rfl rfl rfl rfl rfl rfl
  | deregister weight hw => exact ⟨rfl, rfl, rfl, rfl⟩

/-! ## Object identities -/

theorem filter_ne_id (l1 l2 : List task) (t : task)
    (h : ((l1 ++ t :: l2).map task.id).Nodup) :
    (l1 ++ t :: l2).filter (fun x => x.id != t.id) = l1 ++ l2 := by
  rw [List.map_append, List.map_cons, List.nodup_append] at h
  obtain ⟨_, h2, h3⟩ := h
  rw [List.nodup_cons] at h2
  have e1 : l1.filter (fun x => x.id != t.id) = l1 := by
    rw [List.filter_eq_self]
    intro x hx
    have : x.id ≠ t.id := by
      intro he
      exact h3 (List.mem_map_of_mem task.id hx) (by rw [he]; exact List.mem_cons_self _ _)
    simpa using this
  have e2 : l2.filter (fun x => x.id != t.id) = l2 := by
    rw [List.filter_eq_self]
    intro x hx
    have : x.id ≠ t.id := by
      intro he
      exact h2.1 (by rw [← he]; exact List.mem_map_of_mem task.id hx)
    simpa using this
  rw [List.filter_append, List.filter_cons, e1, e2]
  simp

theorem perform_task_finish_frame (cm : compaction_manager) (t : task) (r : Except error Unit) :
    (perform_task_finish cm t r).2._tasks = cm._tasks.filter (fun x => x.id != t.id) ∧
    (perform_task_finish cm t r).2._weight_tracker = cm._weight_tracker ∧
    (perform_task_finish cm t r).2._stats.active_tasks = cm._stats.active_tasks ∧
    (perform_task_finish cm t r).2._stats.pending_tasks = cm._stats.pending_tasks := by
  have hd := do_stop_frame { cm with _stats := { cm._stats with errors := cm._stats.errors + 1 } }
  cases r with
  | ok u => exact ⟨rfl, rfl, rfl, rfl⟩
  | error e =>
    cases e with
    | compaction_stopped_exception => exact ⟨rfl, rfl, rfl, rfl⟩
    | compaction_aborted_exception => exact ⟨rfl, rfl, rfl, rfl⟩
    | other => exact ⟨rfl, rfl, rfl, rfl⟩
    | storage_io_error =>
      simp only [perform_task_finish, unregister_task]
      rw [hd.1, hd.2.1, hd.2.2]
      exact ⟨rfl, rfl, rfl, rfl⟩

theorem live_tasks_nodup {s : system} (hi : s.ids_fresh) : (s.cm._tasks.map task.id).Nodup := by
  have := hi.2
  unfold system.live at this
  rw [List.map_append, List.nodup_append] at this
  exact this.1

theorem ids_fresh_of_perm {s s' : system} (hi : s.ids_fresh)
    (hp : List.Perm (s'.live.map task.id) (s.live.map task.id)) (hn : s.next_id ≤ s'.next_id) :
    s'.ids_fresh := by
  refine ⟨?_, hp.nodup_iff.mpr hi.2⟩
  intro t ht
  have h1 : t.id ∈ s'.live.map task.id := List.mem_map_of_mem task.id ht
  have h2 : t.id ∈ s.live.map task.id := hp.mem_iff.mp h1
  obtain ⟨x, hx, hxe⟩ := List.mem_map.mp h2
  have := hi.1 x hx
  omega

theorem ids_fresh_of_new {s s' : system} (hi : s.ids_fresh) (t : task) (ht : t.id = s.next_id)
    (hp : List.Perm s'.live (t :: s.live)) (hn : s'.next_id = s.next_id + 1) :
    s'.ids_fresh := by
  constructor
  · intro x hx
    have := hp.mem_iff.mp hx
    rcases List.mem_cons.mp this with h | h
    · rw [h, ht, hn]; omega
    · have := hi.1 x h
      omega
  · have h1 : List.Perm (s'.live.map task.id) ((t :: s.live).map task.id) := hp.map task.id
    rw [h1.nodup_iff, List.map_cons, List.nodup_cons]
    refine ⟨?_, hi.2⟩
    intro hm
    obtain ⟨x, hx, hxe⟩ := List.mem_map.mp hm
    have := hi.1 x hx
    omega

theorem ids_fresh_of_sublist {s s' : system} (hi : s.ids_fresh)
    (hp : List.Sublist s'.live s.live) (hn : s'.next_id = s.next_id) :
    s'.ids_fresh := by
  constructor
  · intro x hx
    have := hi.1 x (hp.subset hx)
    omega
  · exact (hi.2).sublist (hp.map task.id)

theorem sstables_ctor_effect {cm cm' : compaction_manager} {id t : Nat} {cls : task_class}
    {type : compaction_type} {sstables : List sstable} {tk : task}
    (h : sstables_task.ctor cm id cls t type sstables = some (tk, cm')) :
    tk = { task.ctor id cls t type with _sstables := sstables } ∧
    cm' = { cm with _stats := { cm._stats with
      pending_tasks := cm._stats.pending_tasks + (sstables.length : Int) } } := by
  unfold sstables_task.ctor sstables_task.set_sstables at h
  simp [task.ctor, task.is_pending] at h
  exact ⟨h.1.symm, h.2.symm⟩

theorem destroy_frame (t : task) (cm : compaction_manager) :
    (t.destroy cm).2._tasks = cm._tasks ∧
    (t.destroy cm).2._weight_tracker = cm._weight_tracker ∧
    (t.destroy cm).2._stats.active_tasks = cm._stats.active_tasks - t.is_active := by
  unfold task.destroy task.dtor
  split
  · obtain ⟨_, h2, h3, _, h5, _⟩ := switch_state_frame t (sstables_task.dtor t cm) task.state.none
    refine ⟨h2, h3, ?_⟩
    simpa [sstables_task.dtor] using h5
  · split
    · obtain ⟨_, h2, h3, _, h5, _⟩ :=
        switch_state_frame t (cleanup_sstables_compaction_task.dtor t cm) task.state.none
      refine ⟨h2, h3, ?_⟩
      simpa [cleanup_sstables_compaction_task.dtor] using h5
    · obtain ⟨_, h2, h3, _, h5, _⟩ := switch_state_frame t cm task.state.none
      refine ⟨h2, h3, ?_⟩
      simpa using h5

/-- Every step keeps the object identities unique. -/
theorem ids_fresh_step {s s' : system} (h : any_step s s') (hi : s.ids_fresh) : s'.ids_fresh := by
  rcases h with h | h
  · cases h with
    | make_task cls t type h1 h2 =>
      refine ids_fresh_of_new hi (task.ctor s.next_id cls t type) rfl ?_ rfl
      exact List.perm_middle
    | make_sstables_task cls t type sstables task cm' h1 h2 =>
      obtain ⟨e1, e2⟩ := sstables_ctor_effect h2
      subst e1 e2
      refine ids_fresh_of_new hi
        { task.ctor s.next_id cls t type with _sstables := sstables } rfl ?_ rfl
      exact List.perm_middle
    | make_cleanup_task t type jobs =>
      refine ids_fresh_of_new hi
        (cleanup_sstables_compaction_task.ctor s.cm s.next_id t type jobs).1 rfl ?_ rfl
      exact List.perm_middle
    | perform_task_begin u1 u2 t hu =>
      refine ids_fresh_of_perm hi ?_ (le_refl _)
      apply List.Perm.map
      simp only [system.live, register_task, hu, List.append_assoc, List.singleton_append]
      exact List.Perm.append_left _ List.perm_middle.symm
    | on_task l1 l2 t t' cm' hl hop =>
      refine ids_fresh_of_perm hi ?_ (le_refl _)
      have := (task_op_effect hop).1
      simp [system.live, hl, this]
    | perform_task_end l1 l2 t r hl hw =>
      refine ids_fresh_of_perm hi ?_ (le_refl _)
      apply List.Perm.map
      have hf := (perform_task_finish_frame s.cm t r).1
      have hn := live_tasks_nodup hi
      rw [hl] at hn
      simp only [system.live, hf, hl, filter_ne_id l1 l2 t hn, List.append_assoc]
      exact List.Perm.append_left _ List.perm_middle
    | destroy u1 u2 t hu hn =>
      refine ids_fresh_of_sublist hi ?_ rfl
      simp only [system.live, (destroy_frame t s.cm).1, hu]
      exact List.Sublist.append_left (List.Sublist.append_left (List.sublist_cons_self _ _) _) _
    | enable h1 => exact ids_fresh_of_perm hi (List.Perm.refl _) (le_refl _)
    | drain => exact ids_fresh_of_perm hi (List.Perm.refl _) (le_refl _)
    | do_stop =>
      refine ids_fresh_of_perm hi ?_ (le_refl _)
      simp [system.live, (do_stop_frame s.cm).1]
    | really_do_stop_clear h1 h2 => exact ids_fresh_of_perm hi (List.Perm.refl _) (le_refl _)
  · cases h with
    | mk u1 u2 t hu h1 h2 =>
      refine ids_fresh_of_sublist hi ?_ rfl
      simp only [system.live, (destroy_frame t s.cm).1, hu]
      exact List.Sublist.append_left (List.Sublist.append_left (List.sublist_cons_self _ _) _) _

theorem reachable_ids_fresh {s : system} (h : reachable s) : s.ids_fresh := by
  induction h with
  | init => exact ⟨by intro t ht; simp [system.live] at ht, by simp [system.live]⟩
  | next s s' _ hstep ih => exact ids_fresh_step hstep ih

/-! ## The active counter -/

theorem sum_is_active (l : List task) :
    (l.map task.is_active).sum
      = ((l.countP (fun t => decide (t._state = task.state.active)) : Nat) : Int) := by
  induction l with
  | nil => simp
  | cons x xs ih =>
    by_cases h : x._state = task.state.active
    · simp [List.countP_cons, task.is_active, h, ih]
      ring
    · simp [List.countP_cons, task.is_active, h, ih]

/-- Every step moves the active counter by what the live tasks gain or lose. -/
theorem active_step {s s' : system} (h : any_step s s') (hi : s.ids_fresh) :
    s'.cm._stats.active_tasks - (s'.live.map task.is_active).sum
      = s.cm._stats.active_tasks - (s.live.map task.is_active).sum := by
  rcases h with h | h
  · cases h with
    | make_task cls t type h1 h2 =>
      simp [system.live, task.ctor, task.is_active]
    | make_sstables_task cls t type sstables task cm' h1 h2 =>
      obtain ⟨e1, e2⟩ := sstables_ctor_effect h2
      subst e1 e2
      simp [system.live, task.ctor, task.is_active]
    | make_cleanup_task t type jobs =>
      simp [system.live, cleanup_sstables_compaction_task.ctor, task.ctor, task.is_active]
    | perform_task_begin u1 u2 t hu =>
      simp only [system.live, register_task, hu, List.map_append, List.map_cons, List.sum_append,
        List.sum_cons, List.map_nil, List.sum_nil]
      ring
    | on_task l1 l2 t t' cm' hl hop =>
      have := (task_op_effect hop).2.2.1
      simp only [system.live, hl, List.map_append, List.map_cons, List.sum_append, List.sum_cons]
      linarith
    | perform_task_end l1 l2 t r hl hw =>
      obtain ⟨hf, _, ha, _⟩ := perform_task_finish_frame s.cm t r
      have hn := live_tasks_nodup hi
      rw [hl] at hn
      simp only [system.live, hf, ha, hl, filter_ne_id l1 l2 t hn, List.map_append, List.map_cons,
        List.sum_append, List.sum_cons]
      ring
    | destroy u1 u2 t hu hn =>
      obtain ⟨hf, _, ha⟩ := destroy_frame t s.cm
      simp only [system.live, hf, ha, hu, List.map_append, List.map_cons, List.sum_append,
        List.sum_cons]
      ring
    | enable h1 => rfl
    | drain => rfl
    | do_stop =>
      obtain ⟨h1, _, h3⟩ := do_stop_frame s.cm
      simp only [system.live, h1, h3]
    | really_do_stop_clear h1 h2 => rfl
  · cases h with
    | mk u1 u2 t hu h1 h2 =>
      obtain ⟨hf, _, ha⟩ := destroy_frame t s.cm
      simp only [system.live, hf, ha, hu, List.map_append, List.map_cons, List.sum_append,
        List.sum_cons]
      ring

theorem reachable_active {s : system} (h : reachable s) :
    s.cm._stats.active_tasks = (s.live.map task.is_active).sum := by
  induction h with
  | init => simp [system.live]
  | next s s' hr hstep ih =>
    have := active_step hstep (reachable_ids_fresh hr)
    linarith

/-! ## The pending counter -/

theorem sum_is_pending (l : List task) :
    (l.map task.is_pending).sum
      = ((l.countP (fun t => decide (t._state = task.state.pending)) : Nat) : Int) := by
  induction l with
  | nil => simp
  | cons x xs ih =>
    by_cases h : x._state = task.state.pending
    · simp [List.countP_cons, task.is_pending, h, ih]
      ring
    · simp [List.countP_cons, task.is_pending, h, ih]

theorem sum_pending_share (l : List task) :
    (l.map task.pending_share).sum = (l.map task.is_pending).sum + (l.map task.queued).sum := by
  induction l with
  | nil => simp
  | cons x xs ih =>
    simp only [List.map_cons, List.sum_cons, ih, task.pending_share]
    ring

theorem destroy_pending_counter (t : task) (cm : compaction_manager)
    (h : ¬ (t.cls.is_sstables_task = true ∧ t._state = task.state.pending)) :
    (t.destroy cm).2._stats.pending_tasks = cm._stats.pending_tasks - t.pending_share := by
  by_cases hc : t.cls.is_sstables_task = true
  · have hp : t.is_pending = 0 := by
      unfold task.is_pending
      rw [if_neg]
      intro hs
      exact h ⟨hc, hs⟩
    have e : t.destroy cm = (t.switch_state (sstables_task.dtor t cm) task.state.none).2 := by
      unfold task.destroy task.dtor
      rw [if_pos hc]
    obtain ⟨_, _, _, _, _, h6⟩ := switch_state_frame t (sstables_task.dtor t cm) task.state.none
    have h7 : (sstables_task.dtor t cm)._stats.pending_tasks
        = cm._stats.pending_tasks - ((t._sstables.length : Int) - t.is_pending) := rfl
    have hq : t.queued = (t._sstables.length : Int) := by
      unfold task.queued
      rw [if_pos hc]
    simp only [reduceCtorEq, if_false, sub_zero] at h6
    rw [e, h6, h7, task.pending_share, hq, hp]
    ring
  · by_cases hk : t.cls = task_class.cleanup_sstables_compaction_task
    · have e : t.destroy cm
          = (t.switch_state (cleanup_sstables_compaction_task.dtor t cm) task.state.none).2 := by
        unfold task.destroy task.dtor
        rw [if_neg hc, if_pos hk]
      obtain ⟨_, _, _, _, _, h6⟩ :=
        switch_state_frame t (cleanup_sstables_compaction_task.dtor t cm) task.state.none
      have h7 : (cleanup_sstables_compaction_task.dtor t cm)._stats.pending_tasks
          = cm._stats.pending_tasks - (t._pending_cleanup_jobs.length : Int) := rfl
      have hq : t.queued = (t._pending_cleanup_jobs.length : Int) := by
        unfold task.queued
        rw [if_neg hc, if_pos hk]
      simp only [reduceCtorEq, if_false, sub_zero] at h6
      rw [e, h6, h7, task.pending_share, hq]
      ring
    · have e : t.destroy cm = (t.switch_state cm task.state.none).2 := by
        unfold task.destroy task.dtor
        rw [if_neg hc, if_neg hk]
      obtain ⟨_, _, _, _, _, h6⟩ := switch_state_frame t cm task.state.none
      have hq : t.queued = 0 := by
        unfold task.queued
        rw [if_neg hc, if_neg hk]
      simp only [reduceCtorEq, if_false, sub_zero] at h6
      rw [e, h6, task.pending_share, hq]
      ring

/-- The destruction of an `sstables_task` that is still pending takes one less
off the pending counter than the task contributes to it. -/
theorem destroy_pending_leaves_one (t : task) (cm : compaction_manager)
    (hc : t.cls.is_sstables_task = true) (hs : t._state = task.state.pending) :
    (t.destroy cm).2._stats.pending_tasks = cm._stats.pending_tasks - t.pending_share + 1 := by
  have hp : t.is_pending = 1 := by
    unfold task.is_pending
    rw [if_pos hs]
  have e : t.destroy cm = (t.switch_state (sstables_task.dtor t cm) task.state.none).2 := by
    unfold task.destroy task.dtor
    rw [if_pos hc]
  obtain ⟨_, _, _, _, _, h6⟩ := switch_state_frame t (sstables_task.dtor t cm) task.state.none
  have h7 : (sstables_task.dtor t cm)._stats.pending_tasks
      = cm._stats.pending_tasks - ((t._sstables.length : Int) - t.is_pending) := rfl
  have hq : t.queued = (t._sstables.length : Int) := by
    unfold task.queued
    rw [if_pos hc]
  simp only [reduceCtorEq, if_false, sub_zero] at h6
  rw [e, h6, h7, task.pending_share, hq, hp]
  ring

/-- Every step other than the destruction of a pending `sstables_task` moves the
pending counter by what the live tasks gain or lose. -/
theorem pending_step {s s' : system} (h : step s s') (hi : s.ids_fresh) :
    s'.cm._stats.pending_tasks - (s'.live.map task.pending_share).sum
      = s.cm._stats.pending_tasks - (s.live.map task.pending_share).sum := by
  cases h with
  | make_task cls t type h1 h2 =>
    simp [system.live, task.ctor, task.pending_share, task.is_pending, task.queued, h1, h2]
  | make_sstables_task cls t type sstables task cm' h1 h2 =>
    obtain ⟨e1, e2⟩ := sstables_ctor_effect h2
    subst e1 e2
    simp [system.live, task.ctor, task.pending_share, task.is_pending, task.queued, h1]
    ring
  | make_cleanup_task t type jobs =>
    simp [system.live, cleanup_sstables_compaction_task.ctor, task.ctor, task.pending_share,
      task.is_pending, task.queued, task_class.is_sstables_task]
    ring
  | perform_task_begin u1 u2 t hu =>
    simp only [system.live, register_task, hu, List.map_append, List.map_cons, List.sum_append,
      List.sum_cons, List.map_nil, List.sum_nil]
    ring
  | on_task l1 l2 t t' cm' hl hop =>
    have := (task_op_effect hop).2.2.2
    simp only [system.live, hl, List.map_append, List.map_cons, List.sum_append, List.sum_cons,
      task.pending_share]
    linarith
  | perform_task_end l1 l2 t r hl hw =>
    obtain ⟨hf, _, _, hp⟩ := perform_task_finish_frame s.cm t r
    have hn := live_tasks_nodup hi
    rw [hl] at hn
    simp only [system.live, hf, hp, hl, filter_ne_id l1 l2 t hn, List.map_append, List.map_cons,
      List.sum_append, List.sum_cons]
    ring
  | destroy u1 u2 t hu hn =>
    obtain ⟨hf, _, _⟩ := destroy_frame t s.cm
    have hp := destroy_pending_counter t s.cm hn
    simp only [system.live, hf, hp, hu, List.map_append, List.map_cons, List.sum_append,
      List.sum_cons]
    ring
  | enable h1 => rfl
  | drain => rfl
  | do_stop =>
    obtain ⟨h1, _, h3⟩ := do_stop_frame s.cm
    simp only [system.live, h1, h3]
  | really_do_stop_clear h1 h2 => rfl

theorem reachable_by_step_reachable {s : system} (h : reachable_by step s) : reachable s := by
  induction h with
  | init => exact reachable_by.init
  | next s s' _ hstep ih => exact reachable_by.next s s' ih (Or.inl hstep)

theorem reachable_pending {s : system} (h : reachable_by step s) :
    s.cm._stats.pending_tasks = (s.live.map task.pending_share).sum := by
  induction h with
  | init => simp [system.live]
  | next s s' hr hstep ih =>
    have := pending_step hstep (reachable_ids_fresh (reachable_by_step_reachable hr))
    linarith

/-! ## The weight tracker -/

theorem one_made_reachable : reachable_by step one_made :=
  reachable_by.next {} one_made reachable_by.init
    (step.make_task {} task_class.regular_compaction_task 1 compaction_type.Compaction rfl
      (by decide))

theorem one_listed_reachable : reachable_by step one_listed :=
  reachable_by.next one_made one_listed one_made_reachable
    (step.perform_task_begin one_made [] [] first_task rfl)

theorem one_registered_reachable : reachable_by step one_registered :=
  reachable_by.next one_listed one_registered one_listed_reachable
    (step.on_task one_listed [] [] first_task _ _ rfl
      (task_op.register first_task one_listed.cm { addr := 1 } 12 4 rfl rfl rfl (by decide)))

theorem one_running_reachable : reachable_by step one_running :=
  reachable_by.next one_registered one_running one_registered_reachable
    (step.on_task one_registered [] [] _ _ _ rfl
      (task_op.setup_new_compaction _ one_registered.cm (some 5)))

theorem two_made_reachable : reachable_by step two_made :=
  reachable_by.next one_running two_made one_running_reachable
    (step.make_task one_running task_class.regular_compaction_task 2 compaction_type.Compaction
      rfl (by decide))

theorem two_listed_reachable : reachable_by step two_listed :=
  reachable_by.next two_made two_listed two_made_reachable
    (step.perform_task_begin two_made [] [] second_task rfl)

theorem two_registered_reachable : reachable_by step two_registered :=
  reachable_by.next two_listed two_registered two_listed_reachable
    (step.on_task two_listed
      [{ first_task with
          weight_r := some 12, _state := task.state.active, _output_run_identifier := some 5 }] []
      second_task _ _ rfl
      (task_op.register second_task two_listed.cm { addr := 2 } 7 4 rfl rfl rfl (by decide)))

theorem two_running_reachable : reachable_by step two_running :=
  reachable_by.next two_registered two_running two_registered_reachable
    (step.on_task two_registered
      [{ first_task with
          weight_r := some 12, _state := task.state.active, _output_run_identifier := some 5 }] []
      { second_task with weight_r := some 7 } _ _ rfl
      (task_op.setup_new_compaction _ two_registered.cm (some 6)))

theorem cleanup_made_reachable : reachable_by step cleanup_made :=
  reachable_by.next {} cleanup_made reachable_by.init
    (step.make_cleanup_task {} 1 compaction_type.Cleanup
      [{ sstables := [{ id := 3, data_size := 100 }] }])

/-! ## The invariants of the reachable states -/

/-- C6: in every reachable state `stats.active_tasks` is the number of live
tasks (in the task list or not) whose state is `active`. -/
theorem active_tasks_counts_active (s : system) (h : reachable s) :
    s.cm._stats.active_tasks
      = ((s.live.countP (fun t => decide (t._state = task.state.active)) : Nat) : Int) := by
  rw [reachable_active h, sum_is_active]

theorem active_tasks_counts_active_witness :
    reachable two_running ∧
    two_running.cm._stats.active_tasks
      = ((two_running.live.countP (fun t => decide (t._state = task.state.active)) : Nat) : Int) :=
  ⟨reachable_by_step_reachable two_running_reachable,
   active_tasks_counts_active two_running (reachable_by_step_reachable two_running_reachable)⟩

/-- C7, as stated, fails: right after the construction of a cleanup task with
one job the state is reachable, `stats.pending_tasks` is 1 and no live task is
pending. -/
theorem pending_tasks_counts_more_than_pending :
    reachable cleanup_made ∧
    cleanup_made.cm._stats.pending_tasks = 1 ∧
    cleanup_made.live.countP (fun t => decide (t._state = task.state.pending)) = 0 :=
  ⟨reachable_by_step_reachable cleanup_made_reachable, rfl, by decide⟩

/-- C7, amended: in every state reached without destroying an `sstables_task`
that is still pending, `stats.pending_tasks` is the number of live tasks whose
state is `pending` plus the sstables still queued in the live `sstables_task`s
plus the jobs still queued in the live cleanup tasks. -/
theorem pending_tasks_counts_pending_and_queued (s : system) (h : reachable_by step s) :
    s.cm._stats.pending_tasks
      = ((s.live.countP (fun t => decide (t._state = task.state.pending)) : Nat) : Int)
        + (s.live.map task.queued).sum := by
  rw [reachable_pending h, sum_pending_share, sum_is_pending]

theorem pending_tasks_counts_pending_and_queued_witness :
    reachable_by step cleanup_made ∧
    cleanup_made.cm._stats.pending_tasks
      = ((cleanup_made.live.countP (fun t => decide (t._state = task.state.pending)) : Nat) : Int)
        + (cleanup_made.live.map task.queued).sum :=
  ⟨cleanup_made_reachable,
   pending_tasks_counts_pending_and_queued cleanup_made cleanup_made_reachable⟩

/-! ## Retry of a failed round -/

theorem switch_state_errors (t : task) (cm : compaction_manager) (new : task.state) :
    (t.switch_state cm new).2.2._stats.errors = cm._stats.errors := by
  cases h : t._state <;> cases new <;> simp [task.switch_state, h]

/-- C11: `maybe_retry` called with an error that is none of `Stopped`, `Aborted`
and storage I/O.  When the task can proceed (it is not stopping, the manager is
enabled, the table is known and not disabled) one error is counted, the task is
switched to `pending`, and the result after the backoff sleep is "continue",
or `Stopped` when the sleep was aborted.  When the task cannot proceed the
error is raised again and neither the manager (so `stats.errors`) nor the task
changes. -/
theorem maybe_retry_other (t : task) (cm : compaction_manager) (sleep_aborted : Bool) :
    ((t.stopping = false ∧ cm._state = state.enabled ∧
        ∃ c, cm._compaction_state.lookup t._compacting_table = some c ∧
          c.compaction_disabled = false) →
      (t.maybe_retry cm error.other sleep_aborted).1
          = (if sleep_aborted then Except.error error.compaction_stopped_exception
             else Except.ok stop_iteration.no) ∧
      (t.maybe_retry cm error.other sleep_aborted).2.1 = { t with _state := task.state.pending } ∧
      (t.maybe_retry cm error.other sleep_aborted).2.2
          = (t.switch_state
              { cm with _stats := { cm._stats with errors := cm._stats.errors + 1 } }
              task.state.pending).2.2 ∧
      (t.maybe_retry cm error.other sleep_aborted).2.2._stats.errors = cm._stats.errors + 1) ∧
    (¬ (t.stopping = false ∧ cm._state = state.enabled ∧
        ∃ c, cm._compaction_state.lookup t._compacting_table = some c ∧
          c.compaction_disabled = false) →
      t.maybe_retry cm error.other sleep_aborted = (Except.error error.other, t, cm)) := by
  constructor
  · rintro ⟨hs, he, c, hl, hd⟩
    have hc : t.can_proceed cm false = Except.ok true := by
      simp [task.can_proceed, hs, can_proceed, he, hl, hd]
    have h6 : (t.switch_state
        { cm with _stats := { cm._stats with errors := cm._stats.errors + 1 } }
        task.state.pending).2.2._stats.errors = cm._stats.errors + 1 :=
      switch_state_errors t
        { cm with _stats := { cm._stats with errors := cm._stats.errors + 1 } } task.state.pending
    simp only [task.maybe_retry, hc]
    cases sleep_aborted
    · exact ⟨rfl, rfl, rfl, h6⟩
    · exact ⟨rfl, rfl, rfl, h6⟩
  · intro hn
    have hc : t.can_proceed cm false = Except.ok false := by
      unfold task.can_proceed
      by_cases hs : t.stopping = true
      · simp [hs]
      · have hs' : t.stopping = false := by simpa using hs
        simp only [hs', Bool.false_eq_true, if_false]
        congr 1
        unfold can_proceed
        by_cases he : cm._state = state.enabled
        · cases hl : cm._compaction_state.lookup t._compacting_table with
          | none => simp
          | some c =>
            have : c.compaction_disabled = true := by
              by_contra hd
              exact hn ⟨hs', he, c, hl, by simpa using hd⟩
            simp [this]
        · simp [he]
    simp only [task.maybe_retry, hc]

theorem maybe_retry_other_witness :
    ((({ id := 0, _compacting_table := 1 } : task).stopping = false ∧
        ({ _state := state.enabled, _compaction_state := [(1, {})] } : compaction_manager)._state
          = state.enabled ∧
        ∃ c, ({ _state := state.enabled, _compaction_state := [(1, {})] } :
            compaction_manager)._compaction_state.lookup
              ({ id := 0, _compacting_table := 1 } : task)._compacting_table = some c ∧
          c.compaction_disabled = false)) ∧
    (({ id := 0, _compacting_table := 1 } : task).maybe_retry
        { _state := state.enabled, _compaction_state := [(1, {})] } error.other false).1
      = Except.ok stop_iteration.no ∧
    (({ id := 0, _compacting_table := 1 } : task).maybe_retry
        { _state := state.enabled, _compaction_state := [(1, {})] } error.other
        false).2.2._stats.errors = 1 ∧
    ¬ (({ id := 0, _compacting_table := 1 } : task).stopping = false ∧
        ({} : compaction_manager)._state = state.enabled ∧
        ∃ c, ({} : compaction_manager)._compaction_state.lookup
              ({ id := 0, _compacting_table := 1 } : task)._compacting_table = some c ∧
          c.compaction_disabled = false) ∧
    ({ id := 0, _compacting_table := 1 } : task).maybe_retry {} error.other false
      = (Except.error error.other, { id := 0, _compacting_table := 1 }, {}) :=
  ⟨⟨rfl, rfl, {}, rfl, rfl⟩,
   ((maybe_retry_other { id := 0, _compacting_table := 1 }
      { _state := state.enabled, _compaction_state := [(1, {})] } false).1
      ⟨rfl, rfl, {}, rfl, rfl⟩).1,
   ((maybe_retry_other { id := 0, _compacting_table := 1 }
      { _state := state.enabled, _compaction_state := [(1, {})] } false).1
      ⟨rfl, rfl, {}, rfl, rfl⟩).2.2.2,
   (by intro h; exact absurd h.2.1 (by decide)),
   (maybe_retry_other { id := 0, _compacting_table := 1 } {} false).2
      (by intro h; exact absurd h.2.1 (by decide))⟩

/-! ## Submission of regular compaction -/

/-- C12: `submit(T)` creates a task, a regular compaction task for T, only if the
manager is enabled and auto-compaction of T is not disabled by the user; when
one of the two fails, and more generally whenever no task is created, the call
returns the manager as it was: task list, postponed set, compacting registry,
weight tracker and counters are unchanged. -/
theorem submit_frame (cm : compaction_manager) (t : table_state) (id : Nat) :
    (∀ task, (cm.submit t id).1 = Except.ok (some task) →
      cm._state = state.enabled ∧ t.is_auto_compaction_disabled_by_user = false ∧
      task.cls = task_class.regular_compaction_task ∧ task._compacting_table = t.addr ∧
      (cm.submit t id).2._tasks = cm._tasks ++ [task]) ∧
    (¬ (cm._state = state.enabled ∧ t.is_auto_compaction_disabled_by_user = false) →
      cm.submit t id = (Except.ok Option.none, cm)) ∧
    ((∀ task, (cm.submit t id).1 ≠ Except.ok (some task)) → (cm.submit t id).2 = cm) := by
  unfold submit
  by_cases hg : cm._state ≠ state.enabled ∨ t.is_auto_compaction_disabled_by_user = true
  · rw [if_pos hg]
    refine ⟨?_, fun _ => rfl, fun _ => rfl⟩
    intro task h
    cases h
  · rw [if_neg hg]
    have he : cm._state = state.enabled := by
      by_contra h
      exact hg (Or.inl h)
    have hu : t.is_auto_compaction_disabled_by_user = false := by
      cases hb : t.is_auto_compaction_disabled_by_user with
      | false => rfl
      | true => exact absurd (Or.inr hb) hg
    cases hm : task.make cm id task_class.regular_compaction_task t.addr
        compaction_type.Compaction with
    | error e =>
      refine ⟨?_, ?_, fun _ => rfl⟩
      · intro task h
        cases h
      · intro h
        exact absurd ⟨he, hu⟩ h
    | ok tk =>
      have htk : tk = task.ctor id task_class.regular_compaction_task t.addr
          compaction_type.Compaction := by
        unfold task.make at hm
        cases hc : cm.get_compaction_state t.addr with
        | error e => simp [hc] at hm
        | ok c =>
          by_cases hgc : c.gate_closed = true
          · simp [hc, hgc] at hm
          · simp [hc, hgc] at hm
            exact hm.symm
      refine ⟨?_, ?_, ?_⟩
      · intro task h
        have : tk = task := by
          simpa using h
        subst this
        exact ⟨he, hu, by rw [htk]; rfl, by rw [htk]; rfl, rfl⟩
      · intro h
        exact absurd ⟨he, hu⟩ h
      · intro h
        exact absurd rfl (h tk)

theorem submit_frame_witness :
    (enabled_manager.submit { addr := 1 } 0).1
      = Except.ok (some (task.ctor 0 task_class.regular_compaction_task 1
          compaction_type.Compaction)) ∧
    enabled_manager._state = state.enabled ∧
    ¬ (busy_manager._state = state.enabled ∧
      ({ addr := 1, is_auto_compaction_disabled_by_user := true } :
        table_state).is_auto_compaction_disabled_by_user = false) ∧
    busy_manager.submit { addr := 1, is_auto_compaction_disabled_by_user := true } 9
      = (Except.ok Option.none, busy_manager) :=
  ⟨rfl,
   ((submit_frame enabled_manager { addr := 1 } 0).1 _ rfl).1,
   (by intro h; exact absurd h.2 (by decide)),
   (submit_frame busy_manager { addr := 1, is_auto_compaction_disabled_by_user := true } 9).2.1
     (by intro h; exact absurd h.2 (by decide))⟩

/-! ## Stopping tasks -/

theorem stop_filter_eq (cm : compaction_manager) (target : compaction_type) (table : Option Nat) :
    cm._tasks.filter (fun task =>
      (table.isNone || some task._compacting_table == table) &&
      ((some target).isNone || some task._type == some target))
    = cm.matching_tasks target table := by
  unfold matching_tasks
  apply List.filter_congr
  intro x _
  cases table with
  | none =>
    by_cases h2 : x._type = target
    · simp [h2]
    · simp [h2]
  | some a =>
    by_cases h1 : x._compacting_table = a
    · by_cases h2 : x._type = target
      · simp [h1, h2]
      · simp [h1, h2]
    · by_cases h2 : x._type = target
      · simp [h1, h2, Ne.symm h1]
      · simp [h1, h2]

theorem stop_tasks_no_failure (cm : compaction_manager) (done : Nat → Except error Unit) :
    (cm.stop_tasks [] done).result = Except.ok () := rfl

theorem stop_compaction_allowed (parse : String → Option compaction_type)
    (cm : compaction_manager) (type : String) (table : Option Nat)
    (done : Nat → Except error Unit) (target : compaction_type)
    (hp : parse type = some target) (h1 : target ≠ compaction_type.Reshard)
    (h2 : target ≠ compaction_type.Validation) (h3 : target ≠ compaction_type.Index_build) :
    stop_compaction parse cm type table done
      = cm.stop_tasks (cm.matching_tasks target table) done := by
  unfold stop_compaction
  rw [hp]
  cases target <;> first
    | exact absurd rfl h1
    | exact absurd rfl h2
    | exact absurd rfl h3
    | (simp only [stop_ongoing_compactions]; rw [stop_filter_eq])

theorem stop_tasks_result (cm : compaction_manager) (tasks : List task)
    (done : Nat → Except error Unit) :
    ((cm.stop_tasks tasks done).result = Except.ok () ↔
      ∀ x ∈ tasks, done x.id = Except.ok () ∨
        done x.id = Except.error error.compaction_stopped_exception) ∧
    (∀ e, (cm.stop_tasks tasks done).result = Except.error e →
      e ≠ error.compaction_stopped_exception ∧ ∃ x ∈ tasks, done x.id = Except.error e) := by
  induction tasks with
  | nil =>
    refine ⟨⟨fun _ x hx => (by cases hx), fun _ => rfl⟩, ?_⟩
    intro e he
    cases he
  | cons a l ih =>
    simp only [stop_tasks, List.filterMap_cons] at ih ⊢
    cases hd : done a.id with
    | ok u =>
      simp only [List.mem_cons, forall_eq_or_imp, hd]
      refine ⟨?_, ?_⟩
      · rw [ih.1]
        simp
      · intro e he
        obtain ⟨h1, x, hx, h2⟩ := ih.2 e he
        exact ⟨h1, x, Or.inr hx, h2⟩
    | error e =>
      cases e with
      | compaction_stopped_exception =>
        simp only [List.mem_cons, forall_eq_or_imp, hd]
        refine ⟨?_, ?_⟩
        · rw [ih.1]
          simp
        · intro e he
          obtain ⟨h1, x, hx, h2⟩ := ih.2 e he
          exact ⟨h1, x, Or.inr hx, h2⟩
      | compaction_aborted_exception =>
        simp only [List.mem_cons, forall_eq_or_imp, hd]
        refine ⟨?_, ?_⟩
        · simp
        · intro e he
          cases he
          exact ⟨by decide, a, Or.inl rfl, hd⟩
      | storage_io_error =>
        simp only [List.mem_cons, forall_eq_or_imp, hd]
        refine ⟨?_, ?_⟩
        · simp
        · intro e he
          cases he
          exact ⟨by decide, a, Or.inl rfl, hd⟩
      | other =>
        simp only [List.mem_cons, forall_eq_or_imp, hd]
        refine ⟨?_, ?_⟩
        · simp
        · intro e he
          cases he
          exact ⟨by decide, a, Or.inl rfl, hd⟩

theorem stop_tasks_marks (cm : compaction_manager) (tasks : List task)
    (done : Nat → Except error Unit) :
    (∀ y ∈ (cm.stop_tasks tasks done).cm._tasks,
      (y.id ∈ tasks.map task.id → y._compaction_data.abort_requested = true) ∧
      (y.id ∉ tasks.map task.id → y ∈ cm._tasks)) ∧
    (∀ x ∈ cm._tasks,
      (x.id ∈ tasks.map task.id →
        { x with _compaction_data := { x._compaction_data with abort_requested := true } }
          ∈ (cm.stop_tasks tasks done).cm._tasks) ∧
      (x.id ∉ tasks.map task.id → x ∈ (cm.stop_tasks tasks done).cm._tasks)) := by
  have hc : ∀ x : task, (tasks.map task.id).contains x.id = true ↔ x.id ∈ tasks.map task.id := by
    intro x
    simp only [List.contains_eq_any_beq, List.any_eq_true, beq_iff_eq]
    constructor
    · rintro ⟨i, hi, he⟩
      rw [he]
      exact hi
    · intro h
      exact ⟨x.id, h, rfl⟩
  refine ⟨?_, ?_⟩
  · intro y hy
    simp only [stop_tasks, List.mem_map] at hy
    obtain ⟨x, hx, he⟩ := hy
    by_cases hm : (tasks.map task.id).contains x.id = true
    · rw [if_pos hm] at he
      rw [← he]
      refine ⟨fun _ => rfl, fun hn => ?_⟩
      exact absurd ((hc x).mp hm) hn
    · rw [if_neg hm] at he
      rw [← he]
      refine ⟨fun h => absurd ((hc x).mpr h) hm, fun _ => hx⟩
  · intro x hx
    refine ⟨fun h => ?_, fun h => ?_⟩
    · simp only [stop_tasks, List.mem_map]
      exact ⟨x, hx, by rw [if_pos ((hc x).mpr h)]; rfl⟩
    · simp only [stop_tasks, List.mem_map]
      exact ⟨x, hx, by rw [if_neg (fun hm => h ((hc x).mp hm))]⟩

/-- C13: `stop_compaction(type, T)` fails with an error while requesting stop on
no task exactly when the type string names no compaction type or names
Reshard, Validation or Index_build; it then raises a runtime error and leaves
the manager as it is.  For every other type the tasks on which stop is
requested are exactly the tasks of the list whose type is that type and whose
table is T (any table when T is absent): in the list afterwards each of them
has its abort flag set and is otherwise as before, every entry with the
identity of one of them is stopping, and every other entry is the one from
before; nothing else of the manager changes.  The call then fails exactly
when the completion of one of these tasks resolves with an error other than
`Stopped`, and with such an error. -/
theorem stop_compaction_requests (parse : String → Option compaction_type)
    (cm : compaction_manager) (type : String) (table : Option Nat)
    (done : Nat → Except error Unit) :
    (((∃ e, (stop_compaction parse cm type table done).result = Except.error e) ∧
        (stop_compaction parse cm type table done).stopped = []) ↔
      (parse type = Option.none ∨ parse type = some compaction_type.Reshard ∨
        parse type = some compaction_type.Validation ∨
        parse type = some compaction_type.Index_build)) ∧
    ((parse type = Option.none ∨ parse type = some compaction_type.Reshard ∨
        parse type = some compaction_type.Validation ∨
        parse type = some compaction_type.Index_build) →
      (stop_compaction parse cm type table done).result = Except.error error.other ∧
      (stop_compaction parse cm type table done).stopped = [] ∧
      (stop_compaction parse cm type table done).cm = cm) ∧
    (∀ target, parse type = some target → target ≠ compaction_type.Reshard →
      target ≠ compaction_type.Validation → target ≠ compaction_type.Index_build →
      (stop_compaction parse cm type table done).stopped = cm.matching_tasks target table ∧
      (stop_compaction parse cm type table done).cm
        = { cm with _tasks := cm._tasks.map (fun x =>
              if ((cm.matching_tasks target table).map task.id).contains x.id then x.stop
              else x) } ∧
      (∀ x ∈ cm.matching_tasks target table,
        x.stop ∈ (stop_compaction parse cm type table done).cm._tasks) ∧
      (∀ x ∈ cm._tasks,
        (x.id ∈ (cm.matching_tasks target table).map task.id →
          { x with _compaction_data := { x._compaction_data with abort_requested := true } }
            ∈ (stop_compaction parse cm type table done).cm._tasks) ∧
        (x.id ∉ (cm.matching_tasks target table).map task.id →
          x ∈ (stop_compaction parse cm type table done).cm._tasks)) ∧
      (∀ y ∈ (stop_compaction parse cm type table done).cm._tasks,
        (y.id ∈ (cm.matching_tasks target table).map task.id → y.stopping = true) ∧
        (y.id ∉ (cm.matching_tasks target table).map task.id → y ∈ cm._tasks)) ∧
      ((stop_compaction parse cm type table done).result = Except.ok () ↔
        ∀ x ∈ cm.matching_tasks target table, done x.id = Except.ok () ∨
          done x.id = Except.error error.compaction_stopped_exception) ∧
      (∀ e, (stop_compaction parse cm type table done).result = Except.error e →
        e ≠ error.compaction_stopped_exception ∧
        ∃ x ∈ cm.matching_tasks target table, done x.id = Except.error e)) := by
  refine ⟨?_, ?_, ?_⟩
  · cases hp : parse type with
    | none =>
      simp [stop_compaction, hp]
    | some target =>
      by_cases h1 : target = compaction_type.Reshard
      · subst h1
        simp [stop_compaction, hp]
      · by_cases h2 : target = compaction_type.Validation
        · subst h2
          simp [stop_compaction, hp]
        · by_cases h3 : target = compaction_type.Index_build
          · subst h3
            simp [stop_compaction, hp]
          · rw [stop_compaction_allowed parse cm type table done target hp h1 h2 h3]
            constructor
            · rintro ⟨⟨e, he⟩, hs⟩
              have hs' : cm.matching_tasks target table = [] := hs
              rw [hs', stop_tasks_no_failure] at he
              cases he
            · intro h
              simp [h1, h2, h3] at h
  · rintro (hp | hp | hp | hp) <;> simp [stop_compaction, hp]
  · intro target hp h1 h2 h3
    rw [stop_compaction_allowed parse cm type table done target hp h1 h2 h3]
    refine ⟨rfl, rfl, ?_, (stop_tasks_marks cm _ done).2, (stop_tasks_marks cm _ done).1,
      (stop_tasks_result cm _ done).1, (stop_tasks_result cm _ done).2⟩
    intro x hx
    have hm : x ∈ cm._tasks := (List.mem_filter.mp hx).1
    show x.stop ∈ List.map _ cm._tasks
    refine List.mem_map.mpr ⟨x, hm, ?_⟩
    have : ((cm.matching_tasks target table).map task.id).contains x.id = true := by
      simp only [List.contains_eq_any_beq, List.any_eq_true, beq_iff_eq]
      exact ⟨x.id, List.mem_map_of_mem task.id hx, rfl⟩
    rw [if_pos this]

theorem stop_compaction_requests_witness :
    sample_to_compaction_type "COMPACTION" = some compaction_type.Compaction ∧
    (stop_compaction sample_to_compaction_type busy_manager "COMPACTION" (some 1)
        (fun _ => Except.ok ())).stopped
      = busy_manager.matching_tasks compaction_type.Compaction (some 1) ∧
    busy_manager.matching_tasks compaction_type.Compaction (some 1) = busy_manager._tasks ∧
    busy_manager._tasks.map task.stopping = [false] ∧
    (stop_compaction sample_to_compaction_type busy_manager "COMPACTION" (some 1)
        (fun _ => Except.ok ())).cm._tasks.map task.stopping = [true] ∧
    (∀ y ∈ (stop_compaction sample_to_compaction_type busy_manager "COMPACTION" (some 1)
        (fun _ => Except.ok ())).cm._tasks,
      y.id ∈ (busy_manager.matching_tasks compaction_type.Compaction (some 1)).map task.id →
      y.stopping = true) ∧
    (sample_to_compaction_type "RESHARD" = Option.none ∨
      sample_to_compaction_type "RESHARD" = some compaction_type.Reshard ∨
      sample_to_compaction_type "RESHARD" = some compaction_type.Validation ∨
      sample_to_compaction_type "RESHARD" = some compaction_type.Index_build) ∧
    (stop_compaction sample_to_compaction_type busy_manager "RESHARD" (some 1)
        (fun _ => Except.ok ())).stopped = [] ∧
    (stop_compaction sample_to_compaction_type busy_manager "RESHARD" (some 1)
        (fun _ => Except.ok ())).cm = busy_manager :=
  ⟨by decide,
   ((stop_compaction_requests sample_to_compaction_type busy_manager "COMPACTION" (some 1)
      (fun _ => Except.ok ())).2.2 compaction_type.Compaction (by decide) (by decide) (by decide)
      (by decide)).1,
   by decide,
   by decide,
   by decide,
   fun y hy => (((stop_compaction_requests sample_to_compaction_type busy_manager "COMPACTION"
      (some 1) (fun _ => Except.ok ())).2.2 compaction_type.Compaction (by decide) (by decide)
      (by decide) (by decide)).2.2.2.2.1 y hy).1,
   Or.inr (Or.inl (by decide)),
   ((stop_compaction_requests sample_to_compaction_type busy_manager "RESHARD" (some 1)
      (fun _ => Except.ok ())).1.mpr (Or.inr (Or.inl (by decide)))).2,
   ((stop_compaction_requests sample_to_compaction_type busy_manager "RESHARD" (some 1)
      (fun _ => Except.ok ())).2.1 (Or.inr (Or.inl (by decide)))).2.2⟩

/-! ## Stop -/

/-- C14: `stop()` is idempotent.  On a manager whose state is already `stopped`,
`do_stop` and `stop` return the manager as it is: the state stays `stopped` and
no shutdown sequence is started; on a manager that never started `stop` leaves
the state `none`; and in every state a second `stop` changes nothing. -/
theorem stop_idempotent (cm : compaction_manager) :
    (cm._state = state.stopped → do_stop cm = cm ∧ stop cm = cm) ∧
    (cm._state = state.none → stop cm = cm) ∧
    (stop cm)._state = (if cm._state = state.none then state.none else state.stopped) ∧
    stop (stop cm) = stop cm := by
  refine ⟨?_, ?_, ?_, ?_⟩
  · intro h
    simp [stop, do_stop, h]
  · intro h
    simp [stop, h]
  · by_cases h : cm._state = state.none
    · simp [stop, h]
    · by_cases h2 : cm._state = state.stopped
      · simp [stop, do_stop, h2]
      · simp [stop, do_stop, h, h2]
  · by_cases h : cm._state = state.none
    · simp [stop, h]
    · by_cases h2 : cm._state = state.stopped
      · simp [stop, do_stop, h2]
      · simp [stop, do_stop, h, h2]

theorem stop_idempotent_witness :
    stopped_manager._state = state.stopped ∧
    do_stop stopped_manager = stopped_manager ∧ stop stopped_manager = stopped_manager ∧
    ({} : compaction_manager)._state = state.none ∧ stop {} = {} :=
  ⟨rfl, ((stop_idempotent stopped_manager).1 rfl).1, ((stop_idempotent stopped_manager).1 rfl).2,
   rfl, (stop_idempotent {}).2.1 rfl⟩

/-! ## The order of rewrite and cleanup -/

theorem getLast?_concat' {α : Type} (l : List α) (b : α) : (l ++ [b]).getLast? = some b := by
  simp

theorem consume_order_eq (n : Nat) (t : task) (cm : compaction_manager)
    (h : t._sstables.length ≤ n) :
    sstables_task.consume_order n t cm = t._sstables.reverse := by
  induction n generalizing t cm with
  | zero =>
    have : t._sstables = [] := List.eq_nil_of_length_eq_zero (Nat.le_zero.mp h)
    simp [sstables_task.consume_order, this]
  | succ n ih =>
    rcases List.eq_nil_or_concat t._sstables with he | ⟨L, b, he⟩
    · simp [sstables_task.consume_order, sstables_task.consume_sstable, he]
    · have hlen : L.length ≤ n := by
        rw [he] at h
        simp at h
        exact h
      have hc : sstables_task.consume_sstable t cm
          = some (b, { t with _sstables := L },
              { cm with _stats := { cm._stats with
                pending_tasks := cm._stats.pending_tasks - 1 } }) := by
        simp [sstables_task.consume_sstable, he]
      simp only [sstables_task.consume_order, hc]
      rw [ih _ _ hlen, he]
      simp

theorem run_order_eq (n : Nat) (t : task) (cm : compaction_manager)
    (h : t._pending_cleanup_jobs.length ≤ n) :
    cleanup_sstables_compaction_task.run_order n t cm = t._pending_cleanup_jobs.reverse := by
  induction n generalizing t cm with
  | zero =>
    have : t._pending_cleanup_jobs = [] := List.eq_nil_of_length_eq_zero (Nat.le_zero.mp h)
    simp [cleanup_sstables_compaction_task.run_order, this]
  | succ n ih =>
    rcases List.eq_nil_or_concat t._pending_cleanup_jobs with he | ⟨L, b, he⟩
    · simp [cleanup_sstables_compaction_task.run_order, he]
    · have hlen : L.length ≤ n := by
        rw [he] at h
        simp at h
        exact h
      have hj : (cleanup_sstables_compaction_task.job_done t cm).1._pending_cleanup_jobs = L := by
        simp [cleanup_sstables_compaction_task.job_done, he]
      simp only [cleanup_sstables_compaction_task.run_order, he, getLast?_concat']
      rw [ih _ _ (by rw [hj]; exact hlen), hj]
      simp

theorem rewrite_order_eq (cm : compaction_manager) (id : Nat) (t : Nat) (type : compaction_type)
    (chosen : List sstable) :
    rewrite_order cm id t type chosen = (perform_task_on_all_files.sort chosen).reverse := by
  unfold rewrite_order
  have hc : sstables_task.ctor cm id task_class.rewrite_sstables_compaction_task t type
      (perform_task_on_all_files.sort chosen)
      = some ({ task.ctor id task_class.rewrite_sstables_compaction_task t type with
                _sstables := perform_task_on_all_files.sort chosen },
              { cm with _stats := { cm._stats with
                pending_tasks := cm._stats.pending_tasks
                  + ((perform_task_on_all_files.sort chosen).length : Int) } }) := by
    simp [sstables_task.ctor, sstables_task.set_sstables, task.ctor, task.is_pending]
  rw [hc]
  simp only
  rw [consume_order_eq]
  simp [perform_task_on_all_files.sort]

theorem cleanup_order_eq (cm : compaction_manager) (id : Nat) (t : Nat) (type : compaction_type)
    (jobs : List compaction_descriptor) :
    cleanup_order cm id t type jobs
      = (jobs.insertionSort (fun a b => b.sstables_size ≤ a.sstables_size)).reverse := by
  unfold cleanup_order
  rw [run_order_eq]
  · rfl
  · simp [cleanup_sstables_compaction_task.ctor]

theorem reverse_insertionSort_sorted {α : Type} (f : α → Nat) (l : List α) :
    ((l.insertionSort (fun a b => f b ≤ f a)).reverse).Sorted (fun a b => f a ≤ f b) := by
  haveI : IsTotal α (fun a b => f b ≤ f a) := ⟨fun a b => Nat.le_total (f b) (f a)⟩
  haveI : IsTrans α (fun a b => f b ≤ f a) := ⟨fun a b c h1 h2 => Nat.le_trans h2 h1⟩
  have h := List.sorted_insertionSort (fun a b => f b ≤ f a) l
  unfold List.Sorted at h ⊢
  rw [List.pairwise_reverse]
  exact h

/-- C15: the rewrite task consumes the sstables chosen by
`perform_task_on_all_files` in an order that is a permutation of the chosen
list with non-decreasing data size, and the cleanup task runs its jobs in an
order that is a permutation of them with non-decreasing total sstable size;
files of 100, 50, 200 and 10 MiB are rewritten, and as one-file jobs cleaned
up, in the order 10, 50, 100, 200 MiB. -/
theorem rewrite_and_cleanup_order (cm : compaction_manager) (id : Nat) (t : Nat)
    (type : compaction_type) (chosen : List sstable) (jobs : List compaction_descriptor) :
    (rewrite_order cm id t type chosen).Perm chosen ∧
    (rewrite_order cm id t type chosen).Sorted (fun a b => a.data_size ≤ b.data_size) ∧
    (cleanup_order cm id t type jobs).Perm jobs ∧
    (cleanup_order cm id t type jobs).Sorted (fun a b => a.sstables_size ≤ b.sstables_size) ∧
    (rewrite_order cm id t type four_files).map sstable.data_size
      = [10 * 2 ^ 20, 50 * 2 ^ 20, 100 * 2 ^ 20, 200 * 2 ^ 20] ∧
    (cleanup_order cm id t type
        (four_files.map (fun s => { sstables := [s] }))).map compaction_descriptor.sstables_size
      = [10 * 2 ^ 20, 50 * 2 ^ 20, 100 * 2 ^ 20, 200 * 2 ^ 20] := by
  refine ⟨?_, ?_, ?_, ?_, ?_, ?_⟩
  · rw [rewrite_order_eq]
    exact (List.reverse_perm _).trans (List.perm_insertionSort _ _)
  · rw [rewrite_order_eq]
    exact reverse_insertionSort_sorted sstable.data_size chosen
  · rw [cleanup_order_eq]
    exact (List.reverse_perm _).trans (List.perm_insertionSort _ _)
  · rw [cleanup_order_eq]
    exact reverse_insertionSort_sorted compaction_descriptor.sstables_size jobs
  · rw [rewrite_order_eq]
    decide
  · rw [cleanup_order_eq]
    decide

/-! ## Candidates for compaction -/

theorem mem_partial_run_identifiers (cm : compaction_manager) (r : Nat) :
    some r ∈ (cm._tasks.filter task.generating_output_run).map task._output_run_identifier ↔
      ∃ x ∈ cm._tasks, x._state = task.state.active ∧ x._output_run_identifier = some r := by
  constructor
  · intro h
    obtain ⟨x, hx, hxe⟩ := List.mem_map.mp h
    rw [List.mem_filter] at hx
    have hgen := hx.2
    simp only [task.generating_output_run, task.compaction_running, Bool.and_eq_true,
      beq_iff_eq] at hgen
    exact ⟨x, hx.1, hgen.1, hxe⟩
  · rintro ⟨x, hx, hxa, hxo⟩
    refine List.mem_map.mpr ⟨x, ?_, hxo⟩
    rw [List.mem_filter]
    refine ⟨hx, ?_⟩
    simp [task.generating_output_run, task.compaction_running, hxa, hxo]

/-- C16: `get_candidates(T)` is the sub-sequence of the main sstable set of T made
of the sstables that are eligible for compaction, are not in the compacting
registry, and whose run identifier is not the output run identifier of a task
of the list that is active with a non-null output run identifier; so no
candidate is registered as compacting. -/
theorem get_candidates_exact (cm : compaction_manager) (t : table_state) :
    cm.get_candidates t = t.main_sstable_set.filter (fun sst =>
      decide (sst.is_eligible_for_compaction = true ∧ sst.id ∉ cm._compacting_sstables ∧
        ¬ ∃ x ∈ cm._tasks, x._state = task.state.active ∧
          x._output_run_identifier = some sst.run_identifier)) ∧
    (∀ sst ∈ cm.get_candidates t, sst.id ∉ cm._compacting_sstables) := by
  have key : cm.get_candidates t = t.main_sstable_set.filter (fun sst =>
      decide (sst.is_eligible_for_compaction = true ∧ sst.id ∉ cm._compacting_sstables ∧
        ¬ ∃ x ∈ cm._tasks, x._state = task.state.active ∧
          x._output_run_identifier = some sst.run_identifier)) := by
    unfold get_candidates in_strategy_sstables
    rw [List.filter_filter]
    apply List.filter_congr
    intro sst _
    have hm := mem_partial_run_identifiers cm sst.run_identifier
    by_cases he : sst.is_eligible_for_compaction = true
    · by_cases hc : sst.id ∈ cm._compacting_sstables
      · simp [he, hc]
      · by_cases hr : ∃ x ∈ cm._tasks, x._state = task.state.active ∧
            x._output_run_identifier = some sst.run_identifier
        · have hy := hm.mpr hr
          rw [decide_eq_false (by intro h; exact h.2.2 hr)]
          simp [he, hc, hy]
        · have hn : ¬ some sst.run_identifier ∈
              (cm._tasks.filter task.generating_output_run).map task._output_run_identifier :=
            fun h => hr (hm.mp h)
          rw [decide_eq_true (⟨he, hc, hr⟩ : _ ∧ _ ∧ _)]
          simp [he, hc, hn]
    · simp [he]
  refine ⟨key, ?_⟩
  intro sst hs
  rw [key, List.mem_filter] at hs
  have := hs.2
  simp only [decide_eq_true_eq] at this
  exact this.2.1

theorem get_candidates_exact_witness :
    (compacting_manager.get_candidates five_sstables).map sstable.id = [1, 5] ∧
    (∀ sst ∈ compacting_manager.get_candidates five_sstables,
      sst.id ∉ compacting_manager._compacting_sstables) :=
  ⟨by decide, (get_candidates_exact compacting_manager five_sstables).2⟩

/-! ## The compacting registry and its registrations -/

theorem mem_foldl_insert (S acc : List Nat) (x : Nat) :
    x ∈ S.foldl (fun acc sst => acc.insert sst) acc ↔ x ∈ acc ∨ x ∈ S := by
  induction S generalizing acc with
  | nil => simp
  | cons a S ih =>
    simp only [List.foldl_cons, ih, List.mem_insert_iff, List.mem_cons]
    tauto

theorem foldl_erase_eq_filter (S acc : List Nat) :
    S.foldl (fun acc sst => acc.filter (fun x => x != sst)) acc
      = acc.filter (fun x => decide (x ∉ S)) := by
  induction S generalizing acc with
  | nil => simp
  | cons a S ih =>
    simp only [List.foldl_cons, ih, List.filter_filter]
    apply List.filter_congr
    intro x _
    by_cases h1 : x = a
    · simp [h1]
    · by_cases h2 : x ∈ S
      · simp [h1, h2]
      · simp [h1, h2]

theorem mem_foldl_erase (S acc : List Nat) (x : Nat) :
    x ∈ S.foldl (fun acc sst => acc.filter (fun x => x != sst)) acc ↔ x ∈ acc ∧ x ∉ S := by
  rw [foldl_erase_eq_filter, List.mem_filter]
  simp

theorem release_compacting_eq (r : compacting_sstable_registration) (cm : compaction_manager)
    (S : List sstable) :
    r.release_compacting cm S
      = ({ _compacting := r._compacting.filter (fun x => decide (x ∉ S.map sstable.id)) },
         { cm with _compacting_sstables :=
             cm._compacting_sstables.filter (fun x => decide (x ∉ S.map sstable.id)) }) := by
  unfold compacting_sstable_registration.release_compacting deregister_compacting_sstables
  simp only [foldl_erase_eq_filter]

/-- C18: for a registration holding C and a list S of sstables, one call of
`release_compacting(S)` leaves the held set C minus S and the registry minus S,
the entries outside S being the ones from before, in their order, and the rest
of the manager as it was; a second call changes nothing. -/
theorem release_compacting_twice (r : compacting_sstable_registration)
    (cm : compaction_manager) (S : List sstable) :
    (r.release_compacting cm S).1.release_compacting (r.release_compacting cm S).2 S
      = r.release_compacting cm S ∧
    (r.release_compacting cm S).1._compacting
      = r._compacting.filter (fun x => decide (x ∉ S.map sstable.id)) ∧
    (r.release_compacting cm S).2
      = { cm with _compacting_sstables :=
            cm._compacting_sstables.filter (fun x => decide (x ∉ S.map sstable.id)) } ∧
    (∀ x, x ∉ S.map sstable.id →
      (x ∈ (r.release_compacting cm S).1._compacting ↔ x ∈ r._compacting) ∧
      (x ∈ (r.release_compacting cm S).2._compacting_sstables ↔ x ∈ cm._compacting_sstables)) := by
  refine ⟨?_, ?_, ?_, ?_⟩
  · rw [release_compacting_eq r cm S, release_compacting_eq]
    simp only [List.filter_filter, Bool.and_self]
  · rw [release_compacting_eq]
  · rw [release_compacting_eq]
  · intro x hx
    rw [release_compacting_eq]
    simp only [List.mem_filter, decide_eq_true_eq]
    exact ⟨⟨fun h => h.1, fun h => ⟨h, hx⟩⟩, ⟨fun h => h.1, fun h => ⟨h, hx⟩⟩⟩

theorem release_compacting_twice_witness :
    (3 : Nat) ∉ ([{ id := 1 }, { id := 9 }] : List sstable).map sstable.id ∧
    ((3 : Nat) ∈ (({ _compacting := [1, 3] } : compacting_sstable_registration).release_compacting
        { _compacting_sstables := [1, 2, 3] } [{ id := 1 }, { id := 9 }]).1._compacting ↔
      (3 : Nat) ∈ ({ _compacting := [1, 3] } : compacting_sstable_registration)._compacting) ∧
    (({ _compacting := [1, 3] } : compacting_sstable_registration).release_compacting
        { _compacting_sstables := [1, 2, 3] } [{ id := 1 }, { id := 9 }]).1._compacting = [3] ∧
    (({ _compacting := [1, 3] } : compacting_sstable_registration).release_compacting
        { _compacting_sstables := [1, 2, 3] }
        [{ id := 1 }, { id := 9 }]).2._compacting_sstables = [2, 3] :=
  ⟨by decide,
   ((release_compacting_twice { _compacting := [1, 3] } { _compacting_sstables := [1, 2, 3] }
      [{ id := 1 }, { id := 9 }]).2.2.2 3 (by decide)).1,
   by decide, by decide⟩

theorem disjoint_symm :
    Symmetric (fun a b : compacting_sstable_registration =>
      ∀ x, x ∈ a._compacting → x ∉ b._compacting) :=
  fun _ _ h x hx hy => h x hy hx

theorem pairwise_disjoint_middle (r1 r2 : List compacting_sstable_registration)
    (r : compacting_sstable_registration) :
    (r1 ++ r :: r2).Pairwise (fun a b => ∀ x, x ∈ a._compacting → x ∉ b._compacting) ↔
      (∀ o ∈ r1 ++ r2, ∀ x, x ∈ r._compacting → x ∉ o._compacting) ∧
      (r1 ++ r2).Pairwise (fun a b => ∀ x, x ∈ a._compacting → x ∉ b._compacting) := by
  rw [List.pairwise_middle (fun h => disjoint_symm h), List.pairwise_cons]

theorem pairwise_disjoint_append_empty (l : List compacting_sstable_registration)
    (e : compacting_sstable_registration) (he : e._compacting = [])
    (h : l.Pairwise (fun a b => ∀ x, x ∈ a._compacting → x ∉ b._compacting)) :
    (l ++ [e]).Pairwise (fun a b => ∀ x, x ∈ a._compacting → x ∉ b._compacting) := by
  rw [List.pairwise_append]
  refine ⟨h, List.pairwise_singleton _ _, ?_⟩
  intro a _ b hb x _
  rw [List.mem_singleton] at hb
  rw [hb, he]
  exact List.not_mem_nil x

theorem mem_middle_iff {α : Type} (r1 r2 : List α) (r o : α) :
    o ∈ r1 ++ r :: r2 ↔ o = r ∨ o ∈ r1 ++ r2 := by
  simp only [List.mem_append, List.mem_cons]
  tauto

/-- Every operation of disciplined callers keeps registry and registrations in
agreement. -/
theorem consistent_step {s s' : registry_system} (h : registry_step True True s s')
    (hc : s.consistent) : s'.consistent := by
  obtain ⟨c1, c2, c3⟩ := hc
  unfold registry_system.consistent
  cases h with
  | create =>
    refine ⟨?_, ?_, pairwise_disjoint_append_empty _ _ rfl c3⟩
    · intro r hr x hx
      rcases List.mem_append.mp hr with h | h
      · exact c1 r h x hx
      · rw [List.mem_singleton] at h
        rw [h] at hx
        cases hx
    · intro x hx
      obtain ⟨r, hr, hxr⟩ := c2 x hx
      exact ⟨r, List.mem_append_left _ hr, hxr⟩
  | register r1 r2 r sstables raises hl hg hrel =>
    rw [hrel trivial]
    have hfresh : ∀ x ∈ sstables.map sstable.id, x ∉ s.cm._compacting_sstables := by
      intro x hx
      obtain ⟨sst, hs, he⟩ := List.mem_map.mp hx
      rw [← he]
      exact hg trivial sst hs
    rw [hl] at c1 c2 c3
    rw [pairwise_disjoint_middle] at c3 ⊢
    simp only [compacting_sstable_registration.register_compacting,
      register_compacting_sstables, mem_foldl_insert]
    refine ⟨?_, ?_, ?_, c3.2⟩
    · intro o ho x hx
      rcases (mem_middle_iff r1 r2 _ o).mp ho with h | h
      · rw [h] at hx
        simp only [mem_foldl_insert] at hx
        rcases hx with hx | hx
        · exact Or.inl (c1 r ((mem_middle_iff r1 r2 r r).mpr (Or.inl rfl)) x hx)
        · exact Or.inr hx
      · exact Or.inl (c1 o ((mem_middle_iff r1 r2 r o).mpr (Or.inr h)) x hx)
    · intro x hx
      rcases hx with hx | hx
      · obtain ⟨o, ho, hxo⟩ := c2 x hx
        rcases (mem_middle_iff r1 r2 r o).mp ho with h | h
        · refine ⟨_, (mem_middle_iff r1 r2 _ _).mpr (Or.inl rfl), ?_⟩
          simp only [mem_foldl_insert]
          exact Or.inl (h ▸ hxo)
        · exact ⟨o, (mem_middle_iff r1 r2 _ o).mpr (Or.inr h), hxo⟩
      · refine ⟨_, (mem_middle_iff r1 r2 _ _).mpr (Or.inl rfl), ?_⟩
        simp only [mem_foldl_insert]
        exact Or.inr hx
    · intro o ho x hx hxo
      rcases hx with hx | hx
      · exact c3.1 o ho x hx hxo
      · exact hfresh x hx (c1 o ((mem_middle_iff r1 r2 r o).mpr (Or.inr ho)) x hxo)
  | release r1 r2 r sstables hl hg =>
    have hother : ∀ o ∈ r1 ++ r2, ∀ x ∈ o._compacting, x ∉ sstables.map sstable.id := by
      intro o ho x hx hm
      obtain ⟨sst, hs, he⟩ := List.mem_map.mp hm
      rw [← he] at hx
      exact hg trivial sst hs o ho hx
    rw [hl] at c1 c2 c3
    rw [pairwise_disjoint_middle] at c3 ⊢
    rw [release_compacting_eq]
    simp only [List.mem_filter, decide_eq_true_eq]
    refine ⟨?_, ?_, ?_, c3.2⟩
    · intro o ho x hx
      rcases (mem_middle_iff r1 r2 _ o).mp ho with h | h
      · rw [h] at hx
        simp only [List.mem_filter, decide_eq_true_eq] at hx
        exact ⟨c1 r ((mem_middle_iff r1 r2 r r).mpr (Or.inl rfl)) x hx.1, hx.2⟩
      · exact ⟨c1 o ((mem_middle_iff r1 r2 r o).mpr (Or.inr h)) x hx, hother o h x hx⟩
    · intro x hx
      obtain ⟨o, ho, hxo⟩ := c2 x hx.1
      rcases (mem_middle_iff r1 r2 r o).mp ho with h | h
      · refine ⟨_, (mem_middle_iff r1 r2 _ _).mpr (Or.inl rfl), ?_⟩
        simp only [List.mem_filter, decide_eq_true_eq]
        exact ⟨h ▸ hxo, hx.2⟩
      · exact ⟨o, (mem_middle_iff r1 r2 _ o).mpr (Or.inr h), hxo⟩
    · intro o ho x hx hxo
      exact c3.1 o ho x hx.1 hxo
  | destroy r1 r2 r hl =>
    rw [hl] at c1 c2 c3
    rw [pairwise_disjoint_middle] at c3
    simp only [compacting_sstable_registration.dtor, deregister_compacting_sstables,
      mem_foldl_erase]
    refine ⟨?_, ?_, c3.2⟩
    · intro o ho x hx
      refine ⟨c1 o ((mem_middle_iff r1 r2 r o).mpr (Or.inr ho)) x hx, ?_⟩
      intro hxr
      exact c3.1 o ho x hxr hx
    · intro x hx
      obtain ⟨o, ho, hxo⟩ := c2 x hx.1
      rcases (mem_middle_iff r1 r2 r o).mp ho with h | h
      · exact absurd (h ▸ hxo) hx.2
      · exact ⟨o, h, hxo⟩
  | move r1 r2 r hl =>
    have hm : r.move.1 = r := rfl
    dsimp only
    rw [hm, ← hl]
    refine ⟨?_, ?_, pairwise_disjoint_append_empty _ _ rfl c3⟩
    · intro o ho x hx
      rcases List.mem_append.mp ho with h | h
      · exact c1 o h x hx
      · rw [List.mem_singleton] at h
        rw [h] at hx
        cases hx
    · intro x hx
      obtain ⟨o, ho, hxo⟩ := c2 x hx
      exact ⟨o, List.mem_append_left _ ho, hxo⟩

theorem reachable_consistent {s : registry_system} (h : registry_reachable True True s) :
    s.consistent := by
  induction h with
  | init =>
    refine ⟨?_, ?_, List.Pairwise.nil⟩
    · intro r hr
      cases hr
    · intro x hx
      cases hx
  | next s s' _ hstep ih => exact consistent_step hstep ih

theorem count_holders_eq_one (l : List compacting_sstable_registration) (x : Nat)
    (hp : l.Pairwise (fun a b => ∀ x, x ∈ a._compacting → x ∉ b._compacting))
    (he : ∃ r ∈ l, x ∈ r._compacting) :
    l.countP (fun r => decide (x ∈ r._compacting)) = 1 := by
  induction l with
  | nil =>
    obtain ⟨r, hr, _⟩ := he
    cases hr
  | cons a l ih =>
    rw [List.pairwise_cons] at hp
    by_cases ha : x ∈ a._compacting
    · have h0 : l.countP (fun r => decide (x ∈ r._compacting)) = 0 := by
        rw [List.countP_eq_zero]
        intro b hb
        simpa using hp.1 b hb x ha
      rw [List.countP_cons_of_pos _ _ (by simpa using ha), h0]
    · have he' : ∃ r ∈ l, x ∈ r._compacting := by
        obtain ⟨r, hr, hxr⟩ := he
        rcases List.mem_cons.mp hr with h | h
        · exact absurd (h ▸ hxr) ha
        · exact ⟨r, h, hxr⟩
      rw [List.countP_cons_of_neg _ _ (by simpa using ha)]
      exact ih hp.2 he'

theorem orphaned_registration_reachable : registry_reachable False True orphaned_registration :=
  registry_reachable.next
    { cm := { _compacting_sstables := [1] },
      registrations := [{ _compacting := [1] }, { _compacting := [1] }] }
    orphaned_registration
    (registry_reachable.next
      { cm := { _compacting_sstables := [1] }, registrations := [{ _compacting := [1] }, {}] }
      _
      (registry_reachable.next { registrations := [{}, {}] } _
        (registry_reachable.next { registrations := [{}] } _
          (registry_reachable.next {} _ registry_reachable.init (registry_step.create {}))
          (registry_step.create { registrations := [{}] }))
        (registry_step.register { registrations := [{}, {}] } [] [{}] {} [{ id := 1 }]
          Option.none rfl (fun h => h.elim) (fun _ => rfl)))
      (registry_step.register
        { cm := { _compacting_sstables := [1] }, registrations := [{ _compacting := [1] }, {}] }
        [{ _compacting := [1] }] [] {} [{ id := 1 }] Option.none rfl (fun h => h.elim)
        (fun _ => rfl)))
    (registry_step.destroy
      { cm := { _compacting_sstables := [1] },
        registrations := [{ _compacting := [1] }, { _compacting := [1] }] }
      [] [{ _compacting := [1] }] { _compacting := [1] } rfl)

theorem failed_insertion_reachable : registry_reachable True False orphaned_registration :=
  registry_reachable.next { registrations := [{}] } orphaned_registration
    (registry_reachable.next {} _ registry_reachable.init (registry_step.create {}))
    (registry_step.register { registrations := [{}] } [] [] {} [{ id := 1 }] (some 0) rfl
      (fun _ => by decide) (fun h => h.elim))

theorem two_registrations_reachable : registry_reachable True True two_registrations :=
  registry_reachable.next
    { cm := { _compacting_sstables := [1] }, registrations := [{ _compacting := [1] }, {}] }
    two_registrations
    (registry_reachable.next { registrations := [{}, {}] } _
      (registry_reachable.next { registrations := [{}] } _
        (registry_reachable.next {} _ registry_reachable.init (registry_step.create {}))
        (registry_step.create { registrations := [{}] }))
      (registry_step.register { registrations := [{}, {}] } [] [{}] {} [{ id := 1 }]
        Option.none rfl (fun _ => by decide) (fun _ => rfl)))
    (registry_step.register
      { cm := { _compacting_sstables := [1] }, registrations := [{ _compacting := [1] }, {}] }
      [{ _compacting := [1] }] [] {} [{ id := 2 }] Option.none rfl (fun _ => by decide)
      (fun _ => rfl))

/-- C17, as stated, fails, in two ways.  With insertions that never raise: by
`register_compacting` on two registrations for the same sstable and the
destruction of the first, a state is reached in which the live registration
holds sstable 1 and the registry is empty.  With callers that register only
sstables that are not in the registry: when the insertion into the registry
raises, which `register_compacting_sstables` swallows, the same state is
reached by one call of `register_compacting`. -/
theorem registration_can_be_orphaned :
    registry_reachable False True orphaned_registration ∧
    registry_reachable True False orphaned_registration ∧
    orphaned_registration.registrations = [{ _compacting := [1] }] ∧
    (1 : Nat) ∉ orphaned_registration.cm._compacting_sstables :=
  ⟨orphaned_registration_reachable, failed_insertion_reachable, rfl, by decide⟩

/-- C17, amended: in every state reached through `register_compacting` of
sstables that are not in the registry and whose insertion into the registry
does not raise, `release_compacting` of sstables that no other registration
holds, and construction, move and destruction of registrations, every sstable
held by a live registration is in the registry and every sstable in the
registry is held by exactly one live registration. -/
theorem registry_agrees_with_registrations (s : registry_system)
    (h : registry_reachable True True s) :
    (∀ r ∈ s.registrations, ∀ x ∈ r._compacting, x ∈ s.cm._compacting_sstables) ∧
    (∀ x ∈ s.cm._compacting_sstables,
      s.registrations.countP (fun r => decide (x ∈ r._compacting)) = 1) := by
  obtain ⟨c1, c2, c3⟩ := reachable_consistent h
  exact ⟨c1, fun x hx => count_holders_eq_one _ x c3 (c2 x hx)⟩

theorem registry_agrees_with_registrations_witness :
    registry_reachable True True two_registrations ∧
    (∀ r ∈ two_registrations.registrations, ∀ x ∈ r._compacting,
      x ∈ two_registrations.cm._compacting_sstables) ∧
    (∀ x ∈ two_registrations.cm._compacting_sstables,
      two_registrations.registrations.countP (fun r => decide (x ∈ r._compacting)) = 1) :=
  ⟨two_registrations_reachable,
   (registry_agrees_with_registrations two_registrations two_registrations_reachable).1,
   (registry_agrees_with_registrations two_registrations two_registrations_reachable).2⟩

/-! ## The states of the tables -/

theorem lookup_append_none (l : List (Nat × compaction_state)) (t : Nat) (c : compaction_state)
    (k : Nat) (h : l.lookup t = Option.none) :
    ((l ++ [(t, c)]).lookup k).isSome = ((l.lookup k).isSome || decide (k = t)) := by
  induction l with
  | nil =>
    by_cases hk : k = t
    · simp [List.lookup, hk]
    · have hne : (k == t) = false := by simpa using hk
      simp [List.lookup, hne, hk]
  | cons p l ih =>
    obtain ⟨a, d⟩ := p
    have hta : (t == a) = false := by
      by_contra hc
      simp only [Bool.not_eq_false] at hc
      simp [List.lookup, hc] at h
    have h' : l.lookup t = Option.none := by
      simpa [List.lookup, hta] using h
    by_cases hka : k = a
    · subst hka
      simp [List.lookup]
    · have hne : (k == a) = false := by simpa using hka
      simp only [List.cons_append, List.lookup, hne]
      exact ih h'

theorem shifted_eq (v : Nat) (h : v < 2 ^ 32) :
    update_throughput.shifted v = (if v = 0 then 2 ^ 32 - 1 else v) * 2 ^ 20 := by
  unfold update_throughput.shifted
  simp only [Nat.mod_eq_of_lt h, Nat.shiftLeft_eq]
  by_cases h0 : v = 0
  · simp [h0]
  · simp [h0]

/-- C20: for every 32-bit value `v`, the bandwidth `update_throughput v` passes
to the I/O group is `v * 2 ^ 20` when `v` is not 0 and `(2 ^ 32 - 1) * 2 ^ 20`
when it is 0; the shifted value is below `2 ^ 64`, so the 64-bit result is the
exact product; and the bandwidth set for 0 is at least the one set for `v`. -/
theorem update_throughput_bandwidth (v : Nat) (h : v < 2 ^ 32) :
    (v ≠ 0 → update_throughput v = v * 2 ^ 20) ∧
    update_throughput 0 = (2 ^ 32 - 1) * 2 ^ 20 ∧
    update_throughput.shifted v < 2 ^ 64 ∧
    update_throughput v = update_throughput.shifted v ∧
    update_throughput v ≤ update_throughput 0 := by
  have hs := shifted_eq v h
  have hlt : update_throughput.shifted v < 2 ^ 64 := by
    rw [hs]
    by_cases hz : v = 0
    · rw [if_pos hz]
      norm_num
    · rw [if_neg hz]
      norm_num at h ⊢
      omega
  have hv : update_throughput v = update_throughput.shifted v := Nat.mod_eq_of_lt hlt
  have h0 : update_throughput 0 = (2 ^ 32 - 1) * 2 ^ 20 := by decide
  refine ⟨?_, h0, hlt, hv, ?_⟩
  · intro hne
    rw [hv, hs, if_neg hne]
  · rw [h0, hv, hs]
    by_cases hz : v = 0
    · rw [if_pos hz]
    · rw [if_neg hz]
      norm_num at h ⊢
      omega

theorem update_throughput_bandwidth_witness :
    (100 : Nat) < 2 ^ 32 ∧
    update_throughput 100 = 104857600 ∧
    update_throughput 0 = 4503599626321920 ∧
    update_throughput 100 ≤ update_throughput 0 :=
  ⟨by decide,
    ((update_throughput_bandwidth 100 (by decide)).1 (by decide)).trans (by decide),
    (update_throughput_bandwidth 100 (by decide)).2.1.trans (by decide),
    (update_throughput_bandwidth 100 (by decide)).2.2.2.2⟩

/-! ## The backlog tracker -/

theorem tracker_disabled_apply {σ : Type} (i : compaction_backlog_tracker.impl σ)
    (d : compaction_backlog_tracker σ) (h : d.disabled = true)
    (o : compaction_backlog_tracker.op) : compaction_backlog_tracker.apply i d o = d := by
  cases o <;>
    simp [compaction_backlog_tracker.apply, compaction_backlog_tracker.replace_sstables,
      compaction_backlog_tracker.register_partially_written_sstable,
      compaction_backlog_tracker.register_compacting_sstable, h]

theorem tracker_disabled_foldl {σ : Type} (i : compaction_backlog_tracker.impl σ)
    (d : compaction_backlog_tracker σ) (h : d.disabled = true)
    (ops : List compaction_backlog_tracker.op) :
    ops.foldl (compaction_backlog_tracker.apply i) d = d := by
  induction ops with
  | nil => rfl
  | cons o ops ih => rw [List.foldl_cons, tracker_disabled_apply i d h o, ih]

theorem tracker_disabled_frame {σ : Type} (d : compaction_backlog_tracker σ)
    (h : d.disabled = true) :
    (∀ j : compaction_backlog_tracker.impl σ, d.backlog j = backlog_value.disable_backlog) ∧
    (∀ (j : compaction_backlog_tracker.impl σ) (o n : List sstable),
      d.replace_sstables j o n = (Except.ok (), d)) ∧
    (∀ sst wp raises, d.register_partially_written_sstable sst wp raises = d) ∧
    (∀ sst rp raises, d.register_compacting_sstable sst rp raises = d) ∧
    (∀ (j : compaction_backlog_tracker.impl σ) (ops : List compaction_backlog_tracker.op),
      ops.foldl (compaction_backlog_tracker.apply j) d = d) := by
  refine ⟨?_, ?_, ?_, ?_, ?_⟩
  · intro j
    simp [compaction_backlog_tracker.backlog, h]
  · intro j o n
    simp [compaction_backlog_tracker.replace_sstables, h]
  · intro sst wp raises
    simp [compaction_backlog_tracker.register_partially_written_sstable, h]
  · intro sst rp raises
    simp [compaction_backlog_tracker.register_compacting_sstable, h]
  · intro j ops
    exact tracker_disabled_foldl j _ h ops

theorem replace_sstables_raised {σ : Type} (i : compaction_backlog_tracker.impl σ)
    (t : compaction_backlog_tracker σ) (old_ssts new_ssts : List sstable)
    (hd : t.disabled = false) (e : error)
    (he : compaction_backlog_tracker.replace_sstables.impl_call t i old_ssts new_ssts
      = Except.error e) :
    (t.replace_sstables i old_ssts new_ssts).2.disabled = true := by
  unfold compaction_backlog_tracker.replace_sstables.impl_call at he
  unfold compaction_backlog_tracker.replace_sstables
  simp only [hd, Bool.false_eq_true, if_false]
  simp only at he
  rw [he]
  rfl

/-- C21: `replace_sstables` never raises.  When the tracker is not disabled and
the impl raises during the call, the tracker is disabled afterwards, and from
then on `backlog` is the sentinel `disable_backlog` whatever the impl would
compute, and `replace_sstables`, `register_partially_written_sstable` and
`register_compacting_sstable`, one by one and in any sequence, leave the
tracker as it is. -/
theorem replace_sstables_failure_disables {σ : Type} (i : compaction_backlog_tracker.impl σ)
    (t : compaction_backlog_tracker σ) (old_ssts new_ssts : List sstable) :
    (t.replace_sstables i old_ssts new_ssts).1 = Except.ok () ∧
    (t.disabled = false →
      (∃ e, compaction_backlog_tracker.replace_sstables.impl_call t i old_ssts new_ssts
        = Except.error e) →
      (t.replace_sstables i old_ssts new_ssts).2.disabled = true ∧
      (∀ j : compaction_backlog_tracker.impl σ,
        (t.replace_sstables i old_ssts new_ssts).2.backlog j = backlog_value.disable_backlog) ∧
      (∀ (j : compaction_backlog_tracker.impl σ) (o n : List sstable),
        (t.replace_sstables i old_ssts new_ssts).2.replace_sstables j o n
          = (Except.ok (), (t.replace_sstables i old_ssts new_ssts).2)) ∧
      (∀ sst wp raises,
        (t.replace_sstables i old_ssts new_ssts).2.register_partially_written_sstable sst wp raises
          = (t.replace_sstables i old_ssts new_ssts).2) ∧
      (∀ sst rp raises,
        (t.replace_sstables i old_ssts new_ssts).2.register_compacting_sstable sst rp raises
          = (t.replace_sstables i old_ssts new_ssts).2) ∧
      (∀ (j : compaction_backlog_tracker.impl σ) (ops : List compaction_backlog_tracker.op),
        ops.foldl (compaction_backlog_tracker.apply j) (t.replace_sstables i old_ssts new_ssts).2
          = (t.replace_sstables i old_ssts new_ssts).2)) := by
  refine ⟨?_, ?_⟩
  · unfold compaction_backlog_tracker.replace_sstables
    by_cases hd : t.disabled = true
    · simp [hd]
    · simp only [hd, if_false]
      generalize i.replace_sstables _ _ _ = r
      cases r <;> rfl
  · rintro hd ⟨e, he⟩
    have h := replace_sstables_raised i t old_ssts new_ssts hd e he
    exact ⟨h, tracker_disabled_frame _ h⟩

theorem replace_sstables_failure_disables_witness :
    busy_tracker.disabled = false ∧
    compaction_backlog_tracker.replace_sstables.impl_call busy_tracker counting_impl
      [{ id := 1 }, { id := 7 }, { id := 8 }] [] = Except.error error.other ∧
    (busy_tracker.replace_sstables counting_impl [{ id := 1 }, { id := 7 }, { id := 8 }] []).1
      = Except.ok () ∧
    (busy_tracker.replace_sstables counting_impl
      [{ id := 1 }, { id := 7 }, { id := 8 }] []).2.disabled = true ∧
    (busy_tracker.replace_sstables counting_impl
      [{ id := 1 }, { id := 7 }, { id := 8 }] []).2.backlog counting_impl
        = backlog_value.disable_backlog :=
  ⟨rfl, rfl,
   (replace_sstables_failure_disables counting_impl busy_tracker
      [{ id := 1 }, { id := 7 }, { id := 8 }] []).1,
   ((replace_sstables_failure_disables counting_impl busy_tracker
      [{ id := 1 }, { id := 7 }, { id := 8 }] []).2 rfl ⟨error.other, rfl⟩).1,
   ((replace_sstables_failure_disables counting_impl busy_tracker
      [{ id := 1 }, { id := 7 }, { id := 8 }] []).2 rfl ⟨error.other, rfl⟩).2.1 counting_impl⟩

theorem lookup_isSome_iff_mem_keys {α β : Type} [BEq α] [LawfulBEq α] (l : List (α × β))
    (k : α) : (l.lookup k).isSome = true ↔ k ∈ l.map Prod.fst := by
  induction l with
  | nil => simp
  | cons p l ih =>
    obtain ⟨a, b⟩ := p
    rw [List.lookup_cons]
    cases hka : (k == a)
    · have hne : k ≠ a := by
        intro h
        rw [h] at hka
        simp at hka
      simp only [List.map_cons, List.mem_cons, hne, false_or]
      exact ih
    · have he : k = a := eq_of_beq hka
      simp [he]

theorem mem_keys_emplace (m : List (sstable × Nat)) (key : sstable) (value : Nat) (k : sstable) :
    k ∈ (compaction_backlog_tracker.emplace m key value).map Prod.fst
      ↔ k ∈ m.map Prod.fst ∨ k = key := by
  unfold compaction_backlog_tracker.emplace
  by_cases h : (m.lookup key).isSome = true
  · rw [if_pos h]
    constructor
    · exact Or.inl
    · rintro (h1 | h1)
      · exact h1
      · rw [h1]
        exact (lookup_isSome_iff_mem_keys m key).mp h
  · rw [if_neg h]
    simp

/-- Registering a list of writes with a tracker that is not disabled: the keys
afterwards are the keys from before and the keys whose insertion did not
raise; nothing else of the tracker changes. -/
theorem foldl_register_writes {σ : Type} (ws : List (sstable × Nat)) (raises : sstable → Bool)
    (bt : compaction_backlog_tracker σ) (hn : bt.disabled = false) :
    (ws.foldl (fun bt w => bt.register_partially_written_sstable w.1 w.2 (raises w.1)) bt).disabled
      = false ∧
    (ws.foldl (fun bt w => bt.register_partially_written_sstable w.1 w.2 (raises w.1))
      bt)._ongoing_compactions = bt._ongoing_compactions ∧
    ∀ k, k ∈ (ws.foldl (fun bt w => bt.register_partially_written_sstable w.1 w.2 (raises w.1))
        bt)._ongoing_writes.map Prod.fst
      ↔ k ∈ bt._ongoing_writes.map Prod.fst ∨ ∃ w ∈ ws, w.1 = k ∧ raises w.1 = false := by
  induction ws generalizing bt with
  | nil => simp [hn]
  | cons w ws ih =>
    rw [List.foldl_cons]
    by_cases hr : raises w.1 = true
    · have e : bt.register_partially_written_sstable w.1 w.2 (raises w.1) = bt := by
        simp [compaction_backlog_tracker.register_partially_written_sstable, hr]
      rw [e]
      obtain ⟨i1, i2, i3⟩ := ih bt hn
      refine ⟨i1, i2, fun k => ?_⟩
      rw [i3 k]
      constructor
      · rintro (h | ⟨x, hx, hxk, hxr⟩)
        · exact Or.inl h
        · exact Or.inr ⟨x, List.mem_cons_of_mem _ hx, hxk, hxr⟩
      · rintro (h | ⟨x, hx, hxk, hxr⟩)
        · exact Or.inl h
        · rcases List.mem_cons.mp hx with h1 | h1
          · rw [h1, hr] at hxr
            cases hxr
          · exact Or.inr ⟨x, h1, hxk, hxr⟩
    · have hr' : raises w.1 = false := by simpa using hr
      have e : bt.register_partially_written_sstable w.1 w.2 (raises w.1)
          = { bt with _ongoing_writes :=
                compaction_backlog_tracker.emplace bt._ongoing_writes w.1 w.2 } := by
        simp [compaction_backlog_tracker.register_partially_written_sstable, hr', hn]
      rw [e]
      obtain ⟨i1, i2, i3⟩ := ih { bt with _ongoing_writes :=
        compaction_backlog_tracker.emplace bt._ongoing_writes w.1 w.2 } hn
      refine ⟨i1, i2, fun k => ?_⟩
      rw [i3 k, mem_keys_emplace]
      constructor
      · rintro ((h | h) | ⟨x, hx, hxk, hxr⟩)
        · exact Or.inl h
        · exact Or.inr ⟨w, List.mem_cons_self _ _, h.symm, hr'⟩
        · exact Or.inr ⟨x, List.mem_cons_of_mem _ hx, hxk, hxr⟩
      · rintro (h | ⟨x, hx, hxk, hxr⟩)
        · exact Or.inl (Or.inl h)
        · rcases List.mem_cons.mp hx with h1 | h1
          · rw [h1] at hxk
            exact Or.inl (Or.inr hxk.symm)
          · exact Or.inr ⟨x, h1, hxk, hxr⟩

/-- Registering a list of compactions with a tracker that is not disabled. -/
theorem foldl_register_compactions {σ : Type} (ws : List (sstable × Nat))
    (raises : sstable → Bool) (bt : compaction_backlog_tracker σ) (hn : bt.disabled = false) :
    (ws.foldl (fun bt w => bt.register_compacting_sstable w.1 w.2 (raises w.1)) bt).disabled
      = false ∧
    (ws.foldl (fun bt w => bt.register_compacting_sstable w.1 w.2 (raises w.1))
      bt)._ongoing_writes = bt._ongoing_writes ∧
    ∀ k, k ∈ (ws.foldl (fun bt w => bt.register_compacting_sstable w.1 w.2 (raises w.1))
        bt)._ongoing_compactions.map Prod.fst
      ↔ k ∈ bt._ongoing_compactions.map Prod.fst ∨ ∃ w ∈ ws, w.1 = k ∧ raises w.1 = false := by
  induction ws generalizing bt with
  | nil => simp [hn]
  | cons w ws ih =>
    rw [List.foldl_cons]
    by_cases hr : raises w.1 = true
    · have e : bt.register_compacting_sstable w.1 w.2 (raises w.1) = bt := by
        simp [compaction_backlog_tracker.register_compacting_sstable, hr]
      rw [e]
      obtain ⟨i1, i2, i3⟩ := ih bt hn
      refine ⟨i1, i2, fun k => ?_⟩
      rw [i3 k]
      constructor
      · rintro (h | ⟨x, hx, hxk, hxr⟩)
        · exact Or.inl h
        · exact Or.inr ⟨x, List.mem_cons_of_mem _ hx, hxk, hxr⟩
      · rintro (h | ⟨x, hx, hxk, hxr⟩)
        · exact Or.inl h
        · rcases List.mem_cons.mp hx with h1 | h1
          · rw [h1, hr] at hxr
            cases hxr
          · exact Or.inr ⟨x, h1, hxk, hxr⟩
    · have hr' : raises w.1 = false := by simpa using hr
      have e : bt.register_compacting_sstable w.1 w.2 (raises w.1)
          = { bt with _ongoing_compactions :=
                compaction_backlog_tracker.emplace bt._ongoing_compactions w.1 w.2 } := by
        simp [compaction_backlog_tracker.register_compacting_sstable, hr', hn]
      rw [e]
      obtain ⟨i1, i2, i3⟩ := ih { bt with _ongoing_compactions :=
        compaction_backlog_tracker.emplace bt._ongoing_compactions w.1 w.2 } hn
      refine ⟨i1, i2, fun k => ?_⟩
      rw [i3 k, mem_keys_emplace]
      constructor
      · rintro ((h | h) | ⟨x, hx, hxk, hxr⟩)
        · exact Or.inl h
        · exact Or.inr ⟨w, List.mem_cons_self _ _, h.symm, hr'⟩
        · exact Or.inr ⟨x, List.mem_cons_of_mem _ hx, hxk, hxr⟩
      · rintro (h | ⟨x, hx, hxk, hxr⟩)
        · exact Or.inl (Or.inl h)
        · rcases List.mem_cons.mp hx with h1 | h1
          · rw [h1] at hxk
            exact Or.inl (Or.inr hxk.symm)
          · exact Or.inr ⟨x, h1, hxk, hxr⟩

/-- C22, as stated, fails: the insertion into the map of the destination can
raise, which `register_partially_written_sstable` catches and logs.  Sstable 7
is an ongoing write of the source, the destination is not disabled, and after
the transfer sstable 7 is not a key of the ongoing writes of the destination. -/
theorem transfer_can_drop_a_charge :
    fresh_tracker.disabled = false ∧
    (({ id := 7 } : sstable), 70) ∈ busy_tracker._ongoing_writes ∧
    ({ id := 7 } : sstable) ∉
      ((busy_tracker.transfer_ongoing_charges fresh_tracker true
        (fun _ => true) (fun _ => false)).2._ongoing_writes.map Prod.fst) := by
  refine ⟨rfl, ?_, ?_⟩
  · decide
  · decide

/-- C22, amended: for every source tracker and every destination tracker that is
not disabled, after `transfer_ongoing_charges` the source has no ongoing
writes and no ongoing compactions; every ongoing write of the source whose
insertion did not raise is a key of the ongoing writes of the destination;
with `move_read_charges` the same holds of the ongoing compactions, and
without it the ongoing compactions of the destination are unchanged. -/
theorem transfer_ongoing_charges_moves {σ : Type} (t new_bt : compaction_backlog_tracker σ)
    (move_read_charges : Bool) (raises_w raises_c : sstable → Bool)
    (hn : new_bt.disabled = false) :
    (t.transfer_ongoing_charges new_bt move_read_charges raises_w raises_c).1._ongoing_writes
      = [] ∧
    (t.transfer_ongoing_charges new_bt move_read_charges raises_w raises_c).1._ongoing_compactions
      = [] ∧
    (∀ w ∈ t._ongoing_writes, raises_w w.1 = false →
      w.1 ∈ List.map Prod.fst
        (t.transfer_ongoing_charges new_bt move_read_charges raises_w raises_c).2._ongoing_writes) ∧
    (move_read_charges = true → ∀ w ∈ t._ongoing_compactions, raises_c w.1 = false →
      w.1 ∈ List.map Prod.fst
        (t.transfer_ongoing_charges new_bt move_read_charges raises_w
          raises_c).2._ongoing_compactions) ∧
    (move_read_charges = false →
      (t.transfer_ongoing_charges new_bt move_read_charges raises_w raises_c).2._ongoing_compactions
        = new_bt._ongoing_compactions) := by
  obtain ⟨w1, w2, w3⟩ := foldl_register_writes t._ongoing_writes raises_w new_bt hn
  refine ⟨rfl, rfl, ?_, ?_, ?_⟩
  · intro w hw hr
    cases move_read_charges
    · exact (w3 w.1).mpr (Or.inr ⟨w, hw, rfl, hr⟩)
    · obtain ⟨_, c2, _⟩ := foldl_register_compactions t._ongoing_compactions raises_c _ w1
      simp only [compaction_backlog_tracker.transfer_ongoing_charges, if_true]
      rw [c2]
      exact (w3 w.1).mpr (Or.inr ⟨w, hw, rfl, hr⟩)
  · intro hm w hw hr
    subst hm
    obtain ⟨_, _, c3⟩ := foldl_register_compactions t._ongoing_compactions raises_c _ w1
    exact (c3 w.1).mpr (Or.inr ⟨w, hw, rfl, hr⟩)
  · intro hm
    subst hm
    exact w2

theorem transfer_ongoing_charges_moves_witness :
    fresh_tracker.disabled = false ∧
    (busy_tracker.transfer_ongoing_charges fresh_tracker true
      (fun _ => false) (fun _ => false)).1._ongoing_writes = [] ∧
    ({ id := 7 } : sstable) ∈
      ((busy_tracker.transfer_ongoing_charges fresh_tracker true
        (fun _ => false) (fun _ => false)).2._ongoing_writes.map Prod.fst) ∧
    ({ id := 8 } : sstable) ∈
      ((busy_tracker.transfer_ongoing_charges fresh_tracker true
        (fun _ => false) (fun _ => false)).2._ongoing_compactions.map Prod.fst) :=
  ⟨rfl,
   (transfer_ongoing_charges_moves busy_tracker fresh_tracker true
      (fun _ => false) (fun _ => false) rfl).1,
   (transfer_ongoing_charges_moves busy_tracker fresh_tracker true
      (fun _ => false) (fun _ => false) rfl).2.2.1 ({ id := 7 }, 70) (by decide) rfl,
   (transfer_ongoing_charges_moves busy_tracker fresh_tracker true
      (fun _ => false) (fun _ => false) rfl).2.2.2.1 rfl ({ id := 8 }, 80) (by decide) rfl⟩

/-! ## A failed round of regular compaction -/

theorem finish_compaction_errors (t : task) (cm : compaction_manager) (st : task.state) :
    (t.finish_compaction cm st).2._stats.errors = cm._stats.errors := by
  unfold task.finish_compaction
  exact switch_state_errors t cm st

theorem leave_iteration_stats (t : task) (cm : compaction_manager) :
    (regular_compaction_task.leave_iteration t cm).2._stats = cm._stats := by
  unfold regular_compaction_task.leave_iteration
  cases t.weight_r <;> rfl

theorem do_stop_stats (cm : compaction_manager) : (do_stop cm)._stats = cm._stats :=
  (do_stop_frame cm).2.2

/-- C30: when a round of a regular compaction raises a storage I/O error,
`maybe_retry` counts one error and raises the error again, the handler of
`perform_task` counts a second one and raises it to the caller: by the time
`perform_task` is left `stats.errors` has grown by exactly two.  With an
`Aborted` error in the same place `maybe_retry` counts one error and returns,
`do_run` returns, and `perform_task` completes without raising:
`stats.errors` has grown by exactly one. -/
theorem storage_io_error_counted_twice (cm : compaction_manager) (t : task)
    (sleep_aborted : Bool) :
    (regular_compaction_task.round_failed t cm error.storage_io_error sleep_aborted).1
      = Except.error error.storage_io_error ∧
    (regular_compaction_task.round_failed t cm error.storage_io_error
      sleep_aborted).2.2._stats.errors = cm._stats.errors + 1 ∧
    (∃ cm', perform_task.round_failed cm t error.storage_io_error sleep_aborted
        = some (Except.error error.storage_io_error, cm') ∧
      cm'._stats.errors = cm._stats.errors + 2) ∧
    (regular_compaction_task.round_failed t cm error.compaction_aborted_exception
      sleep_aborted).1 = Except.ok stop_iteration.yes ∧
    (∃ cm', perform_task.round_failed cm t error.compaction_aborted_exception sleep_aborted
        = some (Except.ok (), cm') ∧
      cm'._stats.errors = cm._stats.errors + 1) := by
  have hf := finish_compaction_errors t cm task.state.failed
  have h1 : (regular_compaction_task.round_failed t cm error.storage_io_error
      sleep_aborted).2.2._stats.errors = cm._stats.errors + 1 := by
    show (do_stop _)._stats.errors = _
    rw [do_stop_stats]
    show (t.finish_compaction cm task.state.failed).2._stats.errors + 1 = _
    rw [hf]
  have h2 : (regular_compaction_task.round_failed t cm error.compaction_aborted_exception
      sleep_aborted).2.2._stats.errors = cm._stats.errors + 1 := by
    show (t.finish_compaction cm task.state.failed).2._stats.errors + 1 = _
    rw [hf]
  refine ⟨rfl, h1, ⟨_, rfl, ?_⟩, rfl, ⟨_, rfl, ?_⟩⟩
  · show (do_stop _)._stats.errors = _
    rw [do_stop_stats]
    show (regular_compaction_task.leave_iteration _ _).2._stats.errors + 1 = _
    rw [leave_iteration_stats, h1]
    ring
  · show (regular_compaction_task.leave_iteration _ _).2._stats.errors = _
    rw [leave_iteration_stats, h2]

/-! ## Drain and the end of the manager -/

/-- C28: `stop`, `do_stop` and `submit` leave a stopped manager as it is, and so
does `drain` once the abort source has fired, so that the assertion of the
destructor holds.  But `drain` with the subscription to the abort source still
linked, as it is after a plain `stop`, sets the state of the stopped manager
to `disabled`: the assertion of the destructor fails and `enable` is accepted
again. -/
theorem drain_reopens_stopped_manager (cm : compaction_manager) (t : table_state) (id : Nat)
    (done : Nat → Except error Unit) (h : cm._state = state.stopped) :
    stop cm = cm ∧
    do_stop cm = cm ∧
    cm.submit t id = (Except.ok Option.none, cm) ∧
    (cm.drain false done).cm = cm ∧
    dtor_assertion cm = true ∧
    (cm.drain true done).cm._state = state.disabled ∧
    dtor_assertion (cm.drain true done).cm = false ∧
    (enable (cm.drain true done).cm).isSome = true := by
  refine ⟨?_, ?_, ?_, rfl, ?_, rfl, rfl, rfl⟩
  · simp [stop, do_stop, h]
  · simp [do_stop, h]
  · simp [submit, h]
  · simp [dtor_assertion, h]

theorem drain_reopens_stopped_manager_witness :
    (stop enabled_manager)._state = state.stopped ∧
    stop (stop enabled_manager) = stop enabled_manager ∧
    ((stop enabled_manager).drain true (fun _ => Except.ok ())).cm._state = state.disabled ∧
    dtor_assertion ((stop enabled_manager).drain true (fun _ => Except.ok ())).cm = false :=
  ⟨rfl,
   (drain_reopens_stopped_manager (stop enabled_manager) { addr := 1 } 0 (fun _ => Except.ok ()) rfl).1,
   (drain_reopens_stopped_manager (stop enabled_manager) { addr := 1 } 0 (fun _ => Except.ok ()) rfl).2.2.2.2.2.1,
   (drain_reopens_stopped_manager (stop enabled_manager) { addr := 1 } 0 (fun _ => Except.ok ()) rfl).2.2.2.2.2.2.1⟩

/-! ## The weight of a job -/

theorem calculate_weight_one_mib : calculate_weight one_mib_job = 10 := by
  have h : Nat.log 4 ((2 ^ 20 + 0 + 1024 * 1024) % 2 ^ 64) = 10 := by
    apply Nat.log_eq_of_pow_le_of_lt_pow <;> norm_num
  show ((Nat.log 4 ((2 ^ 20 + 0 + 1024 * 1024) % 2 ^ 64) : Nat) : Int) = 10
  rw [h]
  rfl

theorem calculate_weight_ten_gib : calculate_weight ten_gib_job = 16 := by
  have h : Nat.log 4 ((10 * 2 ^ 30 + 0 + 1024 * 1024) % 2 ^ 64) = 16 := by
    apply Nat.log_eq_of_pow_le_of_lt_pow <;> norm_num
  show ((Nat.log 4 ((10 * 2 ^ 30 + 0 + 1024 * 1024) % 2 ^ 64) : Nat) : Int) = 16
  rw [h]
  rfl

/-- C26, as stated, fails: the job of 1 MiB has weight 10, not 0, the job of
10 GiB has weight 16, not 17, and while the job of 10 GiB is running with
fan-in 4 the job of 1 MiB with fan-in 2 on another table is refused. -/
theorem weights_are_ten_and_sixteen :
    calculate_weight one_mib_job = 10 ∧ calculate_weight one_mib_job ≠ 0 ∧
    calculate_weight ten_gib_job = 16 ∧ calculate_weight ten_gib_job ≠ 17 ∧
    ten_gib_running.can_register_compaction { addr := 2 } (calculate_weight one_mib_job) 2
      = false := by
  rw [calculate_weight_one_mib, calculate_weight_ten_gib]
  decide

/-- C26, amended: a regular compaction whose input sstables total 1 MiB gets
weight 10 and one whose inputs total 10 GiB gets weight 16.  While only the
other weight is registered, and the strategy of the table allows parallel
compaction or the table has no running compaction, `can_register_compaction`
admits either job exactly when its fan-in reaches the fan-in threshold (the
largest fan-in of the running jobs, capped at 32). -/
theorem weight_parallelism (cm : compaction_manager) (t : table_state) (fan_in : Nat)
    (hp : t.parallel_compaction = true ∨ cm.has_table_ongoing_compaction t = false) :
    calculate_weight one_mib_job = 10 ∧
    calculate_weight ten_gib_job = 16 ∧
    (cm._weight_tracker = [calculate_weight ten_gib_job] →
      (cm.can_register_compaction t (calculate_weight one_mib_job) fan_in = true
        ↔ cm.current_compaction_fan_in_threshold ≤ fan_in)) ∧
    (cm._weight_tracker = [calculate_weight one_mib_job] →
      (cm.can_register_compaction t (calculate_weight ten_gib_job) fan_in = true
        ↔ cm.current_compaction_fan_in_threshold ≤ fan_in)) := by
  have hg : (!t.parallel_compaction && cm.has_table_ongoing_compaction t) = false := by
    rcases hp with h | h <;> simp [h]
  rw [calculate_weight_one_mib, calculate_weight_ten_gib]
  refine ⟨rfl, rfl, ?_, ?_⟩
  · intro hw
    unfold can_register_compaction
    rw [hg, hw]
    simp
  · intro hw
    unfold can_register_compaction
    rw [hg, hw]
    simp

theorem weight_parallelism_witness :
    ((({ addr := 2 } : table_state).parallel_compaction = true) ∨
      ten_gib_running.has_table_ongoing_compaction { addr := 2 } = false) ∧
    ten_gib_running.can_register_compaction { addr := 2 } (calculate_weight one_mib_job) 4
      = true ∧
    one_mib_running.can_register_compaction { addr := 1 } (calculate_weight ten_gib_job) 4
      = true :=
  ⟨Or.inl rfl,
   ((weight_parallelism ten_gib_running { addr := 2 } 4 (Or.inl rfl)).2.2.1
      (by rw [calculate_weight_ten_gib]; rfl)).mpr (by decide),
   ((weight_parallelism one_mib_running { addr := 1 } 4 (Or.inl rfl)).2.2.2
      (by rw [calculate_weight_one_mib]; rfl)).mpr (by decide)⟩

/-! ## Adding and removing tables -/

theorem lookup_filter_ne {β : Type} (l : List (Nat × β)) (t k : Nat) (h : k ≠ t) :
    (l.filter (fun p => p.1 != t)).lookup k = l.lookup k := by
  induction l with
  | nil => rfl
  | cons p l ih =>
    obtain ⟨a, b⟩ := p
    by_cases hat : a = t
    · have e : List.filter (fun p => p.1 != t) ((a, b) :: l)
          = List.filter (fun p => p.1 != t) l := by simp [hat]
      have hka : (k == a) = false := by
        rw [hat]
        simpa using h
      rw [e, ih, List.lookup_cons, hka]
    · have e : List.filter (fun p => p.1 != t) ((a, b) :: l)
          = (a, b) :: List.filter (fun p => p.1 != t) l := by simp [hat]
      rw [e, List.lookup_cons, List.lookup_cons, ih]

theorem filter_key_of_lookup_none {β : Type} (l : List (Nat × β)) (t : Nat)
    (h : l.lookup t = Option.none) : l.filter (fun p => p.1 != t) = l := by
  rw [List.filter_eq_self]
  intro p hp
  have hk : ¬ (t ∈ l.map Prod.fst) := by
    intro hm
    have := (lookup_isSome_iff_mem_keys l t).mpr hm
    rw [h] at this
    cases this
  have hne : p.1 ≠ t := by
    intro he
    exact hk (List.mem_map.mpr ⟨p, hp, he⟩)
  simpa using hne

theorem switch_state_tables (t : task) (cm : compaction_manager) (new : task.state) :
    (t.switch_state cm new).2.2._compaction_state = cm._compaction_state ∧
    (t.switch_state cm new).2.2._postponed = cm._postponed ∧
    (t.switch_state cm new).2.2._compacting_sstables = cm._compacting_sstables := by
  cases h : t._state <;> cases new <;> simp [task.switch_state, h]

theorem can_proceed_known (tk : task) (cm : compaction_manager)
    (h : tk.can_proceed cm false = Except.ok true) :
    (cm._compaction_state.lookup tk._compacting_table).isSome = true := by
  unfold task.can_proceed at h
  by_cases hs : tk.stopping = true
  · simp [hs] at h
  · simp only [hs, if_false, Except.ok.injEq] at h
    unfold can_proceed at h
    cases hl : cm._compaction_state.lookup tk._compacting_table with
    | none => simp [hl] at h
    | some c => rfl

/-- The removal of a known table, member by member. -/
theorem remove_known (cm : compaction_manager) (t : Nat) (done : Nat → Except error Unit)
    (h : (cm._compaction_state.lookup t).isSome = true) :
    (cm.remove t done).cm._compaction_state = cm._compaction_state.filter (fun p => p.1 != t) ∧
    (cm.remove t done).cm._postponed = cm._postponed.filter (fun x => x != t) ∧
    (cm.remove t done).cm._compacting_sstables = cm._compacting_sstables ∧
    (cm.remove t done).cm._tasks.map task.id = cm._tasks.map task.id ∧
    ((∀ x ∈ cm._tasks, x._compacting_table ≠ t) → (cm.remove t done).cm._tasks = cm._tasks) := by
  unfold remove
  cases hl : cm._compaction_state.lookup t with
  | none =>
    rw [hl] at h
    cases h
  | some c =>
    refine ⟨rfl, rfl, rfl, ?_, ?_⟩
    · show List.map task.id (List.map _ cm._tasks) = _
      rw [List.map_map]
      apply List.map_congr_left
      intro x _
      simp only [Function.comp]
      split <;> rfl
    · intro hno
      have e : cm._tasks.filter (fun task =>
          ((some t).isNone || some task._compacting_table == some t)
            && ((Option.none : Option compaction_type).isNone || some task._type == Option.none))
          = [] := by
        rw [List.filter_eq_nil_iff]
        intro x hx
        have := hno x hx
        simp [this]
      show List.map _ cm._tasks = _
      simp only [e]
      simp

/-- Every step keeps the tables of the postponed set known. -/
theorem postponed_known_step {cm cm' : compaction_manager} (h : table_step cm cm')
    (hk : postponed_known cm) : postponed_known cm' := by
  cases h with
  | add t _ ha =>
    unfold add at ha
    by_cases hs : (cm._compaction_state.lookup t).isSome = true
    · simp [hs] at ha
    · rw [if_neg hs] at ha
      have hcm := (Option.some.inj ha).symm
      subst hcm
      have hnone : cm._compaction_state.lookup t = Option.none := by
        cases hl : cm._compaction_state.lookup t with
        | none => rfl
        | some c => simp [hl] at hs
      intro x hx
      show ((cm._compaction_state ++ [(t, ({} : compaction_state))]).lookup x).isSome = true
      rw [lookup_append_none _ _ _ _ hnone, hk x hx]
      rfl
  | remove t done =>
    by_cases hs : (cm._compaction_state.lookup t).isSome = true
    · obtain ⟨r1, r2, _, _⟩ := remove_known cm t done hs
      intro x hx
      rw [r2] at hx
      have hx' := List.mem_filter.mp hx
      have hne : x ≠ t := by simpa using hx'.2
      rw [r1, lookup_filter_ne _ _ _ hne]
      exact hk x hx'.1
    · have hnone : cm._compaction_state.lookup t = Option.none := by
        cases hl : cm._compaction_state.lookup t with
        | none => rfl
        | some c => simp [hl] at hs
      have e : (cm.remove t done).cm = cm := by
        unfold remove
        rw [hnone]
      rw [e]
      exact hk
  | postpone l1 l2 tk hl hp =>
    obtain ⟨s1, s2, _⟩ := switch_state_tables tk cm task.state.postponed
    intro x hx
    have hx' : x ∈ ((tk.switch_state cm task.state.postponed).2.2._postponed.insert
        tk._compacting_table) := hx
    show ((tk.switch_state cm task.state.postponed).2.2._compaction_state.lookup x).isSome = true
    rw [s1]
    rw [s2] at hx'
    rcases List.mem_insert_iff.mp hx' with h1 | h1
    · rw [h1]
      exact can_proceed_known tk cm hp
    · exact hk x h1
  | other _ hkeys hsub =>
    intro x hx
    rw [lookup_isSome_iff_mem_keys, hkeys, ← lookup_isSome_iff_mem_keys]
    exact hk x (hsub x hx)

theorem reachable_postponed_known {cm : compaction_manager} (h : table_reachable cm) :
    postponed_known cm := by
  induction h with
  | init =>
    intro x hx
    cases hx
  | next cm cm' _ hstep ih => exact postponed_known_step hstep ih

theorem postponed_manager_reachable : table_reachable postponed_manager := by
  have h0 : table_reachable {} := table_reachable.init
  have h1 : table_reachable { _compaction_state := [(1, {})] } :=
    table_reachable.next _ _ h0 (table_step.add {} 1 { _compaction_state := [(1, {})] } rfl)
  have h2 : table_reachable
      { _state := state.enabled,
        _tasks := [{ id := 0, _compacting_table := 1, _state := task.state.pending },
                   { id := 1, _compacting_table := 1, _state := task.state.active }],
        _stats := { active_tasks := 1, pending_tasks := 1 },
        _compaction_state := [(1, {})],
        _compacting_sstables := [9] } :=
    table_reachable.next _ _ h1 (table_step.other _ _ rfl (fun x hx => by cases hx))
  exact table_reachable.next _ _ h2
    (table_step.postpone _ []
      [{ id := 1, _compacting_table := 1, _state := task.state.active }]
      { id := 0, _compacting_table := 1, _state := task.state.pending } rfl rfl)

/-- C25: in every state of the manager and for every table T that is not added,
`add(T)` followed by `remove(T)` leaves the map of the table states, the
postponed set and the compacting registry as they were before `add(T)`, and
the task list with the same entries, the tasks themselves being untouched
unless the list holds tasks of T, which get a stop request; `remove` of a
table that was never added changes nothing; and after `remove(T)` the table T
is not in the postponed set. -/
theorem add_remove_round_trip (cm : compaction_manager) (h : table_reachable cm) (t : Nat)
    (done : Nat → Except error Unit) :
    (cm._compaction_state.lookup t = Option.none →
      ∃ cm1, cm.add t = some cm1 ∧
        (cm1.remove t done).cm._compaction_state = cm._compaction_state ∧
        (cm1.remove t done).cm._postponed = cm._postponed ∧
        (cm1.remove t done).cm._compacting_sstables = cm._compacting_sstables ∧
        (cm1.remove t done).cm._tasks.map task.id = cm._tasks.map task.id ∧
        ((∀ x ∈ cm._tasks, x._compacting_table ≠ t) →
          (cm1.remove t done).cm._tasks = cm._tasks)) ∧
    (cm._compaction_state.lookup t = Option.none →
      (cm.remove t done).cm = cm ∧ (cm.remove t done).stopped = [] ∧
      (cm.remove t done).result = Except.ok ()) ∧
    t ∉ (cm.remove t done).cm._postponed := by
  have hk := reachable_postponed_known h
  have hnp : cm._compaction_state.lookup t = Option.none → t ∉ cm._postponed := by
    intro hn hm
    have := hk t hm
    rw [hn] at this
    cases this
  have hnoop : cm._compaction_state.lookup t = Option.none →
      (cm.remove t done).cm = cm ∧ (cm.remove t done).stopped = [] ∧
      (cm.remove t done).result = Except.ok () := by
    intro hn
    unfold remove
    rw [hn]
    exact ⟨rfl, rfl, rfl⟩
  refine ⟨?_, hnoop, ?_⟩
  · intro hn
    refine ⟨{ cm with _compaction_state := cm._compaction_state ++ [(t, {})] }, ?_, ?_⟩
    · unfold add
      rw [hn]
      rfl
    · have hs : (({ cm with _compaction_state := cm._compaction_state ++ [(t, {})] } :
          compaction_manager)._compaction_state.lookup t).isSome = true := by
        show ((cm._compaction_state ++ [(t, ({} : compaction_state))]).lookup t).isSome = true
        rw [lookup_append_none _ _ _ _ hn]
        simp
      obtain ⟨r1, r2, r3, r4, r5⟩ := remove_known _ t done hs
      refine ⟨?_, ?_, r3, r4, r5⟩
      · rw [r1]
        show List.filter _ (cm._compaction_state ++ [(t, ({} : compaction_state))]) = _
        rw [List.filter_append, filter_key_of_lookup_none _ _ hn]
        simp
      · rw [r2]
        show List.filter _ cm._postponed = _
        rw [List.filter_eq_self]
        intro x hx
        have hne : x ≠ t := by
          intro he
          rw [he] at hx
          exact hnp hn hx
        simpa using hne
  · by_cases hs : (cm._compaction_state.lookup t).isSome = true
    · obtain ⟨_, r2, _⟩ := remove_known cm t done hs
      rw [r2]
      intro hm
      have := (List.mem_filter.mp hm).2
      simp at this
    · have hn : cm._compaction_state.lookup t = Option.none := by
        cases hl : cm._compaction_state.lookup t with
        | none => rfl
        | some c => simp [hl] at hs
      rw [(hnoop hn).1]
      exact hnp hn

theorem add_remove_round_trip_witness :
    table_reachable postponed_manager ∧
    postponed_manager._compaction_state.lookup 2 = Option.none ∧
    (∃ cm1, postponed_manager.add 2 = some cm1 ∧
      (cm1.remove 2 (fun _ => Except.ok ())).cm._compaction_state
        = postponed_manager._compaction_state ∧
      (cm1.remove 2 (fun _ => Except.ok ())).cm._postponed = postponed_manager._postponed ∧
      (cm1.remove 2 (fun _ => Except.ok ())).cm._compacting_sstables
        = postponed_manager._compacting_sstables ∧
      (cm1.remove 2 (fun _ => Except.ok ())).cm._tasks.map task.id
        = postponed_manager._tasks.map task.id ∧
      ((∀ x ∈ postponed_manager._tasks, x._compacting_table ≠ 2) →
        (cm1.remove 2 (fun _ => Except.ok ())).cm._tasks = postponed_manager._tasks)) ∧
    (1 : Nat) ∉ (postponed_manager.remove 1 (fun _ => Except.ok ())).cm._postponed :=
  ⟨postponed_manager_reachable, rfl,
   (add_remove_round_trip postponed_manager postponed_manager_reachable 2
      (fun _ => Except.ok ())).1 rfl,
   (add_remove_round_trip postponed_manager postponed_manager_reachable 1
      (fun _ => Except.ok ())).2.2⟩

/-! ## Scoped disabling of compaction -/

theorem live_extracted_zero (s : reenabler_system) (h : Nat)
    (c3 : ∀ r ∈ s.scopes, ∀ t, r._table = some t →
      (∀ k, r._compaction_state = state_ref.in_map k →
        k = t ∧ (s.cm._compaction_state.lookup t).isSome = true) ∧
      (∀ h, r._compaction_state = state_ref.extracted h →
        ∃ n, s.handles.lookup h = some n ∧ n.key = t))
    (hn : s.handles.lookup h = Option.none) :
    s.live_scopes (state_ref.extracted h) = 0 := by
  unfold reenabler_system.live_scopes
  rw [List.countP_eq_zero]
  intro r hr
  simp only [Bool.and_eq_true, decide_eq_true_eq, not_and]
  intro hsome href
  obtain ⟨tt, htt⟩ := Option.isSome_iff_exists.mp hsome
  obtain ⟨n, h1, _⟩ := (c3 r hr tt htt).2 h href
  rw [hn] at h1
  cases h1

/-- The binary search finds the partition point of a list that is partitioned
by the comparison. -/
theorem lower_bound_go_eq {α : Type} (comp : α → Bool) (a : List α) (k : Nat)
    (hk : ∀ i x, a[i]? = some x → (comp x = true ↔ i < k)) :
    ∀ fuel first len, len ≤ fuel → first ≤ k → k ≤ first + len → first + len ≤ a.length →
      lower_bound.go comp a fuel first len = k := by
  intro fuel
  induction fuel with
  | zero =>
    intro first len h1 h2 h3 _
    simp only [lower_bound.go]
    omega
  | succ n ih =>
    intro first len h1 h2 h3 h4
    simp only [lower_bound.go]
    by_cases hl : len = 0
    · rw [if_pos hl]
      omega
    · rw [if_neg hl]
      have hmid : first + len / 2 < a.length := by omega
      rw [List.getElem?_eq_getElem hmid]
      simp only
      by_cases hc : comp a[first + len / 2] = true
      · rw [if_pos hc]
        have hlt := (hk _ _ (List.getElem?_eq_getElem hmid)).mp hc
        exact ih _ _ (by omega) (by omega) (by omega) (by omega)
      · rw [if_neg hc]
        have hge : ¬ (first + len / 2 < k) := fun h =>
          hc ((hk _ _ (List.getElem?_eq_getElem hmid)).mpr h)
        exact ih _ _ (by omega) (by omega) (by omega) (by omega)

/-- A list in which the comparison never holds behind a position where it
fails is partitioned at the length of its longest prefix satisfying it. -/
theorem partitioned_at_takeWhile {α : Type} (comp : α → Bool) (a : List α)
    (hm : a.Pairwise (fun x y => comp y = true → comp x = true)) :
    ∀ i x, a[i]? = some x → (comp x = true ↔ i < (a.takeWhile comp).length) := by
  induction a with
  | nil =>
    intro i x h
    simp at h
  | cons b l ih =>
    rw [List.pairwise_cons] at hm
    intro i x h
    by_cases hb : comp b = true
    · rw [List.takeWhile_cons_of_pos hb]
      cases i with
      | zero =>
        simp only [List.getElem?_cons_zero, Option.some.injEq] at h
        rw [← h]
        simp [hb]
      | succ j =>
        simp only [List.getElem?_cons_succ] at h
        rw [ih hm.2 j x h]
        simp
    · rw [List.takeWhile_cons_of_neg hb]
      have hx : comp x = false := by
        cases i with
        | zero =>
          simp only [List.getElem?_cons_zero, Option.some.injEq] at h
          rw [← h]
          simpa using hb
        | succ j =>
          simp only [List.getElem?_cons_succ] at h
          have hmem : x ∈ l := List.mem_iff_getElem?.mpr ⟨j, h⟩
          cases hcx : comp x with
          | false => rfl
          | true => exact absurd (hm.1 x hmem hcx) hb
      simp [hx]

theorem lower_bound_eq {α : Type} (comp : α → Bool) (a : List α)
    (hm : a.Pairwise (fun x y => comp y = true → comp x = true)) :
    lower_bound a comp = (a.takeWhile comp).length := by
  unfold lower_bound
  apply lower_bound_go_eq comp a _ (partitioned_at_takeWhile comp a hm)
  · exact Nat.le_refl _
  · exact Nat.zero_le _
  · rw [Nat.zero_add]
    exact (List.takeWhile_sublist comp).length_le
  · rw [Nat.zero_add]

theorem pairwise_getElem? {α : Type} {R : α → α → Prop} (l : List α) (h : l.Pairwise R) :
    ∀ (i j : Nat) (x y : α), l[i]? = some x → l[j]? = some y → i < j → R x y := by
  induction l with
  | nil =>
    intro i j x y hx
    simp at hx
  | cons b l ih =>
    rw [List.pairwise_cons] at h
    intro i j x y hx hy hij
    cases j with
    | zero => omega
    | succ j =>
      simp only [List.getElem?_cons_succ] at hy
      cases i with
      | zero =>
        simp only [List.getElem?_cons_zero, Option.some.injEq] at hx
        rw [← hx]
        exact h.1 y (List.mem_iff_getElem?.mpr ⟨j, hy⟩)
      | succ i =>
        simp only [List.getElem?_cons_succ] at hx
        exact ih h.2 i j x y hx hy (by omega)

theorem after_iff (a : token_range) (p : Int) :
    a.after p = true ↔ ∃ e, a._end = some e ∧
      (e.value < p ∨ (e.value = p ∧ e.is_inclusive = false)) := by
  unfold token_range.after
  cases a._end with
  | none => simp
  | some e =>
    cases hi : e.is_inclusive <;> simp [hi]

theorem not_wrap_around (r : token_range) (s e : range_bound) (h : r.is_wrap_around = false)
    (hs : r._start = some s) (he : r._end = some e) :
    s.value < e.value ∨ (s.value = e.value ∧ s.is_inclusive = true ∧ e.is_inclusive = true) := by
  unfold token_range.is_wrap_around at h
  rw [hs, he] at h
  cases h1 : s.is_inclusive <;> cases h2 : e.is_inclusive <;> simp [h1, h2] at h ⊢ <;> omega

/-- Of two ranges in order, the first ends before every point the second ends
before. -/
theorem after_of_before (a b : token_range) (p : Int) (hab : a.before b)
    (hb : b.is_wrap_around = false) (h : b.after p = true) : a.after p = true := by
  obtain ⟨e, s, he, hs, hord⟩ := hab
  obtain ⟨eb, heb, hp⟩ := (after_iff b p).mp h
  have hw := not_wrap_around b s eb hb hs heb
  rw [after_iff]
  refine ⟨e, he, ?_⟩
  rcases hord with h1 | ⟨h1, h2⟩ <;> rcases hw with h3 | ⟨h3, h4, h5⟩ <;>
    rcases hp with h6 | ⟨h6, h7⟩
  all_goals first
    | (left; omega)
    | (rw [h5] at h7; cases h7)

theorem mem_iff (r : token_range) (t : Int) :
    r.mem t ↔
      (∀ s, r._start = some s → s.value < t ∨ (s.value = t ∧ s.is_inclusive = true)) ∧
      (∀ e, r._end = some e → t < e.value ∨ (e.value = t ∧ e.is_inclusive = true)) := by
  unfold token_range.mem
  cases r._start <;> cases r._end <;> simp

/-- Containing the range from `first` to `last`, both included, is containing
every token from `first` to `last`. -/
theorem contains_make_iff (r : token_range) (first last : Int) (h : first ≤ last) :
    r.contains (token_range.make first last) = true ↔
      ∀ x, first ≤ x → x ≤ last → r.mem x := by
  constructor
  · intro hc x h1 h2
    rw [mem_iff]
    unfold token_range.contains token_range.make at hc
    constructor
    · intro s hs
      rw [hs] at hc
      simp only [Bool.and_eq_true, Bool.or_eq_true, decide_eq_true_eq, Bool.not_true,
        Bool.or_false] at hc
      rcases hc.1 with h3 | ⟨h3, h4⟩
      · left; omega
      · by_cases hx : s.value = x
        · exact Or.inr ⟨hx, h4⟩
        · left; omega
    · intro e he
      rw [he] at hc
      simp only [Bool.and_eq_true, Bool.or_eq_true, decide_eq_true_eq, Bool.not_true,
        Bool.or_false] at hc
      rcases hc.2 with h3 | ⟨h3, h4⟩
      · left; omega
      · by_cases hx : e.value = x
        · exact Or.inr ⟨hx, h4⟩
        · left; omega
  · intro hall
    have h1 := (mem_iff r first).mp (hall first (le_refl _) h)
    have h2 := (mem_iff r last).mp (hall last h (le_refl _))
    unfold token_range.contains token_range.make
    simp only [Bool.and_eq_true]
    constructor
    · cases hs : r._start with
      | none => rfl
      | some s =>
        have := h1.1 s hs
        simp only [Bool.or_eq_true, decide_eq_true_eq, Bool.and_eq_true, Bool.not_true,
          Bool.or_false]
        exact this
    · cases he : r._end with
      | none => rfl
      | some e =>
        have := h2.2 e he
        simp only [Bool.or_eq_true, decide_eq_true_eq, Bool.and_eq_true, Bool.not_true,
          Bool.or_false]
        exact this

theorem not_after_of_mem (r : token_range) (p : Int) (h : r.mem p) : r.after p = false := by
  cases ha : r.after p with
  | false => rfl
  | true =>
    obtain ⟨e, he, hp⟩ := (after_iff r p).mp ha
    have := ((mem_iff r p).mp h).2 e he
    rcases hp with h1 | ⟨h1, h2⟩ <;> rcases this with h3 | ⟨h3, h4⟩
    · omega
    · omega
    · omega
    · rw [h2] at h4
      cases h4

/-- A point that a range does not end before is in no later range. -/
theorem not_mem_of_before (y r : token_range) (p : Int) (hb : y.before r)
    (hy : y.after p = false) : ¬ r.mem p := by
  intro hm
  obtain ⟨e, s, he, hs, hord⟩ := hb
  have h1 := ((mem_iff r p).mp hm).1 s hs
  have h2 : ¬ (e.value < p ∨ (e.value = p ∧ e.is_inclusive = false)) := by
    intro h
    have := (after_iff y p).mpr ⟨e, he, h⟩
    rw [hy] at this
    cases this
  have h3 : ¬ e.value < p := fun h => h2 (Or.inl h)
  rcases hord with h4 | ⟨h4, h5⟩ <;> rcases h1 with h6 | ⟨h6, h7⟩
  · omega
  · omega
  · omega
  · have h8 : e.value = p := by omega
    cases hi : e.is_inclusive with
    | false => exact h2 (Or.inr ⟨h8, hi⟩)
    | true => exact h5 ⟨hi, h7⟩

theorem owned_ranges_in_order : owned_ranges.Pairwise token_range.before := by
  unfold owned_ranges
  refine List.Pairwise.cons ?_ (List.Pairwise.cons ?_ (List.Pairwise.cons ?_ List.Pairwise.nil))
  · intro b hb
    simp only [List.mem_cons, List.mem_singleton, List.not_mem_nil, or_false] at hb
    rcases hb with hb | hb <;> rw [hb]
    · exact ⟨_, _, rfl, rfl, Or.inl (by decide)⟩
    · exact ⟨_, _, rfl, rfl, Or.inl (by decide)⟩
  · intro b hb
    simp only [List.mem_cons, List.mem_singleton, List.not_mem_nil, or_false] at hb
    rw [hb]
    exact ⟨_, _, rfl, rfl, Or.inl (by decide)⟩
  · intro b hb
    cases hb

/-- C27: for an sstable whose first token is not after its last, and owned ranges
that are non-wrapping, in order and pairwise disjoint, `needs_cleanup` answers
true exactly when no single owned range contains every token from the first
to the last of the sstable; in particular it answers true when there is no
owned range. -/
theorem needs_cleanup_iff (first_token last_token : Int) (ranges : List token_range)
    (h : first_token ≤ last_token) (hw : ∀ r ∈ ranges, r.is_wrap_around = false)
    (hs : ranges.Pairwise token_range.before) :
    (needs_cleanup first_token last_token ranges = true ↔
      ¬ ∃ r ∈ ranges, ∀ x, first_token ≤ x → x ≤ last_token → r.mem x) ∧
    needs_cleanup first_token last_token [] = true := by
  refine ⟨?_, rfl⟩
  have hm : ranges.Pairwise
      (fun x y => (fun a : token_range => a.after first_token) y = true →
        (fun a : token_range => a.after first_token) x = true) :=
    hs.imp_of_mem (fun _ hb hab => after_of_before _ _ first_token hab (hw _ hb))
  have hlb := lower_bound_eq (fun a : token_range => a.after first_token) ranges hm
  have hpart := partitioned_at_takeWhile (fun a : token_range => a.after first_token) ranges hm
  have key : ∀ r ∈ ranges, (∀ x, first_token ≤ x → x ≤ last_token → r.mem x) →
      ranges[lower_bound ranges (fun a => a.after first_token)]? = some r := by
    intro r hr hall
    obtain ⟨j, hj⟩ := List.mem_iff_getElem?.mp hr
    have hna := not_after_of_mem r first_token (hall first_token (le_refl _) h)
    have hjk : ¬ j < (ranges.takeWhile (fun a => a.after first_token)).length := by
      intro hlt
      have := (hpart j r hj).mpr hlt
      simp only at this
      rw [hna] at this
      cases this
    rw [hlb]
    by_cases hjeq : j = (ranges.takeWhile (fun a => a.after first_token)).length
    · rw [← hjeq]
      exact hj
    · exfalso
      have hk : (ranges.takeWhile (fun a => a.after first_token)).length < ranges.length := by
        have := (List.getElem?_eq_some.mp hj).1
        omega
      have hy := List.getElem?_eq_getElem hk
      have hya : (ranges[(ranges.takeWhile (fun a => a.after first_token)).length]).after
          first_token = false := by
        cases hc : (ranges[(ranges.takeWhile (fun a => a.after first_token)).length]).after
          first_token with
        | false => rfl
        | true =>
          have := (hpart _ _ hy).mp hc
          omega
      exact not_mem_of_before _ r first_token
        (pairwise_getElem? ranges hs _ j _ r hy hj (by omega)) hya
        (hall first_token (le_refl _) h)
  unfold needs_cleanup
  simp only
  cases hx : ranges[lower_bound ranges (fun a => a.after first_token)]? with
  | none =>
    simp only [true_iff]
    rintro ⟨r, hr, hall⟩
    rw [key r hr hall] at hx
    cases hx
  | some y =>
    simp only
    by_cases hc : y.contains (token_range.make first_token last_token) = true
    · rw [if_pos hc]
      simp only [Bool.false_eq_true, false_iff, not_not]
      exact ⟨y, List.mem_iff_getElem?.mpr ⟨_, hx⟩, (contains_make_iff y _ _ h).mp hc⟩
    · rw [if_neg hc]
      simp only [true_iff]
      rintro ⟨r, hr, hall⟩
      rw [key r hr hall] at hx
      have hry : r = y := Option.some.inj hx
      rw [hry] at hall
      exact hc ((contains_make_iff y _ _ h).mpr hall)

theorem needs_cleanup_iff_witness :
    ((-20 : Int) ≤ 30) ∧
    (∀ r ∈ owned_ranges, r.is_wrap_around = false) ∧
    owned_ranges.Pairwise token_range.before ∧
    needs_cleanup (-20) 30 owned_ranges = false ∧
    needs_cleanup 40 60 owned_ranges = true ∧
    (needs_cleanup 40 60 owned_ranges = true ↔
      ¬ ∃ r ∈ owned_ranges, ∀ x, (40 : Int) ≤ x → x ≤ 60 → r.mem x) :=
  ⟨by decide, by decide, owned_ranges_in_order, by decide, by decide,
   (needs_cleanup_iff 40 60 owned_ranges (by decide) (by decide) owned_ranges_in_order).1⟩

/-! ## The life of a rewrite task -/

theorem balanced_refl (t : task) (cm : compaction_manager) : t.balanced cm t cm :=
  ⟨rfl, rfl⟩

theorem balanced_trans {t1 t2 t3 : task} {c1 c2 c3 : compaction_manager}
    (h1 : t1.balanced c1 t2 c2) (h2 : t2.balanced c2 t3 c3) : t1.balanced c1 t3 c3 :=
  ⟨h2.1.trans h1.1, h2.2.trans h1.2⟩

theorem balanced_of_op {t t' : task} {cm cm' : compaction_manager} (h : task_op t cm t' cm') :
    t.balanced cm t' cm' := by
  obtain ⟨_, h2, _, h4⟩ := task_op_effect h
  exact ⟨h2, h4⟩

theorem rewrite_round_balanced (t : task) (cm : compaction_manager) (rid : Nat)
    (st : task.state) :
    t.balanced cm
      (((t.switch_state cm task.state.active).2.1.setup_new_compaction
          (t.switch_state cm task.state.active).2.2 (some rid)).1.finish_compaction
        ((t.switch_state cm task.state.active).2.1.setup_new_compaction
          (t.switch_state cm task.state.active).2.2 (some rid)).2 st).1
      (((t.switch_state cm task.state.active).2.1.setup_new_compaction
          (t.switch_state cm task.state.active).2.2 (some rid)).1.finish_compaction
        ((t.switch_state cm task.state.active).2.1.setup_new_compaction
          (t.switch_state cm task.state.active).2.2 (some rid)).2 st).2 :=
  balanced_trans
    (balanced_trans (balanced_of_op (task_op.switch_state t cm task.state.active))
      (balanced_of_op (task_op.setup_new_compaction _ _ (some rid))))
    (balanced_of_op (task_op.finish_compaction _ _ st))

theorem rewrite_sstable_balanced (rid : Nat) (failures : List (error × Bool)) :
    ∀ (t : task) (cm : compaction_manager),
      t.balanced cm
        (rewrite_sstables_compaction_task.rewrite_sstable t cm rid failures).2.1
        (rewrite_sstables_compaction_task.rewrite_sstable t cm rid failures).2.2 := by
  induction failures with
  | nil =>
    intro t cm
    exact rewrite_round_balanced t cm rid task.state.done
  | cons f rest ih =>
    intro t cm
    have h1 := rewrite_round_balanced t cm rid task.state.failed
    have h2 := balanced_of_op (task_op.maybe_retry
      (((t.switch_state cm task.state.active).2.1.setup_new_compaction
          (t.switch_state cm task.state.active).2.2 (some rid)).1.finish_compaction
        ((t.switch_state cm task.state.active).2.1.setup_new_compaction
          (t.switch_state cm task.state.active).2.2 (some rid)).2 task.state.failed).1
      (((t.switch_state cm task.state.active).2.1.setup_new_compaction
          (t.switch_state cm task.state.active).2.2 (some rid)).1.finish_compaction
        ((t.switch_state cm task.state.active).2.1.setup_new_compaction
          (t.switch_state cm task.state.active).2.2 (some rid)).2 task.state.failed).2
      f.1 f.2)
    have h3 := balanced_trans h1 h2
    simp only [rewrite_sstables_compaction_task.rewrite_sstable]
    split
    · exact h3
    · exact h3
    · exact balanced_trans h3 (ih _ _)
theorem rewrite_loop_balanced (script : Nat → List (error × Bool)) (fuel : Nat) :
    ∀ (t : task) (cm : compaction_manager), t.cls.is_sstables_task = true →
      t.balanced cm
        (rewrite_sstables_compaction_task.loop script fuel t cm).2.1
        (rewrite_sstables_compaction_task.loop script fuel t cm).2.2 := by
  induction fuel with
  | zero =>
    intro t cm _
    exact balanced_refl t cm
  | succ n ih =>
    intro t cm hcls
    simp only [rewrite_sstables_compaction_task.loop]
    by_cases he : t._sstables.isEmpty = true
    · rw [if_pos he]
      exact balanced_refl t cm
    · rw [if_neg he]
      cases hp : t.can_proceed cm false with
      | error e => exact balanced_refl t cm
      | ok b =>
        cases b with
        | false => exact balanced_refl t cm
        | true =>
          simp only
          cases hc : sstables_task.consume_sstable t cm with
          | none => exact balanced_refl t cm
          | some c =>
            simp only
            have hop : task_op t cm c.2.1 c.2.2 :=
              task_op.consume_sstable t cm c.1 c.2.1 c.2.2 hcls hc
            have h1 := balanced_of_op hop
            have h2 := rewrite_sstable_balanced c.1.run_identifier (script t._sstables.length)
              c.2.1 c.2.2
            have h3 := balanced_trans h1 h2
            have hcls' : (rewrite_sstables_compaction_task.rewrite_sstable c.2.1 c.2.2
                c.1.run_identifier (script t._sstables.length)).2.1.cls.is_sstables_task
                  = true := by
              rw [h3.1]
              exact hcls
            split
            · exact h3
            · exact balanced_trans h3 (ih _ _ hcls')

theorem rewrite_do_run_balanced (t : task) (cm : compaction_manager)
    (acquire : Except error Unit) (script : Nat → List (error × Bool))
    (hcls : t.cls.is_sstables_task = true) :
    t.balanced cm
      (rewrite_sstables_compaction_task.do_run t cm acquire script).2.1
      (rewrite_sstables_compaction_task.do_run t cm acquire script).2.2 := by
  have h1 := balanced_of_op (task_op.switch_state t cm task.state.pending)
  unfold rewrite_sstables_compaction_task.do_run
  cases acquire with
  | error e => exact h1
  | ok u =>
    have hcls' : (t.switch_state cm task.state.pending).2.1.cls.is_sstables_task = true := by
      rw [h1.1]
      exact hcls
    exact balanced_trans h1 (rewrite_loop_balanced script _ _ _ hcls')

/-- The statement of the destructor in machine arithmetic gives the counter of
the statement taken in the integers, read as a 64-bit signed number. -/
theorem dtor_pending_tasks_eq (t : task) (cm : compaction_manager) :
    sstables_task.dtor_pending_tasks t cm
      = to_int64 (sstables_task.dtor t cm)._stats.pending_tasks := by
  unfold sstables_task.dtor_pending_tasks sstables_task.dtor_difference sstables_task.dtor
    to_int64 task.is_pending
  simp only
  split <;> push_cast <;> omega
theorem rewrite_ctor_some (cm : compaction_manager) (id tbl : Nat) (type : compaction_type)
    (sstables : List sstable) :
    ∃ c, sstables_task.ctor cm id task_class.rewrite_sstables_compaction_task tbl type sstables
        = some c ∧
      c.1.cls = task_class.rewrite_sstables_compaction_task ∧
      c.2._stats.pending_tasks - c.1.pending_share = cm._stats.pending_tasks := by
  cases hc : sstables_task.ctor cm id task_class.rewrite_sstables_compaction_task tbl type
    sstables with
  | none => simp [sstables_task.ctor, sstables_task.set_sstables, task.ctor] at hc
  | some c =>
    obtain ⟨c1, c2⟩ := c
    obtain ⟨h1, h2⟩ := sstables_ctor_effect hc
    refine ⟨_, rfl, ?_, ?_⟩
    · rw [h1]
      rfl
    · rw [h1, h2]
      simp [task.pending_share, task.is_pending, task.queued, task.ctor,
        task_class.is_sstables_task]

/-- The net change of the pending counter over the life of a rewrite task. -/
theorem rewrite_life_net_change (cm : compaction_manager) (id tbl : Nat)
    (type : compaction_type) (sstables : List sstable) (acquire : Except error Unit)
    (script : Nat → List (error × Bool)) :
    ∃ r, rewrite_sstables_compaction_task.life cm id tbl type sstables acquire script = some r ∧
      r.2.2._stats.pending_tasks
        = cm._stats.pending_tasks + (if r.2.1._state = task.state.pending then 1 else 0) ∧
      ((∃ e, acquire = Except.error e) → r.2.1._state = task.state.pending) := by
  obtain ⟨c, hc, hcls, hbal⟩ := rewrite_ctor_some cm id tbl type sstables
  have hs : c.1.cls.is_sstables_task = true := by
    rw [hcls]
    rfl
  have hrun := rewrite_do_run_balanced c.1 (register_task c.2 c.1) acquire script hs
  have hfin := (perform_task_finish_frame
    (rewrite_sstables_compaction_task.do_run c.1 (register_task c.2 c.1) acquire script).2.2
    (rewrite_sstables_compaction_task.do_run c.1 (register_task c.2 c.1) acquire script).2.1
    (rewrite_sstables_compaction_task.do_run c.1 (register_task c.2 c.1) acquire script).1).2.2.2
  have hs' : (rewrite_sstables_compaction_task.do_run c.1 (register_task c.2 c.1) acquire
      script).2.1.cls.is_sstables_task = true := by
    rw [hrun.1]
    exact hs
  have hreg : (register_task c.2 c.1)._stats.pending_tasks = c.2._stats.pending_tasks := rfl
  refine ⟨_, by
    unfold rewrite_sstables_compaction_task.life
    rw [hc], ?_, ?_⟩
  · simp only
    by_cases hp : (rewrite_sstables_compaction_task.do_run c.1 (register_task c.2 c.1) acquire
        script).2.1._state = task.state.pending
    · rw [if_pos hp, destroy_pending_leaves_one _ _ hs' hp, hfin]
      have := hrun.2
      rw [hreg] at this
      omega
    · rw [if_neg hp, destroy_pending_counter _ _ (fun h => hp h.2), hfin]
      have := hrun.2
      rw [hreg] at this
      omega
  · rintro ⟨e, he⟩
    subst he
    simp only
    exact (switch_state_frame c.1 (register_task c.2 c.1) task.state.pending).1 ▸ rfl

/-- C29: over the life of a rewrite task, from just before its construction
with any list of sstables to just after its destruction, `stats.pending_tasks`
grows by 1 when the task is destroyed in state `pending` and by 0 otherwise,
whatever the difference in the destructor comes to in 64-bit arithmetic.  A
task whose wait for the maintenance semaphore is ended by an exception is
destroyed in state `pending`: the net change is 1.  With two sstables the net
change is 0 when both are consumed and when a storage error leaves one queued,
and 1 when the task is stopped on the semaphore or during a retry backoff;
with no sstable it is 1. -/
theorem pending_tasks_over_life (cm : compaction_manager) (id tbl : Nat)
    (type : compaction_type) (sstables : List sstable) (acquire : Except error Unit)
    (e : error) (script : Nat → List (error × Bool)) :
    (∃ r, rewrite_sstables_compaction_task.life cm id tbl type sstables acquire script = some r ∧
      r.2.2._stats.pending_tasks
        = cm._stats.pending_tasks + (if r.2.1._state = task.state.pending then 1 else 0)) ∧
    (∃ r, rewrite_sstables_compaction_task.life cm id tbl type sstables (Except.error e) script
        = some r ∧
      r.2.1._state = task.state.pending ∧
      r.2.2._stats.pending_tasks = cm._stats.pending_tasks + 1) ∧
    (∀ (t : task) (m : compaction_manager), sstables_task.dtor_pending_tasks t m
      = to_int64 (sstables_task.dtor t m)._stats.pending_tasks) ∧
    (rewrite_sstables_compaction_task.life enabled_manager 0 1 compaction_type.Upgrade
      two_sstables (Except.ok ()) (fun _ => [])).map
        (fun r => (r.2.1._state, r.2.1._sstables.length, r.2.2._stats.pending_tasks))
      = some (task.state.done, 0, 0) ∧
    (rewrite_sstables_compaction_task.life enabled_manager 0 1 compaction_type.Upgrade
      two_sstables (Except.ok ()) (fun _ => [(error.storage_io_error, false)])).map
        (fun r => (r.2.1._state, r.2.1._sstables.length, r.2.2._stats.pending_tasks))
      = some (task.state.failed, 1, 0) ∧
    (rewrite_sstables_compaction_task.life enabled_manager 0 1 compaction_type.Upgrade
      two_sstables (Except.error error.compaction_stopped_exception) (fun _ => [])).map
        (fun r => (r.2.1._state, r.2.1._sstables.length, r.2.2._stats.pending_tasks))
      = some (task.state.pending, 2, 1) ∧
    (rewrite_sstables_compaction_task.life enabled_manager 0 1 compaction_type.Upgrade
      two_sstables (Except.ok ()) (fun _ => [(error.other, true)])).map
        (fun r => (r.2.1._state, r.2.1._sstables.length, r.2.2._stats.pending_tasks))
      = some (task.state.pending, 1, 1) ∧
    (rewrite_sstables_compaction_task.life enabled_manager 0 1 compaction_type.Upgrade
      [] (Except.ok ()) (fun _ => [])).map
        (fun r => (r.2.1._state, r.2.1._sstables.length, r.2.2._stats.pending_tasks))
      = some (task.state.pending, 0, 1) := by
  refine ⟨?_, ?_, dtor_pending_tasks_eq, rfl, rfl, rfl, rfl, rfl⟩
  · obtain ⟨r, h1, h2, _⟩ := rewrite_life_net_change cm id tbl type sstables acquire script
    exact ⟨r, h1, h2⟩
  · obtain ⟨r, h1, h2, h3⟩ :=
      rewrite_life_net_change cm id tbl type sstables (Except.error e) script
    have hp := h3 ⟨e, rfl⟩
    refine ⟨r, h1, hp, ?_⟩
    rw [h2, if_pos hp]

/-! ## Off-strategy compaction -/

/-- The calls of the creator during one compaction: the sstables made have the
next generations, they join `new_unused_sstables` and the record of the round,
and nothing else changes. -/
theorem create_spec (n : Nat) :
    ∀ s : offstrategy_run,
      (∀ x ∈ (s.create n).1, s.generation ≤ x.id ∧ x.id < s.generation + n) ∧
      (s.create n).2.generation = s.generation + n ∧
      (∀ x, x ∈ (s.create n).2.new_unused_sstables ↔
        x ∈ s.new_unused_sstables ∨ x ∈ (s.create n).1) ∧
      (s.create n).2.created = s.created ++ (s.create n).1.map (fun x => (s.started, x)) ∧
      (s.create n).2.reshape_candidates = s.reshape_candidates ∧
      (s.create n).2.sstables_to_remove = s.sstables_to_remove ∧
      (s.create n).2._performed = s._performed ∧
      (s.create n).2.started = s.started ∧
      (s.create n).2.returned = s.returned ∧
      (s.create n).2.inputs = s.inputs ∧
      (s.create n).2.unlinked = s.unlinked := by
  induction n with
  | zero =>
    intro s
    simp [offstrategy_run.create]
  | succ n ih =>
    intro s
    obtain ⟨h1, h2, h3, h4, h5, h6, h7, h8, h9, h10, h11⟩ := ih s.creator.2
    simp only [offstrategy_run.create]
    have hg : s.creator.2.generation = s.generation + 1 := rfl
    have hs : s.creator.2.started = s.started := rfl
    have hc : s.creator.2.created = s.created ++ [(s.started, s.creator.1)] := rfl
    have hid : s.creator.1.id = s.generation := rfl
    have hu : ∀ x, x ∈ s.creator.2.new_unused_sstables ↔
        x ∈ s.new_unused_sstables ∨ x = s.creator.1 := by
      intro x
      show x ∈ s.new_unused_sstables.insert s.creator.1 ↔ _
      rw [List.mem_insert_iff]
      exact or_comm
    refine ⟨?_, ?_, ?_, ?_, h5, h6, h7, ?_, h9, h10, h11⟩
    · intro x hx
      rcases List.mem_cons.mp hx with h | h
      · rw [h, hid]
        omega
      · have := h1 x h
        rw [hg] at this
        omega
    · rw [h2, hg]
      omega
    · intro x
      rw [h3 x, hu x, List.mem_cons, or_assoc]
    · rw [h4, hc, hs, List.map_cons, List.append_assoc]
      rfl
    · rw [h8, hs]
theorem sstable_contains_iff (l : List sstable) (x : sstable) : l.contains x = true ↔ x ∈ l := by
  simp

/-- The loop over the input of a round: it only moves inputs out of
`new_unused_sstables` into the record of the unlinked sstables, or, when they
are not there, into `sstables_to_remove`. -/
theorem release_input_spec (ur : sstable → Option error) (l : List sstable) :
    l.Nodup → ∀ s : offstrategy_run,
      ((s.release_input ur l).2.reshape_candidates = s.reshape_candidates ∧
        (s.release_input ur l).2.generation = s.generation ∧
        (s.release_input ur l).2.started = s.started ∧
        (s.release_input ur l).2.returned = s.returned ∧
        (s.release_input ur l).2.created = s.created ∧
        (s.release_input ur l).2.inputs = s.inputs ∧
        (s.release_input ur l).2._performed = s._performed) ∧
      (∀ x ∈ (s.release_input ur l).2.new_unused_sstables, x ∈ s.new_unused_sstables) ∧
      (∀ x ∈ s.new_unused_sstables, x ∉ l → x ∈ (s.release_input ur l).2.new_unused_sstables) ∧
      (∀ p ∈ (s.release_input ur l).2.unlinked, p ∈ s.unlinked ∨
        (p.1 = s.started ∧ p.2 ∈ l ∧ p.2 ∈ s.new_unused_sstables ∧
          p.2 ∉ (s.release_input ur l).2.new_unused_sstables)) ∧
      (∀ x ∈ (s.release_input ur l).2.sstables_to_remove, x ∈ s.sstables_to_remove ∨
        (x ∈ l ∧ x ∉ s.new_unused_sstables)) := by
  induction l with
  | nil =>
    intro _ s
    exact ⟨⟨rfl, rfl, rfl, rfl, rfl, rfl, rfl⟩, fun x h => h, fun x h _ => h,
      fun p h => Or.inl h, fun x h => Or.inl h⟩
  | cons sst rest ih =>
    intro hnd s
    rw [List.nodup_cons] at hnd
    obtain ⟨hsr, hnr⟩ := hnd
    simp only [offstrategy_run.release_input]
    by_cases hc : s.new_unused_sstables.contains sst = true
    · rw [if_pos hc]
      have hmem : sst ∈ s.new_unused_sstables := (sstable_contains_iff _ _).mp hc
      cases hur : ur sst with
      | some e =>
        exact ⟨by simp, fun x h => h, fun x h _ => h,
          fun p h => Or.inl h, fun x h => Or.inl h⟩
      | none =>
        simp only
        obtain ⟨f, i1, i2, i3, i4⟩ := ih hnr
          { s with
            unlinked := s.unlinked ++ [(s.started, sst)],
            new_unused_sstables := s.new_unused_sstables.filter (fun x => x != sst) }
        refine ⟨f, ?_, ?_, ?_, ?_⟩
        · intro x hx
          exact (List.mem_filter.mp (i1 x hx)).1
        · intro x hx hxl
          rw [List.mem_cons, not_or] at hxl
          apply i2 x _ hxl.2
          exact List.mem_filter.mpr ⟨hx, by simpa using hxl.1⟩
        · intro p hp
          rcases i3 p hp with h | ⟨h1, h2, h3, h4⟩
          · rcases List.mem_append.mp h with h | h
            · exact Or.inl h
            · rw [List.mem_singleton] at h
              right
              rw [h]
              refine ⟨rfl, List.mem_cons_self _ _, hmem, ?_⟩
              intro hin
              have := (List.mem_filter.mp (i1 sst hin)).2
              simp at this
          · exact Or.inr ⟨h1, List.mem_cons_of_mem _ h2, (List.mem_filter.mp h3).1, h4⟩
        · intro x hx
          rcases i4 x hx with h | ⟨h1, h2⟩
          · exact Or.inl h
          · right
            refine ⟨List.mem_cons_of_mem _ h1, ?_⟩
            intro hin
            apply h2
            refine List.mem_filter.mpr ⟨hin, ?_⟩
            have : x ≠ sst := by
              intro he
              rw [he] at h1
              exact hsr h1
            simpa using this
    · rw [if_neg hc]
      have hmem : sst ∉ s.new_unused_sstables := fun h => hc ((sstable_contains_iff _ _).mpr h)
      obtain ⟨f, i1, i2, i3, i4⟩ := ih hnr
        { s with sstables_to_remove := s.sstables_to_remove ++ [sst] }
      refine ⟨f, i1, ?_, ?_, ?_⟩
      · intro x hx hxl
        rw [List.mem_cons, not_or] at hxl
        exact i2 x hx hxl.2
      · intro p hp
        rcases i3 p hp with h | ⟨h1, h2, h3, h4⟩
        · exact Or.inl h
        · exact Or.inr ⟨h1, List.mem_cons_of_mem _ h2, h3, h4⟩
      · intro x hx
        rcases i4 x hx with h | ⟨h1, h2⟩
        · rcases List.mem_append.mp h with h | h
          · exact Or.inl h
          · rw [List.mem_singleton] at h
            rw [h]
            exact Or.inr ⟨List.mem_cons_self _ _, hmem⟩
        · exact Or.inr ⟨List.mem_cons_of_mem _ h1, h2⟩
theorem candidates_known (old : List sstable) (s : offstrategy_run) (hs : s.sound old) :
    ∀ x ∈ s.reshape_candidates, x.id < s.generation := by
  obtain ⟨_, k1, k2, _, k5, _, _, _⟩ := hs
  intro x hx
  rcases ((k5 x).mp hx).1 with h | ⟨j, h⟩
  · exact k1 x h
  · exact (k2 _ h).1

/-- The state in which a compaction raised is tidy. -/
theorem tidy_after_create (old : List sstable) (s s2 : offstrategy_run) (L : List sstable)
    (rnum : Nat) (hs : s.sound old)
    (hL : ∀ x ∈ L, s.generation ≤ x.id)
    (hu : ∀ x, x ∈ s2.new_unused_sstables ↔ x ∈ s.new_unused_sstables ∨ x ∈ L)
    (hc : s2.created = s.created ++ L.map (fun x => (rnum, x)))
    (hul : s2.unlinked = s.unlinked) : s2.tidy := by
  obtain ⟨⟨t1, t2, t3⟩, _, k2, _, _, _, _, _⟩ := hs
  refine ⟨?_, ?_, ?_⟩
  · intro x hx
    rw [hc]
    rcases (hu x).mp hx with h | h
    · obtain ⟨j, hj⟩ := t1 x h
      exact ⟨j, List.mem_append_left _ hj⟩
    · exact ⟨rnum, List.mem_append_right _ (List.mem_map.mpr ⟨x, h, rfl⟩)⟩
  · intro p hp
    rw [hul] at hp
    obtain ⟨j, hj1, hj2⟩ := t2 p hp
    exact ⟨j, hj1, by rw [hc]; exact List.mem_append_left _ hj2⟩
  · intro p hp
    rw [hul] at hp
    intro hin
    rcases (hu p.2).mp hin with h | h
    · exact t3 p hp h
    · obtain ⟨j, _, hj2⟩ := t2 p hp
      have h1 := (k2 _ hj2).1
      have h2 := hL _ h
      simp only at h1
      omega

/-- The state after a round whose compaction returned is sound. -/
theorem sound_after_round (old : List sstable) (s s2 r : offstrategy_run)
    (L input : List sstable) (n : Nat)
    (hs : s.sound old) (hin : ∀ x ∈ input, x ∈ s.reshape_candidates)
    (hL : ∀ x ∈ L, s.generation ≤ x.id ∧ x.id < s.generation + n)
    (hu2 : ∀ x, x ∈ s2.new_unused_sstables ↔ x ∈ s.new_unused_sstables ∨ x ∈ L)
    (hc2 : s2.created = s.created ++ L.map (fun x => (s.started + 1, x)))
    (hul2 : s2.unlinked = s.unlinked)
    (htr2 : s2.sstables_to_remove = s.sstables_to_remove)
    (hg : r.generation = s.generation + n) (hst : r.started = s.started + 1)
    (hcr : r.created = s2.created)
    (hir : r.inputs = s.inputs ++ input.map (fun x => (s.started + 1, x)))
    (hcand : r.reshape_candidates
      = s.reshape_candidates.filter (fun x => !input.contains x) ++ L)
    (i1 : ∀ x ∈ r.new_unused_sstables, x ∈ s2.new_unused_sstables)
    (i2 : ∀ x ∈ s2.new_unused_sstables, x ∉ input → x ∈ r.new_unused_sstables)
    (i3 : ∀ p ∈ r.unlinked, p ∈ s2.unlinked ∨
      (p.1 = s.started + 1 ∧ p.2 ∈ input ∧ p.2 ∈ s2.new_unused_sstables ∧
        p.2 ∉ r.new_unused_sstables))
    (i4 : ∀ x ∈ r.sstables_to_remove, x ∈ s2.sstables_to_remove ∨
      (x ∈ input ∧ x ∉ s2.new_unused_sstables)) : r.sound old := by
  have hck := candidates_known old s hs
  have htidy2 := tidy_after_create old s s2 L (s.started + 1) hs (fun x hx => (hL x hx).1) hu2
    hc2 hul2
  obtain ⟨⟨t1, t2, t3⟩, k1, k2, k3, k5, k6, k7, k10⟩ := hs
  obtain ⟨u1, u2, u3⟩ := htidy2
  have hinL : ∀ x ∈ input, x ∉ L := by
    intro x hx hxl
    have h1 := hck x (hin x hx)
    have h2 := (hL x hxl).1
    omega
  have hmc : ∀ j x, (j, x) ∈ r.created ↔ (j, x) ∈ s.created ∨ (j = s.started + 1 ∧ x ∈ L) := by
    intro j x
    rw [hcr, hc2, List.mem_append, List.mem_map]
    constructor
    · rintro (h | ⟨y, hy, he⟩)
      · exact Or.inl h
      · simp only [Prod.mk.injEq] at he
        exact Or.inr ⟨he.1.symm, he.2 ▸ hy⟩
    · rintro (h | ⟨h1, h2⟩)
      · exact Or.inl h
      · exact Or.inr ⟨x, h2, by rw [h1]⟩
  have hmi : ∀ k x, (k, x) ∈ r.inputs ↔ (k, x) ∈ s.inputs ∨ (k = s.started + 1 ∧ x ∈ input) := by
    intro k x
    rw [hir, List.mem_append, List.mem_map]
    constructor
    · rintro (h | ⟨y, hy, he⟩)
      · exact Or.inl h
      · simp only [Prod.mk.injEq] at he
        exact Or.inr ⟨he.1.symm, he.2 ▸ hy⟩
    · rintro (h | ⟨h1, h2⟩)
      · exact Or.inl h
      · exact Or.inr ⟨x, h2, by rw [h1]⟩
  have hmcand : ∀ x, x ∈ r.reshape_candidates ↔
      (x ∈ s.reshape_candidates ∧ x ∉ input) ∨ x ∈ L := by
    intro x
    rw [hcand, List.mem_append, List.mem_filter]
    simp
  refine ⟨⟨?_, ?_, ?_⟩, ?_, ?_, ?_, ?_, ?_, ?_, ?_⟩
  · intro x hx
    obtain ⟨j, hj⟩ := u1 x (i1 x hx)
    exact ⟨j, by rw [hcr]; exact hj⟩
  · intro p hp
    rcases i3 p hp with h | ⟨h1, h2, h3, _⟩
    · obtain ⟨j, hj1, hj2⟩ := u2 p h
      exact ⟨j, hj1, by rw [hcr]; exact hj2⟩
    · rcases (hu2 p.2).mp h3 with h | h
      · obtain ⟨j, hj⟩ := t1 p.2 h
        have := (k2 _ hj).2
        simp only at this
        exact ⟨j, by omega, (hmc j p.2).mpr (Or.inl hj)⟩
      · exact absurd h (hinL p.2 h2)
  · intro p hp
    rcases i3 p hp with h | ⟨_, _, _, h4⟩
    · exact fun hin' => u3 p h (i1 _ hin')
    · exact h4
  · intro x hx
    have := k1 x hx
    omega
  · rintro ⟨j, x⟩ hp
    rcases (hmc j x).mp hp with h | ⟨h1, h2⟩
    · have := k2 _ h
      simp only at this ⊢
      omega
    · have := hL x h2
      simp only
      omega
  · rintro ⟨k, x⟩ hp
    rcases (hmi k x).mp hp with h | ⟨_, h2⟩
    · have := k3 _ h
      simp only at this ⊢
      omega
    · have := hck x (hin x h2)
      simp only
      omega
  · intro x
    rw [hmcand]
    constructor
    · rintro (⟨h1, h2⟩ | h)
      · obtain ⟨h3, h4⟩ := (k5 x).mp h1
        refine ⟨?_, ?_⟩
        · rcases h3 with h3 | ⟨j, h3⟩
          · exact Or.inl h3
          · exact Or.inr ⟨j, (hmc j x).mpr (Or.inl h3)⟩
        · intro k hk
          rcases (hmi k x).mp hk with h5 | ⟨_, h5⟩
          · exact h4 k h5
          · exact h2 h5
      · refine ⟨Or.inr ⟨s.started + 1, (hmc _ x).mpr (Or.inr ⟨rfl, h⟩)⟩, ?_⟩
        intro k hk
        rcases (hmi k x).mp hk with h5 | ⟨_, h5⟩
        · have h6 := k3 _ h5
          have h7 := (hL x h).1
          simp only at h6
          omega
        · exact hinL x h5 h
    · rintro ⟨h1, h2⟩
      have hni : x ∉ input := fun h => h2 (s.started + 1) ((hmi _ x).mpr (Or.inr ⟨rfl, h⟩))
      have hns : ∀ k, (k, x) ∉ s.inputs := fun k h => h2 k ((hmi k x).mpr (Or.inl h))
      rcases h1 with h1 | ⟨j, h1⟩
      · exact Or.inl ⟨(k5 x).mpr ⟨Or.inl h1, hns⟩, hni⟩
      · rcases (hmc j x).mp h1 with h3 | ⟨_, h3⟩
        · exact Or.inl ⟨(k5 x).mpr ⟨Or.inr ⟨j, h3⟩, hns⟩, hni⟩
        · exact Or.inr h3
  · intro x hx _
    rcases (hmcand x).mp hx with ⟨h1, h2⟩ | h
    · by_cases hcx : ∃ j, (j, x) ∈ s.created
      · exact i2 x ((hu2 x).mpr (Or.inl (k6 x h1 hcx))) h2
      · rename_i hex
        obtain ⟨j, hj⟩ := hex
        rcases (hmc j x).mp hj with h3 | ⟨_, h3⟩
        · exact absurd ⟨j, h3⟩ hcx
        · exact i2 x ((hu2 x).mpr (Or.inr h3)) h2
    · exact i2 x ((hu2 x).mpr (Or.inr h)) (fun h' => hinL x h' h)
  · intro x hx
    rcases i4 x hx with h | ⟨h1, h2⟩
    · rw [htr2] at h
      exact k7 x h
    · have hc := hin x h1
      rcases ((k5 x).mp hc).1 with h3 | h3
      · exact h3
      · exact absurd ((hu2 x).mpr (Or.inl (k6 x hc h3))) h2
  · intro j k x hj hk
    rcases (hmc j x).mp hj with h1 | ⟨h1, h2⟩ <;> rcases (hmi k x).mp hk with h3 | ⟨h3, h4⟩
    · exact k10 j k x h1 h3
    · have := (k2 _ h1).2
      simp only at this
      omega
    · have h5 := k3 _ h3
      have h6 := (hL x h2).1
      simp only at h5
      omega
    · exact absurd h2 (hinL x h4)
/-- One round, started between two rounds of a run with a job taken from the
candidates: the state it ends in is tidy, and sound when the compaction
returned; `_performed` is set and the count of the rounds whose compaction
returned grows exactly when the compaction returned. -/
theorem round_sound (env : offstrategy_env) (old job : List sstable) (s : offstrategy_run)
    (hs : s.sound old) (hj : ∀ x ∈ job, x ∈ s.reshape_candidates) :
    (s.round env job).2.tidy ∧
    ((s.round env job).1 = Except.ok () → (s.round env job).2.sound old) ∧
    (((env.compact s.started).raised = Option.none ∧
        (s.round env job).2._performed = true ∧
        (s.round env job).2.returned = s.returned + 1) ∨
      ((∃ e, (s.round env job).1 = Except.error e) ∧
        (s.round env job).2._performed = s._performed ∧
        (s.round env job).2.returned = s.returned)) := by
  have hin : ∀ x ∈ job.dedup, x ∈ s.reshape_candidates :=
    fun x hx => hj x (List.mem_dedup.mp hx)
  obtain ⟨c1, c2, c3, c4, c5, c6, c7, c8, c9, c10, c11⟩ :=
    create_spec (env.compact s.started).created
      { s with
        started := s.started + 1,
        inputs := s.inputs ++ job.dedup.map (fun x => (s.started + 1, x)) }
  unfold offstrategy_run.round
  simp only
  cases hr : (env.compact s.started).raised with
  | some e =>
    simp only
    refine ⟨tidy_after_create old s _ _ (s.started + 1) hs (fun x hx => (c1 x hx).1) c3 c4 c11,
      fun h => (by cases h), Or.inr ⟨⟨e, rfl⟩, c7, c9⟩⟩
  | none =>
    simp only
    obtain ⟨⟨f1, f2, f3, f4, f5, f6, f7⟩, i1, i2, i3, i4⟩ :=
      release_input_spec env.unlink_raises job.dedup (List.nodup_dedup job)
        { ({ s with
              started := s.started + 1,
              inputs := s.inputs ++ job.dedup.map (fun x => (s.started + 1, x)) } :
            offstrategy_run).create (env.compact s.started).created |>.2 with
          _performed := true,
          returned := (({ s with
              started := s.started + 1,
              inputs := s.inputs ++ job.dedup.map (fun x => (s.started + 1, x)) } :
            offstrategy_run).create (env.compact s.started).created).2.returned + 1,
          reshape_candidates :=
            (({ s with
              started := s.started + 1,
              inputs := s.inputs ++ job.dedup.map (fun x => (s.started + 1, x)) } :
            offstrategy_run).create
              (env.compact s.started).created).2.reshape_candidates.filter
              (fun x => !job.dedup.contains x) ++
            (({ s with
              started := s.started + 1,
              inputs := s.inputs ++ job.dedup.map (fun x => (s.started + 1, x)) } :
            offstrategy_run).create (env.compact s.started).created).1 }
    have hsound := sound_after_round old s _ _ _ job.dedup (env.compact s.started).created hs hin
      c1 c3 c4 c11 c6 (f2.trans c2) (f3.trans c8) f5 (f6.trans c10)
      (f1.trans (by rw [c5])) i1 i2
      (fun p hp => by
        rcases i3 p hp with h | ⟨h1, h2, h3, h4⟩
        · exact Or.inl h
        · exact Or.inr ⟨h1.trans c8, h2, h3, h4⟩)
      i4
    exact ⟨hsound.1, fun _ => hsound,
      Or.inl ⟨(by first | rfl | trivial), f7, f4.trans (by rw [c9])⟩⟩
/-- The loop of the rounds, started between two rounds with a strategy that
takes its jobs from the candidates: the state it stops in is tidy; when it
ends without an exception the state is sound; and `_performed` is set exactly
when it was set before or the compaction of some round returned. -/
theorem rounds_sound (env : offstrategy_env) (old : List sstable)
    (hj : ∀ c, ∀ x ∈ env.get_reshaping_job c, x ∈ c) (fuel : Nat) :
    ∀ s : offstrategy_run, s.sound old →
      (s.rounds env fuel).2.tidy ∧
      ((s.rounds env fuel).1 = some (Except.ok ()) → (s.rounds env fuel).2.sound old) ∧
      s.returned ≤ (s.rounds env fuel).2.returned ∧
      ((s.rounds env fuel).2._performed = true ↔
        s._performed = true ∨ s.returned < (s.rounds env fuel).2.returned) := by
  induction fuel with
  | zero =>
    intro s hs
    have e : (s.rounds env 0).2 = s := by
      simp only [offstrategy_run.rounds]
      split <;> rfl
    rw [e]
    exact ⟨hs.1, fun _ => hs, Nat.le_refl _, by simp⟩
  | succ n ih =>
    intro s hs
    simp only [offstrategy_run.rounds]
    by_cases he : (env.get_reshaping_job s.reshape_candidates).isEmpty = true
    · rw [if_pos he]
      exact ⟨hs.1, fun _ => hs, Nat.le_refl _, by simp⟩
    · rw [if_neg he]
      obtain ⟨r1, r2, r3⟩ := round_sound env old (env.get_reshaping_job s.reshape_candidates) s hs
        (hj s.reshape_candidates)
      cases hround : s.round env (env.get_reshaping_job s.reshape_candidates) with
      | mk res s' =>
        rw [hround] at r1 r2 r3
        simp only at r1 r2 r3
        cases res with
        | error e =>
          simp only
          refine ⟨r1, fun h => (by cases h), ?_, ?_⟩
          · rcases r3 with ⟨_, _, h⟩ | ⟨_, _, h⟩ <;> omega
          · rcases r3 with ⟨_, h1, h2⟩ | ⟨_, h1, h2⟩
            · rw [h1, h2]
              simp
            · rw [h1, h2]
              simp
        | ok u =>
          simp only
          obtain ⟨i1, i2, i3, i4⟩ := ih s' (r2 rfl)
          have h1 : s'._performed = true ∧ s'.returned = s.returned + 1 := by
            rcases r3 with ⟨_, h1, h2⟩ | ⟨⟨e, h⟩, _, _⟩
            · exact ⟨h1, h2⟩
            · cases h
          refine ⟨i1, i2, by omega, ?_⟩
          rw [i4]
          constructor
          · intro _
            right
            omega
          · intro _
            left
            exact h1.1
theorem create_completion (n : Nat) :
    ∀ s : offstrategy_run, (s.create n).2.completion = s.completion := by
  induction n with
  | zero =>
    intro s
    rfl
  | succ n ih =>
    intro s
    simp only [offstrategy_run.create]
    exact ih s.creator.2

theorem release_input_completion (ur : sstable → Option error) (l : List sstable) :
    ∀ s : offstrategy_run, (s.release_input ur l).2.completion = s.completion := by
  induction l with
  | nil =>
    intro s
    rfl
  | cons sst rest ih =>
    intro s
    simp only [offstrategy_run.release_input]
    split
    · split
      · rfl
      · rw [ih]
    · rw [ih]

theorem round_completion (env : offstrategy_env) (job : List sstable) (s : offstrategy_run) :
    (s.round env job).2.completion = s.completion := by
  unfold offstrategy_run.round
  simp only
  split
  · rw [create_completion]
  · rw [release_input_completion]
    exact create_completion _ _

theorem rounds_completion (env : offstrategy_env) (fuel : Nat) :
    ∀ s : offstrategy_run, (s.rounds env fuel).2.completion = s.completion := by
  induction fuel with
  | zero =>
    intro s
    simp only [offstrategy_run.rounds]
    split <;> rfl
  | succ n ih =>
    intro s
    simp only [offstrategy_run.rounds]
    split
    · rfl
    · have h := round_completion env (env.get_reshaping_job s.reshape_candidates) s
      split
      · rename_i hm
        rw [hm] at h
        exact h
      · rename_i hm
        rw [hm] at h
        rw [ih]
        exact h

theorem initial_run_sound (env : offstrategy_env) (performed : Bool)
    (hg : ∀ x ∈ env.maintenance_sstables, x.id < env.generation) :
    offstrategy_run.sound env.maintenance_sstables
      { reshape_candidates := env.maintenance_sstables, _performed := performed,
        generation := env.generation } := by
  refine ⟨⟨?_, ?_, ?_⟩, hg, ?_, ?_, ?_, ?_, ?_, ?_⟩
  · intro x hx
    cases hx
  · intro p hp
    cases hp
  · intro p hp
    cases hp
  · intro p hp
    cases hp
  · intro p hp
    cases hp
  · intro x
    simp
  · rintro x _ ⟨j, hj⟩
    cases hj
  · intro x hx
    cases hx
  · intro j k x hj
    cases hj

theorem pairs_env_job : ∀ c, ∀ x ∈ pairs_env.get_reshaping_job c, x ∈ c := by
  intro c x hx
  unfold pairs_env at hx
  simp only at hx
  split at hx
  · exact List.mem_of_mem_take hx
  · cases hx

/-- C24: in `run_offstrategy_compaction`, with a strategy that takes the inputs of
each reshape job from the current candidates and a maintenance set older than
the sstables the run makes: every sstable unlinked during the rounds was made
by an earlier round of the same run; when the run completes, the sstables
marked for deletion all belong to the original maintenance set, and the
completion installed replaces the original maintenance set by the final
candidates, which are the original sstables that no round took as input and
the sstables made by a round that no later round took as input; when the run
fails, no completion is installed and the sstables marked for deletion were
all made by this run and not unlinked. -/
theorem offstrategy_bookkeeping (env : offstrategy_env) (fuel : Nat) (performed : Bool)
    (hj : ∀ c, ∀ x ∈ env.get_reshaping_job c, x ∈ c)
    (hg : ∀ x ∈ env.maintenance_sstables, x.id < env.generation) :
    (∀ p ∈ (run_offstrategy_compaction env fuel performed).2.unlinked,
      ∃ j, j < p.1 ∧ (j, p.2) ∈ (run_offstrategy_compaction env fuel performed).2.created) ∧
    ((run_offstrategy_compaction env fuel performed).1 = some (Except.ok ()) →
      (∀ x ∈ (run_offstrategy_compaction env fuel performed).2.marked_for_deletion,
        x ∈ env.maintenance_sstables) ∧
      ∃ final, (run_offstrategy_compaction env fuel performed).2.completion
          = some (env.maintenance_sstables, final) ∧
        ∀ x, x ∈ final ↔
          (x ∈ env.maintenance_sstables ∧
            ∀ k, (k, x) ∉ (run_offstrategy_compaction env fuel performed).2.inputs) ∨
          (∃ j, (j, x) ∈ (run_offstrategy_compaction env fuel performed).2.created ∧
            ∀ k, j < k → (k, x) ∉ (run_offstrategy_compaction env fuel performed).2.inputs)) ∧
    ((∃ e, (run_offstrategy_compaction env fuel performed).1 = some (Except.error e)) →
      (run_offstrategy_compaction env fuel performed).2.completion = Option.none ∧
      ∀ x ∈ (run_offstrategy_compaction env fuel performed).2.marked_for_deletion,
        (∃ j, (j, x) ∈ (run_offstrategy_compaction env fuel performed).2.created) ∧
        ∀ k, (k, x) ∉ (run_offstrategy_compaction env fuel performed).2.unlinked) := by
  obtain ⟨ht, hs, _, _⟩ := rounds_sound env env.maintenance_sstables hj fuel _
    (initial_run_sound env performed hg)
  have hc0 : (offstrategy_run.rounds env fuel
      { reshape_candidates := env.maintenance_sstables, _performed := performed,
        generation := env.generation }).2.completion = Option.none := by
    exact rounds_completion env fuel _
  unfold run_offstrategy_compaction
  simp only
  cases hr : (offstrategy_run.rounds env fuel
      { reshape_candidates := env.maintenance_sstables, _performed := performed,
        generation := env.generation }).1 with
  | none =>
    simp only
    refine ⟨ht.2.1, fun h => (by cases h), ?_⟩
    rintro ⟨e, h⟩
    cases h
  | some res =>
    cases res with
    | error e =>
      simp only
      refine ⟨ht.2.1, fun h => (by cases h), fun _ => ⟨hc0, ?_⟩⟩
      intro x hx
      exact ⟨ht.1 x hx, fun k hk => ht.2.2 _ hk hx⟩
    | ok u =>
      simp only
      obtain ⟨_, _, _, _, k5, _, k7, k10⟩ := hs hr
      cases hcomp : env.on_compaction_completion with
      | error e =>
        simp only
        refine ⟨ht.2.1, fun h => (by cases h), fun _ => ⟨hc0, ?_⟩⟩
        intro x hx
        exact ⟨ht.1 x hx, fun k hk => ht.2.2 _ hk hx⟩
      | ok v =>
        simp only
        refine ⟨ht.2.1, fun _ => ⟨k7, _, rfl, ?_⟩, ?_⟩
        · intro x
          rw [k5 x]
          constructor
          · rintro ⟨h1 | ⟨j, h1⟩, h2⟩
            · exact Or.inl ⟨h1, h2⟩
            · exact Or.inr ⟨j, h1, fun k _ => h2 k⟩
          · rintro (⟨h1, h2⟩ | ⟨j, h1, h2⟩)
            · exact ⟨Or.inl h1, h2⟩
            · exact ⟨Or.inr ⟨j, h1⟩, fun k hk => h2 k (k10 j k x h1 hk) hk⟩
        · rintro ⟨e, h⟩
          cases h
theorem offstrategy_bookkeeping_witness :
    (∀ c, ∀ x ∈ pairs_env.get_reshaping_job c, x ∈ c) ∧
    (∀ x ∈ pairs_env.maintenance_sstables, x.id < pairs_env.generation) ∧
    (run_offstrategy_compaction pairs_env 5 false).1 = some (Except.ok ()) ∧
    (run_offstrategy_compaction pairs_env 5 false).2.unlinked = [(2, { id := 10 })] ∧
    (run_offstrategy_compaction pairs_env 5 false).2.created
      = [(1, { id := 10 }), (2, { id := 11 })] ∧
    (run_offstrategy_compaction pairs_env 5 false).2.completion
      = some ([{ id := 1 }, { id := 2 }, { id := 3 }], [{ id := 11 }]) ∧
    (∀ x ∈ (run_offstrategy_compaction pairs_env 5 false).2.marked_for_deletion,
      x ∈ pairs_env.maintenance_sstables) :=
  ⟨pairs_env_job, by decide, rfl, by decide, by decide, by decide,
   ((offstrategy_bookkeeping pairs_env 5 false pairs_env_job (by decide)).2.1 rfl).1⟩

/-- One round sets `_performed` and counts one more compaction that returned, or
ends with an exception and leaves both as they were. -/
theorem round_performed (env : offstrategy_env) (job : List sstable) (s : offstrategy_run) :
    ((s.round env job).2._performed = true ∧ (s.round env job).2.returned = s.returned + 1) ∨
    ((∃ e, (s.round env job).1 = Except.error e) ∧
      (s.round env job).2._performed = s._performed ∧
      (s.round env job).2.returned = s.returned) := by
  obtain ⟨_, _, _, _, _, _, c7, _, c9, _, _⟩ :=
    create_spec (env.compact s.started).created
      { s with
        started := s.started + 1,
        inputs := s.inputs ++ job.dedup.map (fun x => (s.started + 1, x)) }
  unfold offstrategy_run.round
  simp only
  cases hr : (env.compact s.started).raised with
  | some e =>
    simp only
    exact Or.inr ⟨⟨e, rfl⟩, c7, c9⟩
  | none =>
    simp only
    obtain ⟨⟨_, _, _, f4, _, _, f7⟩, _⟩ :=
      release_input_spec env.unlink_raises job.dedup (List.nodup_dedup job)
        { ({ s with
              started := s.started + 1,
              inputs := s.inputs ++ job.dedup.map (fun x => (s.started + 1, x)) } :
            offstrategy_run).create (env.compact s.started).created |>.2 with
          _performed := true,
          returned := (({ s with
              started := s.started + 1,
              inputs := s.inputs ++ job.dedup.map (fun x => (s.started + 1, x)) } :
            offstrategy_run).create (env.compact s.started).created).2.returned + 1,
          reshape_candidates :=
            (({ s with
              started := s.started + 1,
              inputs := s.inputs ++ job.dedup.map (fun x => (s.started + 1, x)) } :
            offstrategy_run).create
              (env.compact s.started).created).2.reshape_candidates.filter
              (fun x => !job.dedup.contains x) ++
            (({ s with
              started := s.started + 1,
              inputs := s.inputs ++ job.dedup.map (fun x => (s.started + 1, x)) } :
            offstrategy_run).create (env.compact s.started).created).1 }
    exact Or.inl ⟨f7, f4.trans (by rw [c9])⟩

theorem rounds_performed (env : offstrategy_env) (fuel : Nat) :
    ∀ s : offstrategy_run,
      s.returned ≤ (s.rounds env fuel).2.returned ∧
      ((s.rounds env fuel).2._performed = true ↔
        s._performed = true ∨ s.returned < (s.rounds env fuel).2.returned) ∧
      (env.get_reshaping_job s.reshape_candidates = [] →
        (s.rounds env fuel).2.returned = s.returned ∧
        (s.rounds env fuel).2._performed = s._performed) := by
  induction fuel with
  | zero =>
    intro s
    have e : (s.rounds env 0).2 = s := by
      simp only [offstrategy_run.rounds]
      split <;> rfl
    rw [e]
    exact ⟨Nat.le_refl _, by simp, fun _ => ⟨rfl, rfl⟩⟩
  | succ n ih =>
    intro s
    simp only [offstrategy_run.rounds]
    by_cases he : (env.get_reshaping_job s.reshape_candidates).isEmpty = true
    · rw [if_pos he]
      exact ⟨Nat.le_refl _, by simp, fun _ => ⟨rfl, rfl⟩⟩
    · rw [if_neg he]
      have hne : env.get_reshaping_job s.reshape_candidates ≠ [] := by
        intro h
        rw [h] at he
        exact he rfl
      have r3 := round_performed env (env.get_reshaping_job s.reshape_candidates) s
      cases hround : s.round env (env.get_reshaping_job s.reshape_candidates) with
      | mk res s' =>
        rw [hround] at r3
        simp only at r3
        cases res with
        | error e =>
          simp only
          refine ⟨?_, ?_, fun h => absurd h hne⟩
          · rcases r3 with ⟨_, h⟩ | ⟨_, _, h⟩ <;> omega
          · rcases r3 with ⟨h1, h2⟩ | ⟨_, h1, h2⟩
            · rw [h1, h2]
              simp
            · rw [h1, h2]
              simp
        | ok u =>
          simp only
          obtain ⟨i3, i4, _⟩ := ih s'
          have h1 : s'._performed = true ∧ s'.returned = s.returned + 1 := by
            rcases r3 with h | ⟨⟨e, h⟩, _, _⟩
            · exact h
            · cases h
          refine ⟨by omega, ?_, fun h => absurd h hne⟩
          rw [i4]
          constructor
          · intro _
            right
            omega
          · intro _
            left
            exact h1.1

/-- After a run, `_performed` is set exactly when it was set before or the
compaction of a round returned; a run whose strategy has no job for the
maintenance set has no round. -/
theorem run_performed (env : offstrategy_env) (fuel : Nat) (performed : Bool) :
    ((run_offstrategy_compaction env fuel performed).2._performed = true ↔
      performed = true ∨ 0 < (run_offstrategy_compaction env fuel performed).2.returned) ∧
    (env.get_reshaping_job env.maintenance_sstables = [] →
      (run_offstrategy_compaction env fuel performed).2.returned = 0 ∧
      (run_offstrategy_compaction env fuel performed).2._performed = performed) := by
  obtain ⟨_, h2, h3⟩ := rounds_performed env fuel
    { reshape_candidates := env.maintenance_sstables, _performed := performed,
      generation := env.generation }
  unfold run_offstrategy_compaction
  simp only
  cases hr : (offstrategy_run.rounds env fuel
      { reshape_candidates := env.maintenance_sstables, _performed := performed,
        generation := env.generation }).1 with
  | none => exact ⟨h2, h3⟩
  | some res =>
    cases res with
    | error e => exact ⟨h2, h3⟩
    | ok u =>
      simp only
      cases env.on_compaction_completion with
      | error e => exact ⟨h2, h3⟩
      | ok v => exact ⟨h2, h3⟩
theorem performed_step (p q : Bool) (n k m : Nat)
    (h1 : q = true ↔ p = true ∨ 0 < k) (h2 : n + k ≤ m) :
    (q = true ∨ n + k < m) ↔ (p = true ∨ n < m) := by
  constructor
  · rintro (h | h)
    · rcases h1.mp h with h | h
      · exact Or.inl h
      · right; omega
    · right; omega
  · rintro (h | h)
    · exact Or.inl (h1.mpr (Or.inl h))
    · by_cases hk : 0 < k
      · exact Or.inl (h1.mpr (Or.inr hk))
      · right; omega

/-- After the body of an off-strategy task, `_performed` is set exactly when it
was set before or a call of `compact_sstables` returned; with a strategy that
has no job for the maintenance set no call is made. -/
theorem do_run_performed (attempts : List offstrategy_attempt) :
    ∀ (t : task) (cm : compaction_manager) (p : Bool) (n : Nat),
      n ≤ (offstrategy_compaction_task.do_run t cm p n attempts).returned ∧
      ((offstrategy_compaction_task.do_run t cm p n attempts)._performed = true ↔
        p = true ∨ n < (offstrategy_compaction_task.do_run t cm p n attempts).returned) ∧
      ((∀ a ∈ attempts, a.env.get_reshaping_job a.env.maintenance_sstables = []) →
        (offstrategy_compaction_task.do_run t cm p n attempts).returned = n ∧
        (offstrategy_compaction_task.do_run t cm p n attempts)._performed = p) := by
  induction attempts with
  | nil =>
    intro t cm p n
    exact ⟨Nat.le_refl _, by simp [offstrategy_compaction_task.do_run],
      fun _ => ⟨rfl, rfl⟩⟩
  | cons a rest ih =>
    intro t cm p n
    obtain ⟨hr1, hr2⟩ := run_performed a.env a.fuel p
    have hrun : n ≤ n + (run_offstrategy_compaction a.env a.fuel p).2.returned ∧
        ((run_offstrategy_compaction a.env a.fuel p).2._performed = true ↔
          p = true ∨ n < n + (run_offstrategy_compaction a.env a.fuel p).2.returned) ∧
        ((∀ b ∈ a :: rest, b.env.get_reshaping_job b.env.maintenance_sstables = []) →
          n + (run_offstrategy_compaction a.env a.fuel p).2.returned = n ∧
          (run_offstrategy_compaction a.env a.fuel p).2._performed = p) := by
      refine ⟨Nat.le_add_right _ _, ?_, ?_⟩
      · rw [hr1]
        constructor
        · rintro (h | h)
          · exact Or.inl h
          · right; omega
        · rintro (h | h)
          · exact Or.inl h
          · right; omega
      · intro hall
        have := hr2 (hall a (List.mem_cons_self _ _))
        exact ⟨by omega, this.2⟩
    have hstay : n ≤ n ∧ (p = true ↔ p = true ∨ n < n) ∧
        ((∀ b ∈ a :: rest, b.env.get_reshaping_job b.env.maintenance_sstables = []) →
          n = n ∧ p = p) :=
      ⟨Nat.le_refl _, by simp, fun _ => ⟨rfl, rfl⟩⟩
    have hrec : ∀ (t' : task) (cm' : compaction_manager),
        n ≤ (offstrategy_compaction_task.do_run t' cm'
          (run_offstrategy_compaction a.env a.fuel p).2._performed
          (n + (run_offstrategy_compaction a.env a.fuel p).2.returned) rest).returned ∧
        ((offstrategy_compaction_task.do_run t' cm'
            (run_offstrategy_compaction a.env a.fuel p).2._performed
            (n + (run_offstrategy_compaction a.env a.fuel p).2.returned) rest)._performed = true ↔
          p = true ∨ n < (offstrategy_compaction_task.do_run t' cm'
            (run_offstrategy_compaction a.env a.fuel p).2._performed
            (n + (run_offstrategy_compaction a.env a.fuel p).2.returned) rest).returned) ∧
        ((∀ b ∈ a :: rest, b.env.get_reshaping_job b.env.maintenance_sstables = []) →
          (offstrategy_compaction_task.do_run t' cm'
            (run_offstrategy_compaction a.env a.fuel p).2._performed
            (n + (run_offstrategy_compaction a.env a.fuel p).2.returned) rest).returned = n ∧
          (offstrategy_compaction_task.do_run t' cm'
            (run_offstrategy_compaction a.env a.fuel p).2._performed
            (n + (run_offstrategy_compaction a.env a.fuel p).2.returned) rest)._performed = p) := by
      intro t' cm'
      obtain ⟨i1, i2, i3⟩ := ih t' cm' (run_offstrategy_compaction a.env a.fuel p).2._performed
        (n + (run_offstrategy_compaction a.env a.fuel p).2.returned)
      refine ⟨by omega, ?_, ?_⟩
      · rw [i2]
        exact performed_step _ _ _ _ _ hr1 i1
      · intro hall
        have h1 := hr2 (hall a (List.mem_cons_self _ _))
        have h2 := i3 (fun b hb => hall b (List.mem_cons_of_mem _ hb))
        rw [h2.1, h2.2, h1.1, h1.2]
        exact ⟨rfl, rfl⟩
    simp only [offstrategy_compaction_task.do_run]
    split
    · exact hstay
    · exact hstay
    · split
      · exact hstay
      · split
        · exact hstay
        · exact hstay
        · split
          · exact hrun
          · exact hrun
          · split
            · exact hrun
            · exact hrun
            · exact hrec _ _
/-- C23, as stated, fails: the compaction of the first round returns, the one of
the second round raises a storage I/O error, and `perform_offstrategy` raises
that error instead of returning true. -/
theorem perform_offstrategy_raises_after_a_round :
    (perform_offstrategy enabled_manager { addr := 1 } 0
      [{ env := failing_pairs_env, fuel := 5 }]).returned = 1 ∧
    (perform_offstrategy enabled_manager { addr := 1 } 0
      [{ env := failing_pairs_env, fuel := 5 }]).result
        = some (Except.error error.storage_io_error) ∧
    (perform_offstrategy enabled_manager { addr := 1 } 0
      [{ env := failing_pairs_env, fuel := 5 }]).result ≠ some (Except.ok true) := by
  refine ⟨by decide, rfl, ?_⟩
  intro h
  have e : (perform_offstrategy enabled_manager { addr := 1 } 0
      [{ env := failing_pairs_env, fuel := 5 }]).result
        = some (Except.error error.storage_io_error) := rfl
  rw [e] at h
  cases h

/-- The value `perform_offstrategy(T)` returns, when it returns: true if and only
if at least one call of `compact_sstables` of the off-strategy task returned;
false, with no task created, when the manager is not enabled; and not true
when the strategy has no reshape job for the maintenance set. -/
theorem perform_offstrategy_returns (cm : compaction_manager) (t : table_state) (id : Nat)
    (attempts : List offstrategy_attempt) :
    (∀ b, (perform_offstrategy cm t id attempts).result = some (Except.ok b) →
      (b = true ↔ 0 < (perform_offstrategy cm t id attempts).returned)) ∧
    (cm._state ≠ state.enabled →
      (perform_offstrategy cm t id attempts).result = some (Except.ok false) ∧
      (perform_offstrategy cm t id attempts).cm = cm ∧
      (perform_offstrategy cm t id attempts).returned = 0) ∧
    ((∀ a ∈ attempts, a.env.get_reshaping_job a.env.maintenance_sstables = []) →
      ∀ b, (perform_offstrategy cm t id attempts).result = some (Except.ok b) → b = false) := by
  unfold perform_offstrategy
  by_cases hs : cm._state ≠ state.enabled
  · rw [if_pos hs]
    refine ⟨?_, fun _ => ⟨rfl, rfl, rfl⟩, ?_⟩
    · intro b hb
      simp only [Option.some.injEq, Except.ok.injEq] at hb
      rw [← hb]
      simp
    · intro _ b hb
      simp only [Option.some.injEq, Except.ok.injEq] at hb
      exact hb.symm
  · rw [if_neg hs]
    refine ⟨?_, fun h => absurd h hs, ?_⟩
    · intro b
      cases hm : task.make cm id task_class.offstrategy_compaction_task t.addr
          compaction_type.Reshape with
      | error e =>
        intro hb
        cases hb
      | ok tk =>
        simp only
        obtain ⟨_, h2, _⟩ := do_run_performed attempts tk (register_task cm tk) false 0
        cases ho : (offstrategy_compaction_task.do_run tk (register_task cm tk) false 0
            attempts).result with
        | none =>
          intro hb
          cases hb
        | some r =>
          simp only
          cases hf : (perform_task_finish (offstrategy_compaction_task.do_run tk
              (register_task cm tk) false 0 attempts).cm (offstrategy_compaction_task.do_run tk
              (register_task cm tk) false 0 attempts).task r).1 with
          | error e =>
            intro hb
            cases hb
          | ok u =>
            simp only
            intro hb
            simp only [Option.some.injEq, Except.ok.injEq] at hb
            rw [← hb, h2]
            simp
    · intro hall b
      cases hm : task.make cm id task_class.offstrategy_compaction_task t.addr
          compaction_type.Reshape with
      | error e =>
        intro hb
        cases hb
      | ok tk =>
        simp only
        obtain ⟨_, _, h3⟩ := do_run_performed attempts tk (register_task cm tk) false 0
        cases ho : (offstrategy_compaction_task.do_run tk (register_task cm tk) false 0
            attempts).result with
        | none =>
          intro hb
          cases hb
        | some r =>
          simp only
          cases hf : (perform_task_finish (offstrategy_compaction_task.do_run tk
              (register_task cm tk) false 0 attempts).cm (offstrategy_compaction_task.do_run tk
              (register_task cm tk) false 0 attempts).task r).1 with
          | error e =>
            intro hb
            cases hb
          | ok u =>
            simp only
            intro hb
            simp only [Option.some.injEq, Except.ok.injEq] at hb
            rw [← hb]
            exact (h3 hall).2

theorem perform_task_finish_raises (cm : compaction_manager) (tk : task) (e : error)
    (he : e ≠ error.compaction_stopped_exception) :
    (perform_task_finish cm tk (Except.error e)).1 = Except.error e := by
  cases e with
  | compaction_stopped_exception => exact absurd rfl he
  | compaction_aborted_exception => rfl
  | storage_io_error => rfl
  | other => rfl

theorem can_proceed_pending (tk : task) (cm : compaction_manager) (b : Bool) :
    (tk.switch_state cm task.state.pending).2.1.can_proceed
      (tk.switch_state cm task.state.pending).2.2 b = tk.can_proceed cm b := by
  unfold task.can_proceed can_proceed task.stopping
  cases hs : tk._state <;> simp [task.switch_state, hs]

theorem do_run_storage_io_error (tk : task) (cm : compaction_manager) (p : Bool) (n : Nat)
    (a : offstrategy_attempt) (rest : List offstrategy_attempt)
    (hp : tk.can_proceed cm false = Except.ok true)
    (ha : a.acquire = Except.ok ())
    (hr : (run_offstrategy_compaction a.env a.fuel p).1
      = some (Except.error error.storage_io_error)) :
    (offstrategy_compaction_task.do_run tk cm p n (a :: rest)).result
      = some (Except.error error.storage_io_error) := by
  have hp2 := can_proceed_pending tk cm false
  rw [hp] at hp2
  simp only [offstrategy_compaction_task.do_run, hp, ha, hp2, hr, task.maybe_retry]

theorem make_can_proceed (cm : compaction_manager) (id : Nat) (cls : task_class) (t : Nat)
    (type : compaction_type) (tk : task) (hm : task.make cm id cls t type = Except.ok tk)
    (hp : cm.can_proceed t = true) :
    tk.can_proceed (register_task cm tk) false = Except.ok true := by
  unfold task.make at hm
  cases hg : cm.get_compaction_state t with
  | error e => simp [hg] at hm
  | ok c =>
    simp only [hg] at hm
    split at hm
    · cases hm
    · have htk : tk = task.ctor id cls t type := by
        cases hm
        rfl
      subst htk
      unfold can_proceed at hp
      simp only [task.can_proceed, task.stopping, task.ctor, register_task, can_proceed]
      simp [hp]

/-- C23, amended: when `perform_offstrategy(T)` returns, it returns true if and
only if at least one call of `compact_sstables` of the off-strategy task
returned; when the manager is not enabled it returns false, creates no task
and leaves the manager as it is; and when the strategy has no reshape job
for the maintenance set it does not return true.  It raises instead of
returning when the task cannot be created (that error, and nothing else
happens), and when the body of the task ends with an error other than
`Stopped`, which `perform_task` raises again; a storage I/O error raised by
the reshape procedure of the first pass is such an error. -/
theorem perform_offstrategy_result (cm : compaction_manager) (t : table_state) (id : Nat)
    (attempts : List offstrategy_attempt) :
    (∀ b, (perform_offstrategy cm t id attempts).result = some (Except.ok b) →
      (b = true ↔ 0 < (perform_offstrategy cm t id attempts).returned)) ∧
    (cm._state ≠ state.enabled →
      (perform_offstrategy cm t id attempts).result = some (Except.ok false) ∧
      (perform_offstrategy cm t id attempts).cm = cm ∧
      (perform_offstrategy cm t id attempts).returned = 0) ∧
    ((∀ a ∈ attempts, a.env.get_reshaping_job a.env.maintenance_sstables = []) →
      ∀ b, (perform_offstrategy cm t id attempts).result = some (Except.ok b) → b = false) ∧
    (cm._state = state.enabled →
      (∀ e, task.make cm id task_class.offstrategy_compaction_task t.addr
          compaction_type.Reshape = Except.error e →
        (perform_offstrategy cm t id attempts).result = some (Except.error e) ∧
        (perform_offstrategy cm t id attempts).cm = cm ∧
        (perform_offstrategy cm t id attempts).returned = 0) ∧
      (∀ tk, task.make cm id task_class.offstrategy_compaction_task t.addr
          compaction_type.Reshape = Except.ok tk →
        (∀ e, (offstrategy_compaction_task.do_run tk (register_task cm tk) false 0
              attempts).result = some (Except.error e) →
          e ≠ error.compaction_stopped_exception →
          (perform_offstrategy cm t id attempts).result = some (Except.error e)) ∧
        (∀ a rest, attempts = a :: rest → cm.can_proceed t.addr = true →
          a.acquire = Except.ok () →
          (run_offstrategy_compaction a.env a.fuel false).1
            = some (Except.error error.storage_io_error) →
          (perform_offstrategy cm t id attempts).result
            = some (Except.error error.storage_io_error)))) := by
  refine ⟨(perform_offstrategy_returns cm t id attempts).1,
    (perform_offstrategy_returns cm t id attempts).2.1,
    (perform_offstrategy_returns cm t id attempts).2.2, ?_⟩
  intro hs
  have hs' : ¬ cm._state ≠ state.enabled := fun h => h hs
  have key : ∀ tk, task.make cm id task_class.offstrategy_compaction_task t.addr
        compaction_type.Reshape = Except.ok tk →
      ∀ e, (offstrategy_compaction_task.do_run tk (register_task cm tk) false 0
            attempts).result = some (Except.error e) →
        e ≠ error.compaction_stopped_exception →
        (perform_offstrategy cm t id attempts).result = some (Except.error e) := by
    intro tk hm e hr he
    unfold perform_offstrategy
    rw [if_neg hs']
    simp only [hm, hr, perform_task_finish_raises _ _ e he]
  refine ⟨?_, fun tk hm => ⟨key tk hm, ?_⟩⟩
  · intro e hm
    unfold perform_offstrategy
    rw [if_neg hs']
    simp only [hm]
    refine ⟨?_, ?_, ?_⟩ <;> first | rfl | trivial
  · intro a rest hat hp ha hr
    refine key tk hm error.storage_io_error ?_ (by decide)
    rw [hat]
    exact do_run_storage_io_error tk _ false 0 a rest
      (make_can_proceed cm id _ t.addr _ tk hm hp) ha hr

theorem perform_offstrategy_result_witness :
    stopped_manager._state ≠ state.enabled ∧
    (perform_offstrategy stopped_manager { addr := 1 } 0
      [{ env := pairs_env, fuel := 5 }]).result = some (Except.ok false) ∧
    (perform_offstrategy enabled_manager { addr := 1 } 0
      [{ env := pairs_env, fuel := 5 }]).result = some (Except.ok true) ∧
    (0 < (perform_offstrategy enabled_manager { addr := 1 } 0
      [{ env := pairs_env, fuel := 5 }]).returned) ∧
    enabled_manager._state = state.enabled ∧
    task.make enabled_manager 0 task_class.offstrategy_compaction_task 2
      compaction_type.Reshape = Except.error error.other ∧
    (perform_offstrategy enabled_manager { addr := 2 } 0
      [{ env := pairs_env, fuel := 5 }]).result = some (Except.error error.other) ∧
    enabled_manager.can_proceed 1 = true ∧
    (run_offstrategy_compaction failing_pairs_env 5 false).1
      = some (Except.error error.storage_io_error) ∧
    (perform_offstrategy enabled_manager { addr := 1 } 0
      [{ env := failing_pairs_env, fuel := 5 }, { env := pairs_env, fuel := 5 }]).result
        = some (Except.error error.storage_io_error) :=
  ⟨by decide,
   ((perform_offstrategy_result stopped_manager { addr := 1 } 0
      [{ env := pairs_env, fuel := 5 }]).2.1 (by decide)).1,
   rfl,
   ((perform_offstrategy_result enabled_manager { addr := 1 } 0
      [{ env := pairs_env, fuel := 5 }]).1 true rfl).mp rfl,
   rfl,
   rfl,
   (((perform_offstrategy_result enabled_manager { addr := 2 } 0
      [{ env := pairs_env, fuel := 5 }]).2.2.2 rfl).1 error.other rfl).1,
   rfl,
   rfl,
   (((perform_offstrategy_result enabled_manager { addr := 1 } 0
      [{ env := failing_pairs_env, fuel := 5 }, { env := pairs_env, fuel := 5 }]).2.2.2 rfl).2
      (task.ctor 0 task_class.offstrategy_compaction_task 1 compaction_type.Reshape) rfl).2
      _ _ rfl rfl rfl rfl⟩

end compaction_manager
